import Mathlib

/-!
# neogfx text_edit: glyph document model, editing and line breaking

A shallow embedding of the document side of `src/src/text_edit.cpp` and
`src/src/cursor.cpp`, and of the shaping entry point `to_glyph_text` of
`src/src/opengl_graphics_context.cpp`.

Conventions of the embedding.

* A `std::string` is a `List Char`; one list element stands for one `char`.
* Iterators into `iText`, `iGlyphs`, `iGlyphParagraphs` and `iGlyphLines` are
  natural-number indices into the corresponding list; the end iterator is the
  length of the list.
* Coordinates (`coordinate`, `dimension`) are exact integers.
* The pointer `iGlyphParagraphCache` is an optional index into the paragraph
  list.
* `text_edit.hpp`, the glyph class and the shaping library are not part of the
  repository sources.  The shaper `graphics_context::to_glyph_text` is a
  parameter of every function that reshapes; what the header declares is
  reconstructed from its uses in `text_edit.cpp`.  The implementation of the
  shaper in `opengl_graphics_context.cpp` is modelled in its own section, with
  the decoder, the directional classifier, the script lookup and the shaping
  library as parameters.
* `scrollable_widget::update_scrollbar_visibility()`, called at the end of
  `refresh_paragraph`, belongs to the base class; the line list and extents it
  leaves are a parameter too (`host`).  `refresh_lines`, which the staged
  callback of the widget runs, is modelled on its own, with a bound on the
  number of passes of its wrapping loop.
* Reading a glyph, paragraph or line at an index outside the list yields a
  default value; no theorem depends on such a read.
-/

namespace neogfx

/-! ## Fonts, styles and glyphs -/

/-- The part of `neogfx::font` the document model looks at. -/
structure font where
  id : Nat
  height : Int
  password : Bool
  password_mask : List Char
deriving DecidableEq, Repr, Inhabited

/-- Password switch of a font: `font::set_password`. -/
def font.set_password (f : font) (aPassword : Bool) (aMask : List Char) : font :=
  { f with password := aPassword, password_mask := aMask }

/-- A colour-or-gradient value of a style; `none` is the unset variant. -/
abbrev colour_type := Option Nat

/-- The record `text_edit::style` (the parent pointer and use count are
bookkeeping of the registry and are left out). -/
structure style where
  iFont : Option font
  iTextColour : colour_type
  iBackgroundColour : colour_type
  iTextOutlineColour : colour_type
deriving DecidableEq, Repr, Inhabited

inductive text_direction where
  | None
  | LTR
  | RTL
  | Whitespace
deriving DecidableEq, Repr, Inhabited

/-- A shaped glyph together with its paragraph-relative x position
(`paragraph_positioned_glyph`).  `source` is relative to the start of the
paragraph buffer handed to the shaper. -/
structure glyph where
  iDirection : text_direction
  iValue : Nat
  iSource : Nat × Nat
  cx : Int
  cy : Int
  underline : Bool
  mnemonic : Bool
  use_fallback : Bool
  x : Int
deriving DecidableEq, Repr, Inhabited

/-- Modelled from the spec: the glyph class is not among the sources; a glyph
is whitespace when its direction class is Whitespace. -/
def glyph.is_whitespace (g : glyph) : Bool :=
  g.iDirection = text_direction.Whitespace

def glyph.direction (g : glyph) : text_direction := g.iDirection

def glyph.value (g : glyph) : Nat := g.iValue

def glyph.source (g : glyph) : Nat × Nat := g.iSource

/-- The record `glyph_paragraph`: text span and glyph span of one paragraph. -/
structure glyph_paragraph where
  text_start_index : Nat
  text_end_index : Nat
  start_index : Nat
  end_index : Nat
deriving DecidableEq, Repr, Inhabited

/-- The record `glyph_line`: glyph range, vertical offset and extents. -/
structure glyph_line where
  start : Nat
  end_ : Nat
  y : Int
  extents : Int × Int
deriving DecidableEq, Repr, Inhabited

/-! ## Cursor (`cursor.cpp`) -/

structure cursor where
  iPosition : Nat
  iAnchor : Nat
deriving DecidableEq, Repr, Inhabited

def cursor.position (c : cursor) : Nat := c.iPosition

def cursor.anchor (c : cursor) : Nat := c.iAnchor

/-- The function `cursor::set_position`; the change notifications carry no
state. -/
def cursor.set_position (c : cursor) (aPosition : Nat) (aMoveAnchor : Bool) : cursor :=
  { iPosition := aPosition, iAnchor := if aMoveAnchor then aPosition else c.iAnchor }

/-- The function `cursor::set_anchor`. -/
def cursor.set_anchor (c : cursor) (aAnchor : Nat) : cursor :=
  if c.iAnchor ≠ aAnchor then { c with iAnchor := aAnchor } else c

/-! ## The document -/

inductive type_e where
  | SingleLine
  | MultiLine
deriving DecidableEq, Repr, Inhabited

/-- State of a `text_edit` widget as far as the document model goes.  Every
character of `iText` carries its style tag. -/
structure text_edit where
  iType : type_e
  iWordWrap : Bool
  iPassword : Bool
  iPasswordMask : List Char
  iDefaultStyle : style
  iWidgetFont : font
  iStyles : List style
  iText : List (Char × style)
  iGlyphs : List glyph
  iGlyphParagraphs : List glyph_paragraph
  iGlyphParagraphCache : Option Nat
  iGlyphLines : List glyph_line
  iTextExtents : Int × Int
  iCursor : cursor
deriving Repr, Inhabited

/-- The shaper `graphics_context::to_glyph_text`: paragraph buffer and font
selector in, glyphs out. -/
abbrev shaper := List Char → (Nat → font) → List glyph

/-- The function `text_edit::text`. -/
def text_edit.text (d : text_edit) : List Char := d.iText.map Prod.fst

/-- The function `text_edit::font`. -/
def text_edit.font (d : text_edit) : font :=
  match d.iDefaultStyle.iFont with
  | some f => f
  | none => d.iWidgetFont

/-- Element access into the glyph array. -/
def glyph_at (gs : List glyph) (i : Nat) : glyph := gs.getD i default

/-- Element access into the paragraph list. -/
def paragraph_at (ps : List glyph_paragraph) (i : Nat) : glyph_paragraph := ps.getD i default

/-- The algorithm `std::lower_bound` on the index range `[first, first + len)`:
`comp i` says that the element at `i` is less than the key. -/
def lower_bound_go (comp : Nat → Bool) : Nat → Nat → Nat → Nat
  | 0, first, _ => first
  | fuel + 1, first, len =>
    if len = 0 then first
    else
      let half := len / 2
      let mid := first + half
      if comp mid then lower_bound_go comp fuel (mid + 1) (len - half - 1)
      else lower_bound_go comp fuel first half

def lower_bound (comp : Nat → Bool) (first last : Nat) : Nat :=
  lower_bound_go comp (last - first) first (last - first)

/-- First index in `[i, i + n)` satisfying `p`, the scan of a forward loop. -/
def find_from (p : Nat → Bool) : Nat → Nat → Option Nat
  | _, 0 => none
  | i, n + 1 => if p i then some i else find_from p (i + 1) n

/-- The function `text_edit::to_glyph`: glyph index for a text offset, and the
paragraph cache it leaves behind. -/
def text_edit.to_glyph (d : text_edit) (aWhere : Nat) : Nat × Option Nat :=
  let textIndex := aWhere
  let ps := d.iGlyphParagraphs
  let lookup : Bool :=
    match d.iGlyphParagraphCache with
    | none => true
    | some c =>
      aWhere < (paragraph_at ps c).text_start_index || aWhere ≥ (paragraph_at ps c).text_end_index
  let cache : Option Nat :=
    if lookup then
      let paragraph := lower_bound (fun i => (paragraph_at ps i).text_start_index < textIndex) 0 ps.length
      let paragraph :=
        if paragraph = ps.length ∧ paragraph ≠ 0 ∧ aWhere ≤ (paragraph_at ps (paragraph - 1)).text_end_index
        then paragraph - 1 else paragraph
      if paragraph ≠ ps.length then some paragraph else d.iGlyphParagraphCache
    else d.iGlyphParagraphCache
  match cache with
  | none => (d.iGlyphs.length, cache)
  | some c =>
    let p := paragraph_at ps c
    match find_from (fun i => textIndex ≥ (glyph_at d.iGlyphs i).source.1 && textIndex < (glyph_at d.iGlyphs i).source.2)
        p.start_index (p.end_index - p.start_index) with
    | some i => (i, cache)
    | none =>
      if p.end_index ≠ d.iGlyphs.length ∧ (glyph_at d.iGlyphs p.end_index).is_whitespace
          ∧ (glyph_at d.iGlyphs p.end_index).value = 10
      then (p.end_index + 1, cache) else (p.end_index, cache)

/-- The function `text_edit::from_glyph`: text range of a glyph, and the
paragraph cache it leaves behind. -/
def text_edit.from_glyph (d : text_edit) (aWhere : Nat) : (Nat × Nat) × Option Nat :=
  let ps := d.iGlyphParagraphs
  if aWhere = d.iGlyphs.length then
    if d.iGlyphs = [] then ((0, 0), d.iGlyphParagraphCache)
    else
      let e := (paragraph_at ps (ps.length - 1)).text_start_index + (glyph_at d.iGlyphs (aWhere - 1)).source.2
      ((e, e), d.iGlyphParagraphCache)
  else
    let hit : Bool :=
      match d.iGlyphParagraphCache with
      | none => false
      | some c => aWhere ≥ (paragraph_at ps c).start_index && aWhere < (paragraph_at ps c).end_index
    if hit then
      let p := paragraph_at ps (d.iGlyphParagraphCache.getD 0)
      ((p.text_start_index + (glyph_at d.iGlyphs aWhere).source.1,
        p.text_start_index + (glyph_at d.iGlyphs aWhere).source.2), d.iGlyphParagraphCache)
    else
      let paragraph := lower_bound (fun i => (paragraph_at ps i).start_index < aWhere) 0 ps.length
      let paragraph :=
        if paragraph = ps.length ∧ paragraph ≠ 0 ∧ aWhere ≤ (paragraph_at ps (paragraph - 1)).end_index
        then paragraph - 1 else paragraph
      if paragraph ≠ ps.length then
        let paragraph := if (paragraph_at ps paragraph).start_index > aWhere then paragraph - 1 else paragraph
        let p := paragraph_at ps paragraph
        ((p.text_start_index + (glyph_at d.iGlyphs aWhere).source.1,
          p.text_start_index + (glyph_at d.iGlyphs aWhere).source.2), some paragraph)
      else ((d.iText.length, d.iText.length), d.iGlyphParagraphCache)

/-! ## Rebuilding the glyph model (`refresh_paragraph`) -/

/-- Unsigned subtraction on `std::size_t`. -/
def size_sub (a b : Nat) : Nat := if b ≤ a then a - b else a + 2 ^ 64 - b

/-- What the widget's surroundings provide: the shaper of the graphics context
and the layout pass behind `scrollable_widget::update_scrollbar_visibility()`,
which leaves a line list and text extents for the rebuilt document. -/
structure host where
  to_glyph_text : shaper
  update_scrollbar_visibility :
    List (Char × style) → List glyph → List glyph_paragraph → List glyph_line × (Int × Int)

/-- The font selector `fs` built inside `refresh_paragraph`. -/
def text_edit.fs (d : text_edit) (paragraphStart : Nat) (aSourceIndex : Nat) : neogfx.font :=
  let style := (d.iText.getD (paragraphStart + aSourceIndex) default).2
  let f := match style.iFont with
    | some f => f
    | none => d.font
  if d.iPassword then
    f.set_password true
      (if d.iPasswordMask = [] then [Char.ofNat 0xE2, Char.ofNat 0x97, Char.ofNat 0x8F] else d.iPasswordMask)
  else f

/-- First loop of `refresh_paragraph`: `rest` is the text from `ch` on,
`paragraphStart` the start of the paragraph being collected. -/
def text_edit.refresh_paragraph_loop (h : host) (d : text_edit) :
    List Char → Nat → Nat → List glyph → List glyph_paragraph → List glyph × List glyph_paragraph
  | [], _, _, gs, ps => (gs, ps)
  | c :: rest, ch, paragraphStart, gs, ps =>
    if c = '\n' ∨ rest = [] then
      let paragraphBuffer := (d.text.drop paragraphStart).take (ch + 1 - paragraphStart)
      let gt := h.to_glyph_text paragraphBuffer (d.fs paragraphStart)
      let paragraphGlyphs := gs.length
      let gs1 := gs ++ gt
      let p : glyph_paragraph :=
        { text_start_index := paragraphStart
          text_end_index := ch + 1
          start_index := paragraphGlyphs
          end_index := size_sub gs1.length (if c = '\n' then 1 else 0) }
      text_edit.refresh_paragraph_loop h d rest (ch + 1) (ch + 1) gs1 (ps ++ [p])
    else
      text_edit.refresh_paragraph_loop h d rest (ch + 1) paragraphStart gs ps

/-- Inner loop of the second pass: running x positions for `n` glyphs from
index `g` on. -/
def position_glyphs : List glyph → Nat → Nat → Int → List glyph
  | gs, _, 0, _ => gs
  | gs, g, n + 1, x =>
    position_glyphs (gs.set g { glyph_at gs g with x := x }) (g + 1) n (x + (glyph_at gs g).cx)

/-- Second loop of `refresh_paragraph`: position the glyphs of every paragraph. -/
def position_paragraphs : List glyph_paragraph → List glyph → List glyph
  | [], gs => gs
  | p :: ps, gs =>
    if p.start_index = p.end_index then position_paragraphs ps gs
    else position_paragraphs ps (position_glyphs gs p.start_index (p.end_index - p.start_index) 0)

/-- The function `text_edit::refresh_paragraph`. -/
def text_edit.refresh_paragraph (h : host) (d : text_edit) : text_edit :=
  let r := d.refresh_paragraph_loop h d.text 0 0 [] []
  let gs := position_paragraphs r.2 r.1
  let l := h.update_scrollbar_visibility d.iText gs r.2
  { d with
    iGlyphs := gs
    iGlyphParagraphs := r.2
    iGlyphParagraphCache := none
    iGlyphLines := l.1
    iTextExtents := l.2 }

/-! ## Cursor position and editing -/

/-- The record `position_info`: glyph, line and position of the cursor. -/
structure position_info where
  glyph : Nat
  line : Nat
  pos : Int × Int
deriving DecidableEq, Repr, Inhabited

def line_at (ls : List glyph_line) (i : Nat) : glyph_line := ls.getD i default

/-- The function `text_edit::position`. -/
def text_edit.position (d : text_edit) (aPosition : Nat) : position_info :=
  match find_from (fun l => aPosition ≥ (line_at d.iGlyphLines l).start && aPosition ≤ (line_at d.iGlyphLines l).end_)
      0 d.iGlyphLines.length with
  | some l =>
    let line := line_at d.iGlyphLines l
    if line.start ≠ line.end_ then
      let iterGlyph := d.iCursor.position
      let glyph := if d.iCursor.position < line.end_ then glyph_at d.iGlyphs iterGlyph
        else glyph_at d.iGlyphs (iterGlyph - 1)
      let linePos : Int × Int := (glyph.x - (glyph_at d.iGlyphs line.start).x, line.y)
      let linePos := if d.iCursor.position = line.end_ then (linePos.1 + glyph.cx, linePos.2) else linePos
      { glyph := iterGlyph, line := l, pos := linePos }
    else { glyph := line.start, line := l, pos := (0, line.y) }
  | none =>
    let pos : Int × Int :=
      if d.iGlyphLines ≠ [] then
        (0, (line_at d.iGlyphLines (d.iGlyphLines.length - 1)).y
            + (line_at d.iGlyphLines (d.iGlyphLines.length - 1)).extents.2)
      else (0, 0)
    { glyph := d.iGlyphs.length, line := d.iGlyphLines.length, pos := pos }

/-- Strict order on optional values: unset sorts first. -/
def option_lt {α : Type} (lt : α → α → Bool) : Option α → Option α → Bool
  | none, some _ => true
  | some a, some b => lt a b
  | _, none => false

/-- The comparison `text_edit::style::operator<`: a lexicographic comparison of
font, text colour and background colour. -/
def style.lt (a b : style) : Bool :=
  let f1 := option_lt (fun (x y : font) => decide (x.id < y.id)) a.iFont b.iFont
  let f2 := option_lt (fun (x y : font) => decide (x.id < y.id)) b.iFont a.iFont
  let t1 := option_lt (fun (x y : Nat) => decide (x < y)) a.iTextColour b.iTextColour
  let t2 := option_lt (fun (x y : Nat) => decide (x < y)) b.iTextColour a.iTextColour
  let b1 := option_lt (fun (x y : Nat) => decide (x < y)) a.iBackgroundColour b.iBackgroundColour
  f1 || (!f2 && (t1 || (!t2 && b1)))

/-- Insertion into the ordered set `iStyles`: the set afterwards and the
element the returned iterator points at. -/
def style_list_insert : List style → style → List style × style
  | [], a => ([a], a)
  | e :: es, a =>
    if a.lt e then (a :: e :: es, a)
    else if e.lt a then ((e :: (style_list_insert es a).1), (style_list_insert es a).2)
    else (e :: es, e)

/-- Local variable `eos` of `insert_text`: the length of the normalised buffer,
cut at the first line feed in a single-line widget. -/
def text_edit.eos (d : text_edit) (iNormalizedTextBuffer : List Char) : Nat :=
  let eos := iNormalizedTextBuffer.length
  if d.iType = type_e.SingleLine then
    let eol := iNormalizedTextBuffer.indexOf '\n'
    if eol ≠ iNormalizedTextBuffer.length then eol else eos
  else eos

/-- Local variable `insertionPoint` of `insert_text`: the text offset of the
glyph under the cursor, the end of the text when there is none. -/
def text_edit.insertionPoint (d : text_edit) : Nat :=
  let insertionPoint := d.iText.length
  if d.iGlyphs ≠ [] then
    let p := d.position d.iCursor.position
    if p.glyph ≠ d.iGlyphs.length then
      if p.glyph ≠ (line_at d.iGlyphLines p.line).end_ then (d.from_glyph p.glyph).1.1
      else if (line_at d.iGlyphLines p.line).end_ ≠ d.iGlyphs.length then
        (d.from_glyph (line_at d.iGlyphLines p.line).end_).1.1
      else insertionPoint
    else insertionPoint
  else insertionPoint

/-- The function `text_edit::insert_text` (three-argument overload): the
document afterwards and the returned length. -/
def text_edit.insert_text (h : host) (d : text_edit) (aText : List Char) (aStyle : style)
    (aMoveCursor : Bool) : text_edit × Nat :=
  let iNormalizedTextBuffer := aText.filter (fun ch => ch ≠ '\r')
  let eos := d.eos iNormalizedTextBuffer
  let s := style_list_insert d.iStyles aStyle
  let insertionPoint := d.insertionPoint
  let inserted := (iNormalizedTextBuffer.take eos).map (fun ch => (ch, s.2))
  let d1 := { d with
    iStyles := s.1
    iText := d.iText.take insertionPoint ++ inserted ++ d.iText.drop insertionPoint }
  let d2 := d1.refresh_paragraph h
  let d3 := if aMoveCursor then
      { d2 with iCursor := d2.iCursor.set_position (d2.iCursor.position + eos) true }
    else d2
  (d3, eos)

/-- The two-argument overload of `insert_text`: the default style is used. -/
def text_edit.insert_text_default (h : host) (d : text_edit) (aText : List Char)
    (aMoveCursor : Bool) : text_edit × Nat :=
  d.insert_text h aText d.iDefaultStyle aMoveCursor

/-- The function `text_edit::delete_text`.  The erased range runs from the
start of the first glyph's text range to the end of the last one's; the two
`from_glyph` calls are taken in the order of the arguments. -/
def text_edit.delete_text (h : host) (d : text_edit) (aStart aEnd : Nat) : text_edit :=
  if aStart = aEnd then d
  else
    let first := d.from_glyph aStart
    let last := { d with iGlyphParagraphCache := first.2 }.from_glyph (aEnd - 1)
    { d with iText := d.iText.take first.1.1 ++ d.iText.drop last.1.2 }.refresh_paragraph h

/-- The function `text_edit::delete_any_selection`. -/
def text_edit.delete_any_selection (h : host) (d : text_edit) : text_edit :=
  if d.iCursor.position ≠ d.iCursor.anchor then
    let d1 := d.delete_text h (min d.iCursor.position d.iCursor.anchor)
      (max d.iCursor.position d.iCursor.anchor)
    { d1 with iCursor := d1.iCursor.set_position (min d1.iCursor.position d1.iCursor.anchor) true }
  else d

/-- The function `text_edit::delete_selected`. -/
def text_edit.delete_selected (h : host) (d : text_edit) : text_edit :=
  if d.iCursor.position ≠ d.iCursor.anchor then d.delete_any_selection h
  else if d.iCursor.position < d.iGlyphs.length then
    d.delete_text h d.iCursor.position (d.iCursor.position + 1)
  else d

/-- The function `text_edit::copy`: the document (its paragraph cache may move)
and the clipboard text afterwards. -/
def text_edit.copy (d : text_edit) (aClipboard : List Char) : text_edit × List Char :=
  if d.iCursor.position ≠ d.iCursor.anchor then
    let selectionStart := min d.iCursor.position d.iCursor.anchor
    let selectionEnd := max d.iCursor.position d.iCursor.anchor
    let s := d.from_glyph selectionStart
    let d1 := { d with iGlyphParagraphCache := s.2 }
    let e := d1.from_glyph selectionEnd
    let d2 := { d1 with iGlyphParagraphCache := e.2 }
    let selectedText := (d.text.drop s.1.1).take (e.1.1 - s.1.1)
    (d2, selectedText)
  else (d, aClipboard)

/-- The function `text_edit::cut`. -/
def text_edit.cut (h : host) (d : text_edit) (aClipboard : List Char) : text_edit × List Char :=
  if d.iCursor.position ≠ d.iCursor.anchor then
    let r := d.copy aClipboard
    (r.1.delete_selected h, r.2)
  else (d, aClipboard)

/-- One glyph per character, in order, each of advance `adv`: the glyph of the
character at buffer offset `i` has source range `[i, i + 1)`; blanks and line
feeds are whitespace glyphs carrying their character as value. -/
def byte_glyphs (adv : Int) : List Char → Nat → List glyph
  | [], _ => []
  | c :: cs, i =>
    { iDirection := if c = ' ' ∨ c = '\n' ∨ c = '\t' then text_direction.Whitespace else text_direction.LTR
      iValue := c.toNat
      iSource := (i, i + 1)
      cx := adv
      cy := 0
      underline := false
      mnemonic := false
      use_fallback := false
      x := 0 } :: byte_glyphs adv cs (i + 1)

def byte_shaper (adv : Int) : shaper := fun buf _ => byte_glyphs adv buf 0

/-- A host whose layout pass leaves no lines. -/
def plain_host (adv : Int) : host :=
  { to_glyph_text := byte_shaper adv
    update_scrollbar_visibility := fun _ _ _ => ([], (0, 0)) }

def plain_style : style :=
  { iFont := none, iTextColour := none, iBackgroundColour := none, iTextOutlineColour := none }

/-- A freshly constructed widget: no text, no glyphs, cursor at 0. -/
def empty_document (t : type_e) : text_edit :=
  { iType := t
    iWordWrap := decide (t = type_e.MultiLine)
    iPassword := false
    iPasswordMask := []
    iDefaultStyle := plain_style
    iWidgetFont := { id := 0, height := 16, password := false, password_mask := [] }
    iStyles := []
    iText := []
    iGlyphs := []
    iGlyphParagraphs := []
    iGlyphParagraphCache := none
    iGlyphLines := []
    iTextExtents := (0, 0)
    iCursor := { iPosition := 0, iAnchor := 0 } }

/-- The document holding `s`, built by inserting `s` into a fresh multi-line
widget (word wrap on) whose shaper yields one glyph of advance `adv` per
character. -/
def document_adv (adv : Int) (s : String) : text_edit :=
  ((empty_document type_e.MultiLine).insert_text (plain_host adv) s.toList plain_style true).1

/-- The document holding `s` with glyphs of advance 10 and the cursor (position
and anchor) placed at `pos`. -/
def document_of (s : String) (pos : Nat) : text_edit :=
  let d := ((empty_document type_e.MultiLine).insert_text (plain_host 10) s.toList plain_style true).1
  { d with iCursor := d.iCursor.set_position pos true }

/-! ## Line breaking (`refresh_lines`, `word_break`) -/

/-- Backward scan `while (i != aBegin && cond(i)) --i`. -/
def scan_back (cond : Nat → Bool) (aBegin : Nat) : Nat → Nat
  | 0 => 0
  | i + 1 => if i + 1 ≠ aBegin ∧ cond (i + 1) then scan_back cond aBegin i else i + 1

/-- Forward scan `while (cond(i) && i != aEnd) ++i`, at most `n` steps. -/
def scan_forward (cond : Nat → Bool) (aEnd : Nat) : Nat → Nat → Nat
  | 0, i => i
  | n + 1, i => if cond i ∧ i ≠ aEnd then scan_forward cond aEnd n (i + 1) else i

/-- The function `text_edit::word_break`. -/
def word_break (gs : List glyph) (aBegin aFrom aEnd : Nat) : Nat × Nat :=
  let skip (result : Nat × Nat) : Nat × Nat :=
    let first := scan_back (fun i => (glyph_at gs (i - 1)).is_whitespace) aBegin result.1
    let second := scan_forward (fun i => (glyph_at gs i).is_whitespace) aEnd (aEnd - result.2) result.2
    (first, second)
  if ¬ (glyph_at gs aFrom).is_whitespace then
    let first := scan_back (fun i => ! (glyph_at gs i).is_whitespace) aBegin aFrom
    if ¬ (glyph_at gs first).is_whitespace then
      let first := scan_back (fun i => (glyph_at gs (i - 1)).source = (glyph_at gs aFrom).source) aBegin aFrom
      (first, first)
    else skip (first, first)
  else skip (aFrom, aFrom)

/-- Font of the style tagging the text a glyph comes from, the default font
when the style has none. -/
def text_edit.glyph_font (d : text_edit) (p : glyph_paragraph) (g : glyph) : neogfx.font :=
  match (d.iText.getD (p.text_start_index + g.source.1) default).2.iFont with
  | some f => f
  | none => d.font

/-- Modelled from the spec: `glyph_paragraph::height` is declared in the header,
which is not among the sources; the height of a line is the maximum font
height among its glyphs. -/
def text_edit.paragraph_height (d : text_edit) (p : glyph_paragraph) (lineStart lineEnd : Nat) : Int :=
  ((List.range' lineStart (lineEnd - lineStart)).map
    (fun i => (d.glyph_font p (glyph_at d.iGlyphs i)).height)).foldl max 0

/-- Loop variables of the wrapping loop together with the output it builds. -/
structure wrap_state where
  next : Nat
  lineStart : Nat
  lineEnd : Nat
  offset : Int
  y : Int
  lines : List glyph_line
  cx : Int
deriving DecidableEq, Repr, Inhabited

/-- Modelled from the spec: the comparison of a glyph with the key
`paragraph_positioned_glyph{offset + availableWidth}` is declared in the header;
the search is by glyph x position. -/
def split_point (gs : List glyph) (next pend : Nat) (key : Int) : Nat :=
  lower_bound (fun i => decide ((glyph_at gs i).x < key)) next pend

/-- Local variable `split` of the wrapping loop after its two adjustments: the
search result is moved one glyph back unless it is the paragraph end with the
last glyph still fitting, and moved to `next + 1` when that leaves it at `next`. -/
def wrap_split (gs : List glyph) (next pend : Nat) (key : Int) : Nat :=
  let split := split_point gs next pend key
  let split :=
    if split ≠ next ∧ (split ≠ pend ∨
        (glyph_at gs (split - 1)).x + (glyph_at gs (split - 1)).cx ≥ key)
    then split - 1 else split
  if split = next then split + 1 else split

/-- Local variables `lineEnd` and `next` of the wrapping loop after the word
break: the result of `word_break`, pulled back over glyphs sharing a source
range when the break is forced, or the paragraph end when nothing is left to
split. -/
def wrap_break (gs : List glyph) (lineStart lineEnd split pend : Nat) : Nat × Nat :=
  if split ≠ pend then
    let wordBreak := word_break gs lineStart split pend
    if wordBreak.1 = wordBreak.2 then
      let lineEnd := scan_back
        (fun i => (glyph_at gs (i - 1)).source = (glyph_at gs wordBreak.1).source) lineStart wordBreak.1
      (lineEnd, lineEnd)
    else wordBreak
  else (lineEnd, pend)

/-- A trailing carriage-return glyph is left out of the line. -/
def trim_cr (gs : List glyph) (lineStart lineEnd : Nat) : Nat :=
  if lineStart ≠ lineEnd ∧ (glyph_at gs (lineEnd - 1)).is_whitespace
      ∧ (glyph_at gs (lineEnd - 1)).value = 13
  then lineEnd - 1 else lineEnd

/-- One pass through the body of the wrapping loop of `refresh_lines`. -/
def text_edit.wrap_step (d : text_edit) (p : glyph_paragraph) (availableWidth : Int)
    (s : wrap_state) : wrap_state :=
  let gs := d.iGlyphs
  let pend := p.end_index
  let split := wrap_split gs s.next pend (s.offset + availableWidth)
  let r := wrap_break gs s.lineStart s.lineEnd split pend
  let next := r.2
  let lineEnd := trim_cr gs s.lineStart r.1
  let x : Int :=
    if split ≠ gs.length then (glyph_at gs split).x
    else if s.lineStart ≠ lineEnd then
      (glyph_at gs (gs.length - 1)).x + (glyph_at gs (gs.length - 1)).cx
    else 0
  let line : glyph_line :=
    { start := s.lineStart, end_ := lineEnd, y := s.y
      extents := (x - s.offset, d.paragraph_height p s.lineStart lineEnd) }
  { next := next
    lineStart := next
    lineEnd := pend
    offset := if next ≠ pend then (glyph_at gs next).x else s.offset
    y := s.y + line.extents.2
    lines := s.lines ++ [line]
    cx := max s.cx line.extents.1 }

/-- The wrapping loop `while (next != paragraph.end())` run for at most `fuel`
passes; `none` when the loop is still running after them. -/
def text_edit.wrap_loop (d : text_edit) (p : glyph_paragraph) (availableWidth : Int) :
    Nat → wrap_state → Option wrap_state
  | 0, s => if s.next ≠ p.end_index then none else some s
  | fuel + 1, s =>
    if s.next ≠ p.end_index then text_edit.wrap_loop d p availableWidth fuel (d.wrap_step p availableWidth s)
    else some s

/-- Body of the paragraph loop of `refresh_lines`: the lines so far, the
vertical position and the maximum line width go in and come out. -/
def text_edit.refresh_lines_paragraph (d : text_edit) (availableWidth : Int) (fuel : Nat)
    (p : glyph_paragraph) (acc : List glyph_line × Int × Int) : Option (List glyph_line × Int × Int) :=
  let gs := d.iGlyphs
  if p.start_index = p.end_index ∨
      ((glyph_at gs p.start_index).is_whitespace ∧ (glyph_at gs p.start_index).value = 13) then
    let glyphFont := d.glyph_font p (glyph_at gs p.start_index)
    let line : glyph_line :=
      { start := p.start_index, end_ := p.end_index, y := acc.2.1, extents := (0, glyphFont.height) }
    some (acc.1 ++ [line], acc.2.1 + line.extents.2, acc.2.2)
  else if d.iWordWrap then
    match d.wrap_loop p availableWidth fuel
      { next := p.start_index, lineStart := p.start_index, lineEnd := p.end_index
        offset := 0, y := acc.2.1, lines := acc.1, cx := acc.2.2 } with
    | some s => some (s.lines, s.y, s.cx)
    | none => none
  else
    let line : glyph_line :=
      { start := p.start_index, end_ := p.end_index, y := acc.2.1
        extents := ((glyph_at gs (p.end_index - 1)).x + (glyph_at gs (p.end_index - 1)).cx,
          d.paragraph_height p p.start_index p.end_index) }
    some (acc.1 ++ [line], acc.2.1 + line.extents.2, max acc.2.2 line.extents.1)

/-- The paragraph loop of `refresh_lines`. -/
def text_edit.refresh_lines_loop (d : text_edit) (availableWidth : Int) (fuel : Nat) :
    List glyph_paragraph → List glyph_line × Int × Int → Option (List glyph_line × Int × Int)
  | [], acc => some acc
  | p :: ps, acc =>
    match d.refresh_lines_paragraph availableWidth fuel p acc with
    | some acc1 => text_edit.refresh_lines_loop d availableWidth fuel ps acc1
    | none => none

/-- The function `text_edit::refresh_lines` for a client width
`availableWidth`; every wrapping loop may take up to `fuel` passes, and the
result is `none` when one of them needs more. -/
def text_edit.refresh_lines (d : text_edit) (availableWidth : Int) (fuel : Nat) : Option text_edit :=
  match d.refresh_lines_loop availableWidth fuel d.iGlyphParagraphs ([], 0, 0) with
  | none => none
  | some r =>
    let y :=
      if d.iGlyphs ≠ [] ∧ (glyph_at d.iGlyphs (d.iGlyphs.length - 1)).is_whitespace
          ∧ (glyph_at d.iGlyphs (d.iGlyphs.length - 1)).value = 10
      then r.2.1 + d.font.height else r.2.1
    some { d with iGlyphLines := r.1, iTextExtents := (r.2.2, y) }

/-! ## Assumptions on the shaper and the shape of a rebuilt document -/

/-- A shaper that yields one glyph per character, in text order: the glyph at
position `i` has source range `[i, i + 1)`. -/
def bytewise (sh : shaper) : Prop :=
  ∀ buf fs, (sh buf fs).map glyph.source = (List.range buf.length).map (fun i => (i, i + 1))

/-- A shaper whose glyphs start at the first character of the buffer and end at
its last one: the output for a non-empty buffer is non-empty, the first glyph's
source range starts at 0 and the last glyph's source range ends at the buffer
length. -/
def spans_buffer (sh : shaper) : Prop :=
  ∀ buf fs, buf ≠ [] →
    sh buf fs ≠ [] ∧ (glyph_at (sh buf fs) 0).source.1 = 0 ∧
      (glyph_at (sh buf fs) ((sh buf fs).length - 1)).source.2 = buf.length

/-- Shape of the glyph model of a text of `n` characters rebuilt with a
bytewise shaper: glyph `g` stands for character `g`, paragraphs are non-empty,
ordered and cover the text, and sources are relative to the paragraph start. -/
def byte_layout (n : Nat) (gs : List glyph) (ps : List glyph_paragraph) : Prop :=
  gs.length = n ∧
  (∀ P ∈ ps, P.start_index = P.text_start_index ∧ P.text_start_index < P.text_end_index ∧
    P.text_end_index ≤ n ∧ P.end_index ≤ P.text_end_index ∧ P.text_start_index ≤ P.end_index ∧
    P.text_end_index ≤ P.end_index + 1) ∧
  ps.Pairwise (fun a b => a.text_end_index ≤ b.text_start_index) ∧
  (∀ g, g < n → ∃ P ∈ ps, P.text_start_index ≤ g ∧ g < P.text_end_index) ∧
  (∀ P ∈ ps, ∀ g, P.text_start_index ≤ g → g < P.text_end_index →
    (glyph_at gs g).source = (g - P.text_start_index, g - P.text_start_index + 1))

/-- Shape of the glyph model of a text of `n` characters rebuilt with a shaper
that spans its buffer: the first glyph maps to text offset 0, the last glyph
ends at the end of the text, and only a paragraph at text offset 0 starts at
glyph 0. -/
def spanned_layout (n : Nat) (gs : List glyph) (ps : List glyph_paragraph) : Prop :=
  (ps = [] → n = 0 ∧ gs = []) ∧
  (ps ≠ [] → gs ≠ [] ∧ (paragraph_at ps 0).text_start_index = 0 ∧ (glyph_at gs 0).source.1 = 0 ∧
    (paragraph_at ps (ps.length - 1)).text_start_index + (glyph_at gs (gs.length - 1)).source.2 = n) ∧
  (∀ P ∈ ps, P.start_index = 0 → P.text_start_index = 0)

/-- The paragraph cache is unset or points into the paragraph list. -/
def text_edit.cache_valid (d : text_edit) : Prop :=
  ∀ c, d.iGlyphParagraphCache = some c → c < d.iGlyphParagraphs.length

/-- The composition `from_glyph(to_glyph(t))`; the second call sees the
paragraph cache the first one left. -/
def text_edit.round_trip (d : text_edit) (t : Nat) : Nat × Nat :=
  ({ d with iGlyphParagraphCache := (d.to_glyph t).2 }.from_glyph (d.to_glyph t).1).1

/-- Normalisation of inserted text in the words of the specification: every
carriage return is removed and, for a single-line document, everything from
the first line feed on is dropped. -/
def norm_spec (singleLine : Bool) (s : List Char) : List Char :=
  let t := s.filter (fun ch => ch ≠ '\r')
  if singleLine then t.takeWhile (fun ch => ch ≠ '\n') else t

/-- The call `cursor().set_anchor(a)` on a document. -/
def text_edit.set_anchor (d : text_edit) (aAnchor : Nat) : text_edit :=
  { d with iCursor := d.iCursor.set_anchor aAnchor }

/-! ## A shaper with two glyphs per character -/

/-- Two glyphs per character, both carrying the source range of the character:
every character is a cluster of two glyphs of advance `adv` each. -/
def cluster_glyphs (adv : Int) : List Char → Nat → List glyph
  | [], _ => []
  | c :: cs, i =>
    let g : glyph :=
      { iDirection := if c = ' ' ∨ c = '\n' ∨ c = '\t' then text_direction.Whitespace else text_direction.LTR
        iValue := c.toNat
        iSource := (i, i + 1)
        cx := adv
        cy := 0
        underline := false
        mnemonic := false
        use_fallback := false
        x := 0 }
    g :: g :: cluster_glyphs adv cs (i + 1)

def cluster_host (adv : Int) : host :=
  { to_glyph_text := fun buf _ => cluster_glyphs adv buf 0
    update_scrollbar_visibility := fun _ _ _ => ([], (0, 0)) }

/-- The one-character document "a" of a multi-line widget (word wrap on) whose
shaper turns the character into a cluster of two glyphs, each 10 wide. -/
def cluster_document : text_edit :=
  ((empty_document type_e.MultiLine).insert_text (cluster_host 10) "a".toList plain_style true).1

/-- Glyph ranges of the visual lines of a laid-out document. -/
def line_ranges (r : Option text_edit) : Option (List (Nat × Nat)) :=
  r.map (fun d => d.iGlyphLines.map (fun l => (l.start, l.end_)))

/-- Widths of the visual lines of a laid-out document. -/
def line_widths (r : Option text_edit) : Option (List Int) :=
  r.map (fun d => d.iGlyphLines.map (fun l => l.extents.1))

/-- A visual line that holds a glyph, or is empty for one of three reasons: it
is the line of a paragraph without glyphs, or the glyph at its start is
whitespace, or the glyph at its start shares its source range with the glyph
after it. -/
def text_edit.line_ok (d : text_edit) (l : glyph_line) : Prop :=
  l.start < l.end_ ∨
  (∃ p ∈ d.iGlyphParagraphs, p.start_index = p.end_index ∧ l.start = p.start_index ∧ l.end_ = p.end_index) ∨
  (glyph_at d.iGlyphs l.start).is_whitespace = true ∨
  (glyph_at d.iGlyphs l.start).source = (glyph_at d.iGlyphs (l.start + 1)).source

/-- No two adjacent glyphs of the paragraph share a source range. -/
def text_edit.distinct_sources (d : text_edit) (p : glyph_paragraph) : Prop :=
  ∀ i, p.start_index ≤ i → i + 1 < p.end_index →
    (glyph_at d.iGlyphs i).source ≠ (glyph_at d.iGlyphs (i + 1)).source

/-! ## Example styles and a host that lays out -/

/-- A style with text colour 1 and the given outline colour, nothing else set. -/
def outlined_style (aOutline : colour_type) : style :=
  { iFont := none, iTextColour := some 1, iBackgroundColour := none, iTextOutlineColour := aOutline }

/-- A host for documents grown from `empty_document type_e.MultiLine`: the
shaper yields one glyph of advance `adv` per character, and the layout pass is
`refresh_lines` at client width `availableWidth`. -/
def layout_host (adv : Int) (availableWidth : Int) : host :=
  { to_glyph_text := byte_shaper adv
    update_scrollbar_visibility := fun t gs ps =>
      match ({ empty_document type_e.MultiLine with
          iText := t, iGlyphs := gs, iGlyphParagraphs := ps }).refresh_lines availableWidth gs.length with
      | some d => (d.iGlyphLines, d.iTextExtents)
      | none => ([], (0, 0)) }

/-- The document "ac", both characters tagged with `outlined_style none`, laid
out at width 100, with the cursor between the two characters. -/
def styled_document : text_edit :=
  let d := ((empty_document type_e.MultiLine).insert_text (layout_host 10 100) "ac".toList
    (outlined_style none) true).1
  { d with iCursor := d.iCursor.set_position 1 true }

/-- Two styles that the registry order cannot tell apart: neither sorts before
the other. -/
def style.equivalent (a b : style) : Prop := a.lt b = false ∧ b.lt a = false

/-- Sum of the heights of a list of visual lines. -/
def lines_height (ls : List glyph_line) : Int := (ls.map (fun l => l.extents.2)).sum

/-- The paragraph list `ps` partitions the first `n` characters of `text` at
line feeds: the first paragraph starts at 0, each paragraph starts where the
one before ends, the last one ends at `n`, every paragraph is non-empty, ends
with a line feed or at the end of the text and has no line feed before its
last character, and the number of paragraphs is
the number of line feeds among the `n` characters, plus one when the last of
them is not a line feed (which only happens at the end of the text). -/
def paragraph_partition (text : List Char) (n : Nat) (ps : List glyph_paragraph) : Prop :=
  (∀ P ∈ ps.head?, P.text_start_index = 0) ∧
  ps.Chain' (fun a b => a.text_end_index = b.text_start_index) ∧
  (∀ P ∈ ps.getLast?, P.text_end_index = n) ∧
  (ps = [] → n = 0) ∧
  (∀ P ∈ ps, P.text_start_index < P.text_end_index ∧ P.text_end_index ≤ n ∧
    (text[P.text_end_index - 1]? = some '\n' ∨ P.text_end_index = text.length) ∧
    ∀ i, P.text_start_index ≤ i → i + 1 < P.text_end_index → text[i]? ≠ some '\n') ∧
  ps.Pairwise (fun a b => a.text_end_index ≤ b.text_start_index) ∧
  ps.length = (text.take n).count '\n' + (if 0 < n ∧ text[n - 1]? ≠ some '\n' then 1 else 0) ∧
  (0 < n ∧ text[n - 1]? ≠ some '\n' → n = text.length)

/-! ## Cursor movement (`move_cursor`, `hit_test`) -/

/-- The enumeration `cursor::move_operation_e`, as the switch of
`text_edit::move_cursor` lists it. -/
inductive move_operation_e where
  | StartOfDocument
  | StartOfParagraph
  | StartOfLine
  | StartOfWord
  | EndOfDocument
  | EndOfParagraph
  | EndOfLine
  | EndOfWord
  | PreviousParagraph
  | PreviousLine
  | PreviousWord
  | PreviousCharacter
  | NextParagraph
  | NextLine
  | NextWord
  | NextCharacter
  | Up
  | Down
  | Left
  | Right
deriving DecidableEq, Repr, Inhabited

/-- The function `text_edit::hit_test` called without scroll adjustment: the
glyph index under a point given in document coordinates. -/
def text_edit.hit_test (d : text_edit) (aPoint : Int × Int) : Nat :=
  let adjusted : Int × Int := if aPoint.1 < 0 then (0, aPoint.2) else aPoint
  let line := lower_bound (fun i => decide ((line_at d.iGlyphLines i).y < adjusted.2)) 0 d.iGlyphLines.length
  let line :=
    if line ≠ 0 ∧ adjusted.2 < (line_at d.iGlyphLines (line - 1)).y
        + (line_at d.iGlyphLines (line - 1)).extents.2
    then line - 1 else line
  if line = d.iGlyphLines.length then d.iGlyphs.length
  else
    let l := line_at d.iGlyphLines line
    match find_from
        (fun g => decide (adjusted.1 ≥ (glyph_at d.iGlyphs g).x - (glyph_at d.iGlyphs l.start).x) &&
          decide (adjusted.1 < (glyph_at d.iGlyphs g).x - (glyph_at d.iGlyphs l.start).x
            + (glyph_at d.iGlyphs g).cx))
        l.start (l.end_ - l.start) with
    | some g => g
    | none => l.end_

/-- Target of the `PreviousWord` case of `move_cursor` (the glyph array is not
empty there). -/
def text_edit.previous_word (d : text_edit) : Nat :=
  let gs := d.iGlyphs
  let p := d.iCursor.position
  let p := if p = gs.length then p - 1 else p
  let p := scan_back (fun i => (glyph_at gs i).is_whitespace) 0 p
  if p > 0 then
    let dir := (glyph_at gs (if p = d.iCursor.position then p - 1 else p)).direction
    let p := scan_back (fun i => decide ((glyph_at gs (i - 1)).direction = dir)) 0 p
    if p > 0 ∧ dir = text_direction.Whitespace then
      let dir := (glyph_at gs (p - 1)).direction
      scan_back (fun i => decide ((glyph_at gs (i - 1)).direction = dir)) 0 p
    else p
  else p

/-- Target of the `NextWord` case of `move_cursor`. -/
def text_edit.next_word (d : text_edit) : Nat :=
  let gs := d.iGlyphs
  let p := d.iCursor.position
  let p := scan_forward (fun i => (glyph_at gs i).is_whitespace) gs.length (gs.length - p) p
  if p < gs.length ∧ p = d.iCursor.position then
    let dir := (glyph_at gs p).direction
    let p := scan_forward (fun i => decide ((glyph_at gs i).direction = dir)) gs.length (gs.length - p) p
    scan_forward (fun i => (glyph_at gs i).is_whitespace) gs.length (gs.length - p) p
  else p

/-- The function `text_edit::move_cursor`. -/
def text_edit.move_cursor (d : text_edit) (aMoveOperation : move_operation_e) (aMoveAnchor : Bool) :
    text_edit :=
  if d.iGlyphs = [] then d
  else
    let currentPosition := d.position d.iCursor.position
    let set (aPosition : Nat) : text_edit :=
      { d with iCursor := d.iCursor.set_position aPosition aMoveAnchor }
    match aMoveOperation with
    | move_operation_e.StartOfDocument => set 0
    | move_operation_e.StartOfLine =>
      if (line_at d.iGlyphLines currentPosition.line).start ≠ (line_at d.iGlyphLines currentPosition.line).end_
      then set (line_at d.iGlyphLines currentPosition.line).start else d
    | move_operation_e.EndOfDocument => set d.iGlyphs.length
    | move_operation_e.EndOfLine =>
      if (line_at d.iGlyphLines currentPosition.line).start ≠ (line_at d.iGlyphLines currentPosition.line).end_
      then set (line_at d.iGlyphLines currentPosition.line).end_ else d
    | move_operation_e.PreviousWord => set d.previous_word
    | move_operation_e.PreviousCharacter =>
      if d.iCursor.position > 0 then set (d.iCursor.position - 1) else d
    | move_operation_e.NextWord => set d.next_word
    | move_operation_e.NextCharacter =>
      if d.iCursor.position < d.iGlyphs.length then set (d.iCursor.position + 1) else d
    | move_operation_e.Up =>
      let p := d.position d.iCursor.position
      if p.line ≠ 0 then set (d.hit_test (p.pos.1, (line_at d.iGlyphLines (p.line - 1)).y)) else d
    | move_operation_e.Down =>
      let p := d.position d.iCursor.position
      if p.line ≠ d.iGlyphLines.length then
        if p.line + 1 ≠ d.iGlyphLines.length then
          set (d.hit_test (p.pos.1, (line_at d.iGlyphLines (p.line + 1)).y))
        else if (line_at d.iGlyphLines p.line).end_ ≠ d.iGlyphs.length
            ∧ (glyph_at d.iGlyphs (line_at d.iGlyphLines p.line).end_).is_whitespace
            ∧ (glyph_at d.iGlyphs (line_at d.iGlyphLines p.line).end_).value = 10 then
          set d.iGlyphs.length
        else d
      else d
    | move_operation_e.Left =>
      if d.iCursor.position > 0 then set (d.iCursor.position - 1) else d
    | move_operation_e.Right =>
      if d.iCursor.position < d.iGlyphs.length then set (d.iCursor.position + 1) else d
    | _ => d

/-- The document `s` laid out at width 100 (glyphs 10 wide) with the cursor at
`pos` and the anchor at `anchor`. -/
def selected_document (s : String) (pos anchor : Nat) : text_edit :=
  let d := ((empty_document type_e.MultiLine).insert_text (layout_host 10 100) s.toList
    plain_style true).1
  { d with iCursor := { iPosition := pos, iAnchor := anchor } }

/-! ## Shaping (`to_glyph_text`, `src/src/opengl_graphics_context.cpp`)

Conventions: a code point is a natural number; pointers into `codePoints` are
indices; the direction stack is a list whose head is `back()`; advances are in
pixels (the division by 64 of the shaper's fixed-point values is left to the
parameter `hb_shape`), and the glyph offset, which the document model never
reads, is left out. -/

/-- The script value `HB_SCRIPT_COMMON` (tag `Zyyy`). -/
def HB_SCRIPT_COMMON : Nat := 0x5A797979

/-- An entry of the cluster map: the byte offset `from` of a code point in the
text and its flag `glyph::Mnemonic`. -/
structure cluster where
  from_ : Nat
  flags : Bool
deriving DecidableEq, Repr, Inhabited

/-- A shaped glyph as the shaping library returns it (`hb_glyph_info_t` and
`hb_glyph_position_t`). -/
structure hb_glyph where
  codepoint : Nat
  cluster : Nat
  x_advance : Int
  y_advance : Int
deriving DecidableEq, Repr, Inhabited

/-- What `opengl_graphics_context` holds and what it consumes from its
libraries: the mnemonic setting, the decoder `neolib::utf8_to_utf32` (code
points with the byte offset each one starts at), the directional classifier,
the script lookup, the shaper, and the glyph index, kerning, fallback and
underline style of a font. -/
structure opengl_graphics_context where
  iMnemonic : Option (Bool × Char)
  utf8_to_utf32 : List Char → List (Nat × Nat)
  get_text_direction : Nat → text_direction
  hb_unicode_script : font → Nat → Nat
  hb_shape : font → Bool → Nat → List Nat → List hb_glyph
  glyph_index : font → Nat → Nat
  kerning : font → Nat → Nat → Int
  fallback : font → font
  underline : font → Bool

/-- The mnemonic loop of `to_glyph_text_impl` over the code points paired with
their cluster map entries: a marker is erased; `pending` says that the element
before was an erased marker, in which case an element that is not a marker is
flagged as the mnemonic. -/
def strip_mnemonic (marker : Nat) : Bool → List (Nat × cluster) → List (Nat × cluster)
  | _, [] => []
  | pending, (c, cl) :: rest =>
    if c = marker then strip_mnemonic marker true rest
    else (c, if pending then { cl with flags := true } else cl) :: strip_mnemonic marker false rest

/-- The lambda `bidi_check` of `to_glyph_text_impl`. -/
def bidi_check (directionStack : List (text_direction × Bool)) (aDirection : text_direction) :
    text_direction :=
  match directionStack with
  | [] => aDirection
  | back :: _ =>
    match aDirection with
    | text_direction.LTR => if back.2 = true then back.1 else aDirection
    | text_direction.RTL => if back.2 = true then back.1 else aDirection
    | text_direction.None => back.1
    | text_direction.Whitespace => back.1

/-- A shaping run: code point range, direction and script. -/
structure run where
  start : Nat
  end_ : Nat
  direction : text_direction
  script : Nat
deriving DecidableEq, Repr, Inhabited

/-- Variables of the segmentation loop of `to_glyph_text_impl`. -/
structure run_state where
  codePoints : List Nat
  textDirections : List text_direction
  runs : List run
  previousDirection : text_direction
  runStart : Nat
  previousFont : font
  previousScript : Nat
  directionStack : List (text_direction × Bool)
  currentLineHasLTR : Bool
deriving DecidableEq, Repr, Inhabited

/-- The inner loop of the segmentation over `j` from `i + 1`: whether it ends
by starting a new run (`newRun = true`, `currentDirection = LTR`). -/
def look_ahead (gc : opengl_graphics_context) (directionStack : List (text_direction × Bool))
    (codePoints : List Nat) (lastCodePointIndex : Nat) (currentLineHasLTR : Bool) : Nat → Nat → Bool
  | 0, _ => false
  | fuel + 1, j =>
    if j ≤ lastCodePointIndex then
      let nextDirection := bidi_check directionStack (gc.get_text_direction (codePoints.getD j 0))
      if nextDirection = text_direction.RTL then false
      else if nextDirection = text_direction.LTR ∨ (j + 1 = lastCodePointIndex ∧ currentLineHasLTR = true)
      then true
      else look_ahead gc directionStack codePoints lastCodePointIndex currentLineHasLTR fuel (j + 1)
    else false

/-- One pass through the body of the segmentation loop, for code point `i`. -/
def run_step (gc : opengl_graphics_context) (aFontSelector : Nat → font) (clusterMap : List cluster)
    (lastCodePointIndex : Nat) (s : run_state) (i : Nat) : run_state :=
  let currentFont := aFontSelector (clusterMap.getD i default).from_
  let codePoints :=
    if currentFont.password then
      s.codePoints.set i ((gc.utf8_to_utf32 currentFont.password_mask).getD 0 (0, 0)).1
    else s.codePoints
  let cp := codePoints.getD i 0
  let currentLineHasLTR := if cp = 13 ∨ cp = 10 then false else s.currentLineHasLTR
  let directionStack :=
    if cp = 0x202C then s.directionStack.tail
    else if cp = 0x202A then (text_direction.LTR, false) :: s.directionStack
    else if cp = 0x202B then (text_direction.RTL, false) :: s.directionStack
    else if cp = 0x202D then (text_direction.LTR, true) :: s.directionStack
    else if cp = 0x202E then (text_direction.RTL, true) :: s.directionStack
    else s.directionStack
  let rawDirection := gc.get_text_direction cp
  let currentDirection := bidi_check directionStack rawDirection
  let currentLineHasLTR := if currentDirection = text_direction.LTR then true else currentLineHasLTR
  let currentScript := gc.hb_unicode_script currentFont cp
  let newRun : Bool :=
    decide (s.previousFont ≠ currentFont) ||
    decide (s.previousDirection = text_direction.LTR ∧ currentDirection = text_direction.RTL) ||
    decide (s.previousDirection = text_direction.RTL ∧ currentDirection = text_direction.LTR) ||
    decide (s.previousScript ≠ currentScript ∧
      (s.previousScript ≠ HB_SCRIPT_COMMON ∧ currentScript ≠ HB_SCRIPT_COMMON)) ||
    decide (i = lastCodePointIndex)
  let ahead : Bool :=
    !newRun &&
    decide ((currentDirection = text_direction.Whitespace ∨ currentDirection = text_direction.None)
      ∧ s.previousDirection = text_direction.RTL) &&
    look_ahead gc directionStack codePoints lastCodePointIndex currentLineHasLTR
      (lastCodePointIndex - i) (i + 1)
  let newRun := newRun || ahead
  let currentDirection := if ahead then text_direction.LTR else currentDirection
  let strong : Bool :=
    decide (currentDirection = text_direction.LTR ∨ currentDirection = text_direction.RTL)
  { codePoints := codePoints
    textDirections := s.textDirections ++ [rawDirection]
    runs :=
      if newRun then
        s.runs ++ [{ start := s.runStart, end_ := if i ≠ lastCodePointIndex then i else i + 1,
                     direction := s.previousDirection, script := s.previousScript }]
      else s.runs
    previousDirection := if strong then currentDirection else s.previousDirection
    runStart := if newRun then i else s.runStart
    previousFont := currentFont
    previousScript := if strong then currentScript else s.previousScript
    directionStack := directionStack
    currentLineHasLTR := currentLineHasLTR }

/-- The segmentation loop of `to_glyph_text_impl` over a non-empty code point
sequence: runs, raw directions and the code points after password masking. -/
def segment_runs (gc : opengl_graphics_context) (aFontSelector : Nat → font)
    (clusterMap : List cluster) (codePoints : List Nat) : run_state :=
  (List.range codePoints.length).foldl
    (run_step gc aFontSelector clusterMap (codePoints.length - 1))
    { codePoints := codePoints
      textDirections := []
      runs := []
      previousDirection := gc.get_text_direction (codePoints.getD 0 0)
      runStart := 0
      previousFont := aFontSelector (clusterMap.getD 0 default).from_
      previousScript :=
        gc.hb_unicode_script (aFontSelector (clusterMap.getD 0 default).from_) (codePoints.getD 0 0)
      directionStack := []
      currentLineHasLTR := false }

/-- Modelled from the spec: `glyph::kerning_adjust` belongs to the glyph class,
which is not among the sources; kerning is added to the advance. -/
def glyph.kerning_adjust (g : glyph) (aAdjust : Int) : glyph := { g with cx := g.cx + aAdjust }

/-- The glyph pushed for one shaped glyph of a run starting at code point
`runStart`: its cluster is mapped back to a source range through the cluster
map, the end of the range being the start of the next cluster or the text
length for the last one. -/
def make_glyph (gc : opengl_graphics_context) (text : List Char) (aFontSelector : Nat → font)
    (clusterMap : List cluster) (textDirections : List text_direction) (runStart : Nat)
    (g : hb_glyph) : glyph :=
  let cluster := g.cluster + runStart
  let c := clusterMap.getD cluster default
  let sourceClusterStart := c.from_
  let sourceClusterEnd :=
    if cluster + 1 ≠ clusterMap.length then (clusterMap.getD (cluster + 1) default).from_
    else text.length
  let direction := textDirections.getD cluster default
  { iDirection := direction
    iValue :=
      if direction = text_direction.Whitespace then (text.getD sourceClusterStart default).toNat
      else g.codepoint
    iSource := (sourceClusterStart, sourceClusterEnd)
    cx := g.x_advance
    cy := g.y_advance
    underline := gc.underline (aFontSelector sourceClusterStart)
    mnemonic := c.flags
    use_fallback := decide (g.codepoint = 0)
    x := 0 }

/-- The inner loop over the shaped glyphs of a run: every glyph but the last
gets the kerning towards its successor added, looked up in the font at the
successor's source position. -/
def shape_glyphs (gc : opengl_graphics_context) (text : List Char) (aFontSelector : Nat → font)
    (clusterMap : List cluster) (textDirections : List text_direction) (runStart : Nat) :
    List hb_glyph → List glyph
  | [] => []
  | [g] => [make_glyph gc text aFontSelector clusterMap textDirections runStart g]
  | g :: g2 :: rest =>
    (make_glyph gc text aFontSelector clusterMap textDirections runStart g).kerning_adjust
        (gc.kerning (aFontSelector (clusterMap.getD (g2.cluster + runStart) default).from_)
          g.codepoint g2.codepoint)
      :: shape_glyphs gc text aFontSelector clusterMap textDirections runStart (g2 :: rest)

/-- The glyph records of a run as the inner loop leaves them in `glyphInfo`:
the shaper's output for the code points of the run, a glyph without index
looked up once more in the font of the run. -/
def run_glyph_infos (gc : opengl_graphics_context) (aFontSelector : Nat → font)
    (clusterMap : List cluster) (codePoints : List Nat) (r : run) : List hb_glyph :=
  let f := aFontSelector (clusterMap.getD r.start default).from_
  (gc.hb_shape f (decide (r.direction = text_direction.RTL)) r.script
      ((codePoints.drop r.start).take (r.end_ - r.start))).map
    (fun g =>
      if g.codepoint = 0 then
        { g with codepoint := gc.glyph_index f (codePoints.getD (g.cluster + r.start) 0) }
      else g)

/-- The loop over the runs: the glyphs of all runs in order. -/
def shape_runs (gc : opengl_graphics_context) (text : List Char) (aFontSelector : Nat → font)
    (clusterMap : List cluster) (codePoints : List Nat) (textDirections : List text_direction) :
    List run → List glyph
  | [] => []
  | r :: rs =>
    shape_glyphs gc text aFontSelector clusterMap textDirections r.start
        (run_glyph_infos gc aFontSelector clusterMap codePoints r)
      ++ shape_runs gc text aFontSelector clusterMap codePoints textDirections rs

/-- Code points and cluster map of a text after decoding and mnemonic
stripping. -/
def opengl_graphics_context.decode (gc : opengl_graphics_context) (text : List Char) :
    List (Nat × cluster) :=
  let decoded := (gc.utf8_to_utf32 text).map (fun e => (e.1, ({ from_ := e.2, flags := false } : cluster)))
  match gc.iMnemonic with
  | none => decoded
  | some m => strip_mnemonic m.2.toNat false decoded

/-- The function `opengl_graphics_context::to_glyph_text_impl`: the glyphs and
the flag `aFallbackFontNeeded`. -/
def opengl_graphics_context.to_glyph_text_impl (gc : opengl_graphics_context) (text : List Char)
    (aFontSelector : Nat → font) : List glyph × Bool :=
  if text.length = 0 then ([], false)
  else
    let codePoints := (gc.decode text).map Prod.fst
    let clusterMap := (gc.decode text).map Prod.snd
    if codePoints = [] then ([], false)
    else
      let s := segment_runs gc aFontSelector clusterMap codePoints
      let result := shape_runs gc text aFontSelector clusterMap s.codePoints s.textDirections s.runs
      (result, result.any (fun g => g.use_fallback))

/-- The replacement loop of `to_glyph_text`: a glyph flagged for fallback is
replaced by the glyph at the same index of the fallback pass, flag set. -/
def merge_fallback : List glyph → List glyph → List glyph
  | [], _ => []
  | g :: gs, fallbackResult =>
    (if g.use_fallback then { fallbackResult.headD default with use_fallback := true } else g)
      :: merge_fallback gs fallbackResult.tail

/-- The function `opengl_graphics_context::to_glyph_text` with a font
selector. -/
def opengl_graphics_context.to_glyph_text (gc : opengl_graphics_context) : shaper :=
  fun text aFontSelector =>
    let r := gc.to_glyph_text_impl text aFontSelector
    if r.2 then
      merge_fallback r.1 (gc.to_glyph_text_impl text (fun i => gc.fallback (aFontSelector i))).1
    else r.1

/-! ## A sample graphics context -/

/-- A graphics context over single-byte text: every byte is one code point,
Latin letters are LTR in script `Latn`, the Hebrew block is RTL in script
`Hebr`, blank, tab, line feed and carriage return are whitespace, everything
else is neutral in the common script; the shaper yields one glyph of advance 10
per code point, in order, with the code point plus one as glyph index, so that
no glyph is missing. -/
def sample_context : opengl_graphics_context :=
  { iMnemonic := none
    utf8_to_utf32 := fun t => (List.range t.length).map (fun i => ((t.getD i ' ').toNat, i))
    get_text_direction := fun cp =>
      if cp = 32 ∨ cp = 10 ∨ cp = 9 ∨ cp = 13 then text_direction.Whitespace
      else if (65 ≤ cp ∧ cp ≤ 90) ∨ (97 ≤ cp ∧ cp ≤ 122) then text_direction.LTR
      else if 0x590 ≤ cp ∧ cp ≤ 0x5FF then text_direction.RTL
      else text_direction.None
    hb_unicode_script := fun _ cp =>
      if (65 ≤ cp ∧ cp ≤ 90) ∨ (97 ≤ cp ∧ cp ≤ 122) then 0x4C61746E
      else if 0x590 ≤ cp ∧ cp ≤ 0x5FF then 0x48656272
      else HB_SCRIPT_COMMON
    hb_shape := fun _ _ _ cps =>
      (List.range cps.length).map (fun i =>
        { codepoint := cps.getD i 0 + 1, cluster := i, x_advance := 10, y_advance := 0 })
    glyph_index := fun _ cp => cp + 1
    kerning := fun _ _ _ => 0
    fallback := fun f => { f with id := 1 }
    underline := fun _ => false }

/-- A host that shapes through `sample_context` and leaves no lines. -/
def sample_host : host :=
  { to_glyph_text := sample_context.to_glyph_text
    update_scrollbar_visibility := fun _ _ _ => ([], (0, 0)) }

/-! ## Glyph coverage: predicates -/

/-- Source range of the cluster at index `c` of a cluster map over a text of
`n` bytes, as the glyph loop of `to_glyph_text_impl` computes it. -/
def cluster_source (clusterMap : List cluster) (n : Nat) (c : Nat) : Nat × Nat :=
  ((clusterMap.getD c default).from_,
    if c + 1 ≠ clusterMap.length then (clusterMap.getD (c + 1) default).from_ else n)

/-- Byte offset at which cluster `c` starts; the text length beyond the last
cluster. -/
def cluster_start (clusterMap : List cluster) (n : Nat) (c : Nat) : Nat :=
  if c < clusterMap.length then (clusterMap.getD c default).from_ else n

/-- Continuation of `tiles` after the range `s`: every further range repeats
the range before it or is a non-empty range starting where that one ends, and
the last range ends at `b`. -/
def tiles_after : Nat × Nat → List (Nat × Nat) → Nat → Prop
  | s, [], b => s.2 = b
  | s, t :: rest, b => (t = s ∨ (t.1 = s.2 ∧ t.1 < t.2)) ∧ tiles_after t rest b

/-- The source ranges, in order, tile the byte span `[a, b)`: the first range
is non-empty and starts at `a`, every further range repeats the range before
it (a glyph of the same cluster) or is a non-empty range starting where that
one ends, and the last range ends at `b`; no ranges at all for an empty span. -/
def tiles (a : Nat) : List (Nat × Nat) → Nat → Prop
  | [], b => a = b
  | s :: rest, b => s.1 = a ∧ s.1 < s.2 ∧ tiles_after s rest b

/-- Continuation of `climbs` after the cluster index `c`. -/
def climbs_after : Nat → List Nat → Nat → Prop
  | c, [], b => c + 1 = b
  | c, c2 :: rest, b => (c2 = c ∨ c2 = c + 1) ∧ climbs_after c2 rest b

/-- The cluster indices run through `[a, b)` in order, at least once each:
the first one is `a`, every further one repeats the index before it or is its
successor, and the last one is `b - 1`; no indices at all when `a = b`. -/
def climbs (a : Nat) : List Nat → Nat → Prop
  | [], b => a = b
  | c :: rest, b => c = a ∧ climbs_after c rest b

/-- The runs, in order, lead from code point `a` to code point `b`: each run
starts where the one before ends and does not end before it starts. -/
def links : Nat → List run → Nat → Prop
  | a, [], b => a = b
  | a, r :: rs, b => r.start = a ∧ r.start ≤ r.end_ ∧ links r.end_ rs b

/-- The decoder reports the code points of a non-empty text in order: there is
at least one, the first starts at byte 0, the byte offsets increase strictly
and stay below the text length. -/
def decodes_in_order (gc : opengl_graphics_context) : Prop :=
  ∀ text, text ≠ [] →
    0 < (gc.utf8_to_utf32 text).length ∧
    ((gc.utf8_to_utf32 text).getD 0 (0, 0)).2 = 0 ∧
    (∀ i, i + 1 < (gc.utf8_to_utf32 text).length →
      ((gc.utf8_to_utf32 text).getD i (0, 0)).2 < ((gc.utf8_to_utf32 text).getD (i + 1) (0, 0)).2) ∧
    (∀ i, i < (gc.utf8_to_utf32 text).length → ((gc.utf8_to_utf32 text).getD i (0, 0)).2 < text.length)

/-- The shaper returns, in order, at least one glyph per code point of a run. -/
def shapes_in_order (gc : opengl_graphics_context) : Prop :=
  ∀ f rtl script cps, climbs 0 ((gc.hb_shape f rtl script cps).map hb_glyph.cluster) cps.length

/-- Whenever a fallback pass is needed, it yields glyph for glyph the source
ranges of the first pass. -/
def fallback_aligned (gc : opengl_graphics_context) : Prop :=
  ∀ text fs, (gc.to_glyph_text_impl text fs).2 = true →
    (gc.to_glyph_text_impl text (fun i => gc.fallback (fs i))).1.map glyph.source
      = (gc.to_glyph_text_impl text fs).1.map glyph.source

/-- Index one past the glyphs shaped for a paragraph: the end of its glyph
range, moved over the glyph of the line feed when the paragraph ends with one. -/
def text_edit.shaped_end (d : text_edit) (P : glyph_paragraph) : Nat :=
  P.end_index + (if d.text[P.text_end_index - 1]? = some '\n' then 1 else 0)

/-- Source ranges of the glyphs with indices in `[a, b)`. -/
def sources_of (gs : List glyph) (a b : Nat) : List (Nat × Nat) :=
  ((gs.drop a).take (b - a)).map glyph.source

/-- The document holding `s`, built by inserting `s` into a fresh multi-line
widget that shapes through `sample_context`. -/
def sample_document (s : String) : text_edit :=
  ((empty_document type_e.MultiLine).insert_text sample_host s.toList plain_style true).1

/-! ## A graphics context whose fallback font shapes differently -/

/-- Shaper of `split_context`: one glyph per code point, in order, except that
the font with id 1 shapes the letter `a` into two glyphs of one cluster; every
other font has no glyph (index 0) for the letter `b`. -/
def split_glyphs (fontId : Nat) : List Nat → Nat → List hb_glyph
  | [], _ => []
  | cp :: rest, i =>
    (if fontId = 1 ∧ cp = 97 then
      [{ codepoint := 1, cluster := i, x_advance := 5, y_advance := 0 },
       { codepoint := 2, cluster := i, x_advance := 5, y_advance := 0 }]
    else
      [{ codepoint := if fontId ≠ 1 ∧ cp = 98 then 0 else cp + 1, cluster := i,
         x_advance := 10, y_advance := 0 }])
    ++ split_glyphs fontId rest (i + 1)

/-- The sample context with the shaper `split_glyphs`; the fallback of every
font is the font with id 1. -/
def split_context : opengl_graphics_context :=
  { sample_context with
    hb_shape := fun f _ _ cps => split_glyphs f.id cps 0
    glyph_index := fun f cp => if f.id ≠ 1 ∧ cp = 98 then 0 else cp + 1 }

/-- The document "ab" of a fresh multi-line widget that shapes through
`split_context`. -/
def split_document : text_edit :=
  ((empty_document type_e.MultiLine).insert_text
    { to_glyph_text := split_context.to_glyph_text
      update_scrollbar_visibility := fun _ _ _ => ([], (0, 0)) }
    "ab".toList plain_style true).1

/-- The sample context with the mnemonic marker `&` configured. -/
def mnemonic_context : opengl_graphics_context :=
  { sample_context with iMnemonic := some (true, '&') }

/-- Every line of the list has as vertical offset the sum of the heights of the
lines before it; in particular the first line has offset 0. -/
def running_offsets (ls : List glyph_line) : Prop :=
  ∀ k, k < ls.length → (line_at ls k).y = lines_height (ls.take k)

/-- The document `s` laid out at width `availableWidth` (glyphs 10 wide) with
cursor position and anchor at `pos`. -/
def wrapped_document (s : String) (availableWidth : Int) (pos : Nat) : text_edit :=
  let d := ((empty_document type_e.MultiLine).insert_text (layout_host 10 availableWidth) s.toList
    plain_style true).1
  { d with iCursor := { iPosition := pos, iAnchor := pos } }

/-! ## Word moves with checked reads

The loops of the `PreviousWord` and `NextWord` cases of `move_cursor` once
more, every element access `iGlyphs[i]` being checked: the result is `none`
when an access falls outside the glyph array. -/

/-- The loop `while (p > 0 && cond(iGlyphs[p])) --p`. -/
def skip_back_here (gs : List glyph) (cond : glyph → Bool) : Nat → Option Nat
  | 0 => some 0
  | p + 1 =>
    match gs[p + 1]? with
    | none => none
    | some g => if cond g then skip_back_here gs cond p else some (p + 1)

/-- The loop `while (p > 0 && cond(iGlyphs[p - 1])) --p`. -/
def skip_back_before (gs : List glyph) (cond : glyph → Bool) : Nat → Option Nat
  | 0 => some 0
  | p + 1 =>
    match gs[p]? with
    | none => none
    | some g => if cond g then skip_back_before gs cond p else some (p + 1)

/-- The loop `while (p < size && cond(iGlyphs[p])) ++p`, at most `fuel` passes
(the glyph count minus `p` suffices). -/
def skip_forward (gs : List glyph) (cond : glyph → Bool) : Nat → Nat → Option Nat
  | 0, p => some p
  | fuel + 1, p =>
    if p < gs.length then
      match gs[p]? with
      | none => none
      | some g => if cond g then skip_forward gs cond fuel (p + 1) else some p
    else some p

/-- The `PreviousWord` case of `move_cursor` with checked reads. -/
def text_edit.previous_word_checked (d : text_edit) : Option Nat :=
  let gs := d.iGlyphs
  let p := d.iCursor.position
  let p := if p = gs.length then p - 1 else p
  (skip_back_here gs (fun g => g.is_whitespace) p).bind fun p =>
    if p > 0 then
      (gs[if p = d.iCursor.position then p - 1 else p]?).bind fun g =>
        (skip_back_before gs (fun g2 => decide (g2.direction = g.direction)) p).bind fun p =>
          if p > 0 ∧ g.direction = text_direction.Whitespace then
            (gs[p - 1]?).bind fun g3 =>
              skip_back_before gs (fun g2 => decide (g2.direction = g3.direction)) p
          else some p
    else some p

/-- The `NextWord` case of `move_cursor` with checked reads. -/
def text_edit.next_word_checked (d : text_edit) : Option Nat :=
  let gs := d.iGlyphs
  let p := d.iCursor.position
  (skip_forward gs (fun g => g.is_whitespace) (gs.length - p) p).bind fun p =>
    if p < gs.length ∧ p = d.iCursor.position then
      (gs[p]?).bind fun g =>
        (skip_forward gs (fun g2 => decide (g2.direction = g.direction)) (gs.length - p) p).bind fun p =>
          skip_forward gs (fun g2 => g2.is_whitespace) (gs.length - p) p
    else some p

/-! ## Visual lines as a cover of a glyph range -/

/-- The lines, in order, cover the glyph range `[a, b)` up to whitespace: every
line lies at or after the end of the line before it (after `a` for the first),
does not end before it starts, ends at or before `b`, and every glyph between
two lines, before the first or after the last line is a whitespace glyph. -/
def line_cover (gs : List glyph) : Nat → List glyph_line → Nat → Prop
  | a, [], b => a ≤ b ∧ ∀ g, a ≤ g → g < b → (glyph_at gs g).is_whitespace = true
  | a, l :: ls, b =>
    a ≤ l.start ∧ (∀ g, a ≤ g → g < l.start → (glyph_at gs g).is_whitespace = true) ∧
      l.start ≤ l.end_ ∧ line_cover gs l.end_ ls b

/-- The glyphs of a paragraph carry the positions `refresh_paragraph` gives
them, with advances that are not negative: the first glyph is at x = 0 and
every further glyph starts where the glyph before it ends. -/
def positioned (gs : List glyph) (p : glyph_paragraph) : Prop :=
  (p.start_index < p.end_index → (glyph_at gs p.start_index).x = 0) ∧
  (∀ i, p.start_index ≤ i → i + 1 < p.end_index →
    (glyph_at gs (i + 1)).x = (glyph_at gs i).x + (glyph_at gs i).cx) ∧
  (∀ i, p.start_index ≤ i → i < p.end_index → 0 ≤ (glyph_at gs i).cx)

/-- A visual line that holds more than one glyph fits the width: the trailing
edge of its last glyph minus the x position of its first glyph is less than
`availableWidth`. -/
def line_fits (gs : List glyph) (availableWidth : Int) (l : glyph_line) : Prop :=
  l.start + 1 < l.end_ →
    (glyph_at gs (l.end_ - 1)).x + (glyph_at gs (l.end_ - 1)).cx - (glyph_at gs l.start).x
      < availableWidth

/-- The visual lines `ls` show the paragraph `p`: they are in order and
pairwise disjoint (each ends at or before the start of every later one), each
is a glyph range inside the paragraph's glyph range, and every glyph of the
paragraph that lies in none of them is a whitespace glyph. -/
def shows_paragraph (gs : List glyph) (p : glyph_paragraph) (ls : List glyph_line) : Prop :=
  ls.Pairwise (fun l l' => l.end_ ≤ l'.start) ∧
  (∀ l ∈ ls, p.start_index ≤ l.start ∧ l.start ≤ l.end_ ∧ l.end_ ≤ p.end_index) ∧
  (∀ g, p.start_index ≤ g → g < p.end_index → (∀ l ∈ ls, ¬ (l.start ≤ g ∧ g < l.end_)) →
    (glyph_at gs g).is_whitespace = true)

/-- The first glyph of the paragraph is a carriage-return whitespace glyph, the
case `refresh_lines` lays out as a single line like a paragraph without glyphs.
The text of a widget never holds a carriage return: `insert_text` drops them. -/
def starts_with_carriage_return (gs : List glyph) (p : glyph_paragraph) : Prop :=
  (glyph_at gs p.start_index).is_whitespace = true ∧ (glyph_at gs p.start_index).value = 13

/-- A carriage-return glyph: a whitespace glyph whose value is the carriage
return, the glyph `refresh_lines` tests for. -/
def glyph.is_carriage_return (g : glyph) : Prop := g.is_whitespace = true ∧ g.value = 13

/-! ## A graphics context with right-to-left text in visual order -/

theorem lower_bound_go_range (comp : Nat → Bool) :
    ∀ fuel first len, first ≤ lower_bound_go comp fuel first len ∧
      lower_bound_go comp fuel first len ≤ first + len := by
  intro fuel
  induction fuel with
  | zero => intro first len; simp [lower_bound_go]
  | succ n ih =>
    intro first len
    unfold lower_bound_go
    by_cases hl : len = 0
    · simp [hl]
    · simp only [hl, if_false]
      by_cases hc : comp (first + len / 2) = true
      · simp only [hc, if_true]
        have h := ih (first + len / 2 + 1) (len - len / 2 - 1)
        have : len / 2 < len := Nat.div_lt_self (Nat.pos_of_ne_zero hl) (by decide)
        omega
      · simp only [hc]
        have h := ih first (len / 2)
        have : len / 2 < len := Nat.div_lt_self (Nat.pos_of_ne_zero hl) (by decide)
        simp only [Bool.false_eq_true, if_false]
        omega

theorem lower_bound_range (comp : Nat → Bool) (first last : Nat) (h : first ≤ last) :
    first ≤ lower_bound comp first last ∧ lower_bound comp first last ≤ last := by
  have := lower_bound_go_range comp (last - first) first (last - first)
  unfold lower_bound
  omega

/-- On a range partitioned by `comp` the search returns the partition point. -/
theorem lower_bound_go_spec (comp : Nat → Bool) :
    ∀ fuel first len, len ≤ fuel →
      (∀ i j, first ≤ i → i ≤ j → j < first + len → comp j = true → comp i = true) →
      (∀ i, first ≤ i → i < lower_bound_go comp fuel first len → comp i = true) ∧
      (lower_bound_go comp fuel first len < first + len →
        comp (lower_bound_go comp fuel first len) = false) := by
  intro fuel
  induction fuel with
  | zero =>
    intro first len hlen _
    have : len = 0 := by omega
    subst this
    simp [lower_bound_go]
    intro i h1 h2; omega
  | succ n ih =>
    intro first len hlen hmono
    unfold lower_bound_go
    by_cases hl : len = 0
    · simp only [hl, if_true]
      constructor
      · intro i h1 h2; omega
      · intro h; omega
    · simp only [hl, if_false]
      have hhalf : len / 2 < len := Nat.div_lt_self (Nat.pos_of_ne_zero hl) (by decide)
      by_cases hc : comp (first + len / 2) = true
      · simp only [hc, if_true]
        have hr := lower_bound_go_range comp n (first + len / 2 + 1) (len - len / 2 - 1)
        have h := ih (first + len / 2 + 1) (len - len / 2 - 1) (by omega)
          (fun i j h1 h2 h3 h4 => hmono i j (by omega) h2 (by omega) h4)
        constructor
        · intro i h1 h2
          by_cases hi : i ≤ first + len / 2
          · exact hmono i (first + len / 2) h1 hi (by omega) hc
          · exact h.1 i (by omega) h2
        · intro h3
          exact h.2 (by omega)
      · simp only [hc, Bool.false_eq_true, if_false]
        have hr := lower_bound_go_range comp n first (len / 2)
        have h := ih first (len / 2) (by omega)
          (fun i j h1 h2 h3 h4 => hmono i j h1 h2 (by omega) h4)
        constructor
        · exact h.1
        · intro _
          by_cases h3 : lower_bound_go comp n first (len / 2) < first + len / 2
          · exact h.2 h3
          · have : lower_bound_go comp n first (len / 2) = first + len / 2 := by omega
            rw [this]
            simpa using hc

theorem lower_bound_spec (comp : Nat → Bool) (first last : Nat) (h : first ≤ last)
    (hmono : ∀ i j, first ≤ i → i ≤ j → j < last → comp j = true → comp i = true) :
    (∀ i, first ≤ i → i < lower_bound comp first last → comp i = true) ∧
    (lower_bound comp first last < last → comp (lower_bound comp first last) = false) := by
  have := lower_bound_go_spec comp (last - first) first (last - first) (le_refl _)
    (fun i j h1 h2 h3 h4 => hmono i j h1 h2 (by omega) h4)
  unfold lower_bound
  constructor
  · exact this.1
  · intro h2
    exact this.2 (by omega)

theorem find_from_none (p : Nat → Bool) :
    ∀ n i, find_from p i n = none → ∀ j, i ≤ j → j < i + n → p j = false := by
  intro n
  induction n with
  | zero => intro i _ j h1 h2; omega
  | succ n ih =>
    intro i h j h1 h2
    unfold find_from at h
    by_cases hp : p i = true
    · simp [hp] at h
    · simp only [hp, Bool.false_eq_true, if_false] at h
      by_cases hj : j = i
      · subst hj; simpa using hp
      · exact ih (i + 1) h j (by omega) (by omega)

theorem find_from_some (p : Nat → Bool) :
    ∀ n i r, find_from p i n = some r →
      i ≤ r ∧ r < i + n ∧ p r = true ∧ ∀ j, i ≤ j → j < r → p j = false := by
  intro n
  induction n with
  | zero => intro i r h; simp [find_from] at h
  | succ n ih =>
    intro i r h
    unfold find_from at h
    by_cases hp : p i = true
    · simp only [hp, if_true, Option.some.injEq] at h
      subst h
      exact ⟨le_refl _, by omega, hp, fun j h1 h2 => by omega⟩
    · simp only [hp, Bool.false_eq_true, if_false] at h
      obtain ⟨h1, h2, h3, h4⟩ := ih (i + 1) r h
      refine ⟨by omega, by omega, h3, ?_⟩
      intro j hj1 hj2
      by_cases hj : j = i
      · subst hj; simpa using hp
      · exact h4 j (by omega) hj2

/-! ## The positioning pass changes nothing but x -/

theorem set_glyph_map {β : Type} (f : glyph → β) (hf : ∀ (g : glyph) (x : Int), f { g with x := x } = f g)
    (gs : List glyph) (g : Nat) (x : Int) :
    (gs.set g { glyph_at gs g with x := x }).map f = gs.map f := by
  rw [List.map_set, hf]
  apply List.ext_getElem?
  intro j
  rw [List.getElem?_set]
  by_cases hj : g = j
  · subst hj
    by_cases hl : g < gs.length
    · simp [hl, glyph_at, List.getD_eq_getElem?_getD, List.getElem?_eq_getElem hl]
    · have h1 : (List.map f gs)[g]? = none := by simp; omega
      simp [h1]
      omega
  · simp [hj]

theorem position_glyphs_map {β : Type} (f : glyph → β)
    (hf : ∀ (g : glyph) (x : Int), f { g with x := x } = f g) :
    ∀ n gs g x, (position_glyphs gs g n x).map f = gs.map f := by
  intro n
  induction n with
  | zero => intro gs g x; rfl
  | succ n ih =>
    intro gs g x
    unfold position_glyphs
    rw [ih, set_glyph_map f hf]

theorem position_paragraphs_map {β : Type} (f : glyph → β)
    (hf : ∀ (g : glyph) (x : Int), f { g with x := x } = f g) :
    ∀ ps gs, (position_paragraphs ps gs).map f = gs.map f := by
  intro ps
  induction ps with
  | nil => intro gs; rfl
  | cons p ps ih =>
    intro gs
    unfold position_paragraphs
    split
    · exact ih gs
    · rw [ih, position_glyphs_map f hf]

theorem position_paragraphs_length (ps : List glyph_paragraph) (gs : List glyph) :
    (position_paragraphs ps gs).length = gs.length := by
  have := congrArg List.length (position_paragraphs_map (fun _ => ()) (fun _ _ => rfl) ps gs)
  simpa using this

theorem glyph_at_of_map {β : Type} (f : glyph → β) (gs gs' : List glyph)
    (h : gs'.map f = gs.map f) (i : Nat) : f (glyph_at gs' i) = f (glyph_at gs i) := by
  unfold glyph_at
  have h1 := List.getD_map (l := gs') (d := default) (n := i) f
  have h2 := List.getD_map (l := gs) (d := default) (n := i) f
  rw [← h1, ← h2, h]

theorem position_paragraphs_source (ps : List glyph_paragraph) (gs : List glyph) (i : Nat) :
    (glyph_at (position_paragraphs ps gs) i).source = (glyph_at gs i).source :=
  glyph_at_of_map glyph.source _ _ (position_paragraphs_map glyph.source (fun _ _ => rfl) ps gs) i

theorem position_paragraphs_is_whitespace (ps : List glyph_paragraph) (gs : List glyph) (i : Nat) :
    (glyph_at (position_paragraphs ps gs) i).is_whitespace = (glyph_at gs i).is_whitespace :=
  glyph_at_of_map glyph.is_whitespace _ _
    (position_paragraphs_map glyph.is_whitespace (fun _ _ => rfl) ps gs) i

theorem position_paragraphs_value (ps : List glyph_paragraph) (gs : List glyph) (i : Nat) :
    (glyph_at (position_paragraphs ps gs) i).value = (glyph_at gs i).value :=
  glyph_at_of_map glyph.value _ _ (position_paragraphs_map glyph.value (fun _ _ => rfl) ps gs) i

/-! ## Invariants of the paragraph loop -/

/-- The paragraph record pushed by the loop for the buffer `[paragraphStart, ch + 1)`. -/
theorem refresh_paragraph_loop_inv (h : host) (d : text_edit)
    (Q : Nat → List glyph → List glyph_paragraph → Prop)
    (hstep : ∀ paragraphStart ch gs ps c, paragraphStart ≤ ch → ch < d.text.length →
      d.text[ch]? = some c → (c = '\n' ∨ ch + 1 = d.text.length) → Q paragraphStart gs ps →
      Q (ch + 1)
        (gs ++ h.to_glyph_text ((d.text.drop paragraphStart).take (ch + 1 - paragraphStart)) (d.fs paragraphStart))
        (ps ++ [{ text_start_index := paragraphStart, text_end_index := ch + 1, start_index := gs.length,
                  end_index := size_sub
                    (gs ++ h.to_glyph_text ((d.text.drop paragraphStart).take (ch + 1 - paragraphStart))
                      (d.fs paragraphStart)).length (if c = '\n' then 1 else 0) }])) :
    ∀ rest ch paragraphStart gs ps, d.text.drop ch = rest → ch ≤ d.text.length → paragraphStart ≤ ch →
      (rest = [] → paragraphStart = ch) → Q paragraphStart gs ps →
      Q d.text.length (d.refresh_paragraph_loop h rest ch paragraphStart gs ps).1
        (d.refresh_paragraph_loop h rest ch paragraphStart gs ps).2 := by
  intro rest
  induction rest with
  | nil =>
    intro ch paragraphStart gs ps hd hch hp he hQ
    have hlen : d.text.length ≤ ch := by
      have := congrArg List.length hd
      simp at this
      omega
    have : ch = d.text.length := by omega
    have h2 := he rfl
    subst h2
    unfold text_edit.refresh_paragraph_loop
    rw [this] at hQ
    exact hQ
  | cons c rest ih =>
    intro ch paragraphStart gs ps hd hch hp he hQ
    have hlt : ch < d.text.length := by
      have := congrArg List.length hd
      simp at this
      omega
    have hc : d.text[ch]? = some c := by
      have := congrArg (fun l => l[0]?) hd
      simpa using this
    have hrest : d.text.drop (ch + 1) = rest := by
      have := congrArg (List.drop 1) hd
      simpa [List.drop_drop, Nat.add_comm] using this
    unfold text_edit.refresh_paragraph_loop
    by_cases hflush : c = '\n' ∨ rest = []
    · simp only [hflush, if_true]
      have hcond : c = '\n' ∨ ch + 1 = d.text.length := by
        rcases hflush with h1 | h1
        · exact Or.inl h1
        · right
          have := congrArg List.length hrest
          simp [h1] at this
          omega
      exact ih (ch + 1) (ch + 1) _ _ hrest (by omega) (le_refl _) (fun _ => rfl)
        (hstep paragraphStart ch gs ps c hp hlt hc hcond hQ)
    · simp only [hflush, if_false]
      refine ih (ch + 1) paragraphStart gs ps hrest (by omega) (by omega) ?_ hQ
      intro hr
      exact absurd (Or.inr hr) hflush


/-! ## Documents rebuilt with a bytewise shaper -/

theorem glyph_at_append_left (gs gt : List glyph) (i : Nat) (h : i < gs.length) :
    glyph_at (gs ++ gt) i = glyph_at gs i := by
  unfold glyph_at
  exact List.getD_append gs gt default i h

theorem glyph_at_append_right (gs gt : List glyph) (i : Nat) (h : gs.length ≤ i) :
    glyph_at (gs ++ gt) i = glyph_at gt (i - gs.length) := by
  unfold glyph_at
  exact List.getD_append_right gs gt default i h

theorem bytewise_length (sh : shaper) (hb : bytewise sh) (buf : List Char) (fs : Nat → font) :
    (sh buf fs).length = buf.length := by
  have := congrArg List.length (hb buf fs)
  simpa using this

theorem bytewise_source (sh : shaper) (hb : bytewise sh) (buf : List Char) (fs : Nat → font)
    (j : Nat) (hj : j < buf.length) : (glyph_at (sh buf fs) j).source = (j, j + 1) := by
  have h1 := List.getD_map (l := sh buf fs) (d := default) (n := j) glyph.source
  unfold glyph_at
  rw [← h1, hb buf fs]
  simp [List.getD_eq_getElem?_getD, hj]

theorem byte_shaper_bytewise (adv : Int) : bytewise (byte_shaper adv) := by
  intro buf fs
  unfold byte_shaper
  have key : ∀ (cs : List Char) (i : Nat),
      (byte_glyphs adv cs i).map glyph.source = (List.range' i cs.length).map (fun i => (i, i + 1)) := by
    intro cs
    induction cs with
    | nil => intro i; rfl
    | cons c cs ih =>
      intro i
      simp [byte_glyphs, List.range', ih, glyph.source]
  rw [key, List.range_eq_range']

theorem take_drop_length (l : List Char) (a b : Nat) (_hab : a ≤ b) (hb : b < l.length) :
    ((l.drop a).take (b + 1 - a)).length = b + 1 - a := by
  simp
  omega

theorem refresh_paragraph_byte_layout (h : host) (hb : bytewise h.to_glyph_text) (d : text_edit) :
    byte_layout d.iText.length (d.refresh_paragraph h).iGlyphs (d.refresh_paragraph h).iGlyphParagraphs := by
  have hlen : d.text.length = d.iText.length := by simp [text_edit.text]
  have key := refresh_paragraph_loop_inv h d byte_layout (by
    intro paragraphStart ch gs ps c hp hch hc hcond hQ
    obtain ⟨q1, q2, q3, q4, q5⟩ := hQ
    have hbl := take_drop_length d.text paragraphStart ch hp hch
    have hgl := bytewise_length _ hb ((d.text.drop paragraphStart).take (ch + 1 - paragraphStart))
      (d.fs paragraphStart)
    rw [hbl] at hgl
    have hsz : size_sub (ch + 1) (if c = '\n' then 1 else 0) ≤ ch + 1 ∧
        ch ≤ size_sub (ch + 1) (if c = '\n' then 1 else 0) := by
      by_cases hc2 : c = '\n' <;> simp [size_sub, hc2]
    refine ⟨by simp [List.length_append, hgl, q1]; omega, ?_, ?_, ?_, ?_⟩
    · intro P hP
      rcases List.mem_append.1 hP with h1 | h1
      · have := q2 P h1
        omega
      · simp only [List.mem_singleton] at h1
        subst h1
        simp only [List.length_append, hgl, q1]
        have e : paragraphStart + (ch + 1 - paragraphStart) = ch + 1 := by omega
        rw [e]
        exact ⟨trivial, by omega, le_refl _, hsz.1, le_trans hp hsz.2, by omega⟩
    · rw [List.pairwise_append]
      refine ⟨q3, List.pairwise_singleton _ _, ?_⟩
      intro a ha b hb2
      simp only [List.mem_singleton] at hb2
      subst hb2
      have := q2 a ha
      simpa using this.2.2.1
    · intro g hg
      by_cases h1 : g < paragraphStart
      · obtain ⟨P, hP, h2⟩ := q4 g h1
        exact ⟨P, List.mem_append.2 (Or.inl hP), h2⟩
      · exact ⟨_, List.mem_append.2 (Or.inr (List.mem_singleton.2 rfl)), by simp; omega, by simp; omega⟩
    · intro P hP g hg1 hg2
      rcases List.mem_append.1 hP with h1 | h1
      · have := q2 P h1
        rw [glyph_at_append_left _ _ _ (by omega)]
        exact q5 P h1 g hg1 hg2
      · simp only [List.mem_singleton] at h1
        subst h1
        simp only at hg1 hg2
        rw [glyph_at_append_right _ _ _ (by omega), q1]
        exact bytewise_source _ hb _ _ _ (by rw [hbl]; omega))
    d.text 0 0 [] [] (by simp) (by omega) (le_refl _) (by
      intro h0
      rfl) (by
      refine ⟨rfl, by simp, List.Pairwise.nil, by intro g hg; omega, by simp⟩)
  rw [hlen] at key
  obtain ⟨q1, q2, q3, q4, q5⟩ := key
  refine ⟨?_, q2, q3, q4, ?_⟩
  · simp [text_edit.refresh_paragraph, position_paragraphs_length, q1]
  · intro P hP g hg1 hg2
    simp only [text_edit.refresh_paragraph]
    rw [position_paragraphs_source]
    exact q5 P hP g hg1 hg2

theorem paragraph_at_eq (ps : List glyph_paragraph) (i : Nat) (h : i < ps.length) :
    paragraph_at ps i = ps[i] := by
  unfold paragraph_at
  exact List.getD_eq_getElem ps default h

theorem paragraph_at_mem (ps : List glyph_paragraph) (i : Nat) (h : i < ps.length) :
    paragraph_at ps i ∈ ps := by
  rw [paragraph_at_eq ps i h]
  exact List.getElem_mem h

theorem mem_paragraph_at (ps : List glyph_paragraph) (P : glyph_paragraph) (h : P ∈ ps) :
    ∃ i, i < ps.length ∧ paragraph_at ps i = P := by
  obtain ⟨n, hn, e⟩ := List.getElem_of_mem h
  exact ⟨n, hn, by rw [paragraph_at_eq ps n hn]; exact e⟩

theorem paragraph_at_pairwise (R : glyph_paragraph → glyph_paragraph → Prop)
    (ps : List glyph_paragraph) (hp : ps.Pairwise R) (i j : Nat) (hij : i < j) (hj : j < ps.length) :
    R (paragraph_at ps i) (paragraph_at ps j) := by
  rw [paragraph_at_eq ps i (by omega), paragraph_at_eq ps j hj]
  have := List.pairwise_iff_get.1 hp ⟨i, by omega⟩ ⟨j, hj⟩ (by simpa using hij)
  simpa using this

/-- In a document of the bytewise shape `from_glyph` maps glyph `g` to the text
range `[g, g + 1)`, whatever paragraph is cached. -/
theorem from_glyph_byte_layout (d : text_edit)
    (hL : byte_layout d.iText.length d.iGlyphs d.iGlyphParagraphs)
    (hcache : d.cache_valid)
    (g : Nat) (hg : g < d.iGlyphs.length) : (d.from_glyph g).1 = (g, g + 1) := by
  obtain ⟨q1, q2, q3, q4, q5⟩ := hL
  have facts : ∀ i, i < d.iGlyphParagraphs.length →
      (paragraph_at d.iGlyphParagraphs i).start_index = (paragraph_at d.iGlyphParagraphs i).text_start_index ∧
      (paragraph_at d.iGlyphParagraphs i).text_start_index < (paragraph_at d.iGlyphParagraphs i).text_end_index ∧
      (paragraph_at d.iGlyphParagraphs i).text_end_index ≤ d.iText.length ∧
      (paragraph_at d.iGlyphParagraphs i).end_index ≤ (paragraph_at d.iGlyphParagraphs i).text_end_index ∧
      (paragraph_at d.iGlyphParagraphs i).text_start_index ≤ (paragraph_at d.iGlyphParagraphs i).end_index ∧
      (paragraph_at d.iGlyphParagraphs i).text_end_index ≤ (paragraph_at d.iGlyphParagraphs i).end_index + 1 :=
    fun i hi => q2 _ (paragraph_at_mem _ i hi)
  have ord : ∀ i j, i < j → j < d.iGlyphParagraphs.length →
      (paragraph_at d.iGlyphParagraphs i).text_end_index ≤ (paragraph_at d.iGlyphParagraphs j).text_start_index :=
    fun i j hij hj => paragraph_at_pairwise _ _ q3 i j hij hj
  have src : ∀ i, i < d.iGlyphParagraphs.length →
      (paragraph_at d.iGlyphParagraphs i).text_start_index ≤ g →
      g < (paragraph_at d.iGlyphParagraphs i).text_end_index →
      ((paragraph_at d.iGlyphParagraphs i).text_start_index + (glyph_at d.iGlyphs g).source.1,
        (paragraph_at d.iGlyphParagraphs i).text_start_index + (glyph_at d.iGlyphs g).source.2) = (g, g + 1) := by
    intro i hi h1 h2
    rw [q5 _ (paragraph_at_mem _ i hi) g h1 h2]
    simp only [Prod.mk.injEq]
    omega
  obtain ⟨P, hP, hP1, hP2⟩ := q4 g (by omega)
  obtain ⟨j, hj, rfl⟩ := mem_paragraph_at _ P hP
  have uniq : ∀ i, i < d.iGlyphParagraphs.length →
      (paragraph_at d.iGlyphParagraphs i).text_start_index ≤ g →
      g < (paragraph_at d.iGlyphParagraphs i).text_end_index → i = j := by
    intro i hi h1 h2
    by_contra hne
    rcases Nat.lt_or_gt_of_ne hne with h3 | h3
    · have := ord i j h3 hj; omega
    · have := ord j i h3 hi; omega
  unfold text_edit.from_glyph
  simp only [Nat.ne_of_lt hg, if_false]
  split
  · -- cache hit
    rename_i hhit
    cases hc : d.iGlyphParagraphCache with
    | none => simp [hc] at hhit
    | some c =>
      simp only [hc, Bool.and_eq_true, decide_eq_true_eq] at hhit
      have hcl := hcache c hc
      have f := facts c hcl
      simp only [Option.getD_some]
      exact src c hcl (by omega) (by omega)
  · -- search
    have hmono : ∀ i k, 0 ≤ i → i ≤ k → k < d.iGlyphParagraphs.length →
        decide ((paragraph_at d.iGlyphParagraphs k).start_index < g) = true →
        decide ((paragraph_at d.iGlyphParagraphs i).start_index < g) = true := by
      intro i k _ hik hk h1
      simp only [decide_eq_true_eq] at h1 ⊢
      rcases Nat.eq_or_lt_of_le hik with h2 | h2
      · subst h2; exact h1
      · have := ord i k h2 hk
        have f1 := facts i (by omega)
        have f2 := facts k hk
        omega
    have hr := lower_bound_range (fun i => decide ((paragraph_at d.iGlyphParagraphs i).start_index < g))
      0 d.iGlyphParagraphs.length (Nat.zero_le _)
    have hs := lower_bound_spec (fun i => decide ((paragraph_at d.iGlyphParagraphs i).start_index < g))
      0 d.iGlyphParagraphs.length (Nat.zero_le _) hmono
    generalize lower_bound (fun i => decide ((paragraph_at d.iGlyphParagraphs i).start_index < g))
      0 d.iGlyphParagraphs.length = r at hr hs ⊢
    simp only [decide_eq_true_eq, decide_eq_false_iff_not] at hs
    obtain ⟨hs1, hs2⟩ := hs
    have fj := facts j hj
    by_cases hrn : r = d.iGlyphParagraphs.length
    · -- every paragraph starts before g: the last one is taken
      have hlast := hs1 (d.iGlyphParagraphs.length - 1) (Nat.zero_le _) (by omega)
      have fl := facts (d.iGlyphParagraphs.length - 1) (by omega)
      have hjl : j = d.iGlyphParagraphs.length - 1 := by
        by_contra hne
        have := ord j (d.iGlyphParagraphs.length - 1) (by omega) (by omega)
        omega
      have hcond : r = d.iGlyphParagraphs.length ∧ r ≠ 0 ∧
          g ≤ (paragraph_at d.iGlyphParagraphs (r - 1)).end_index := by
        refine ⟨hrn, by omega, ?_⟩
        rw [hrn, ← hjl]
        omega
      have hne : r - 1 ≠ d.iGlyphParagraphs.length := by omega
      have hgt : ¬ (paragraph_at d.iGlyphParagraphs (r - 1)).start_index > g := by
        rw [hrn]; omega
      have hjr : r - 1 = j := by omega
      rw [if_pos hcond, if_pos hne, if_neg hgt, hjr]
      exact src j hj hP1 hP2
    · have hrl : r < d.iGlyphParagraphs.length := by omega
      have hcond : ¬ (r = d.iGlyphParagraphs.length ∧ r ≠ 0 ∧
          g ≤ (paragraph_at d.iGlyphParagraphs (r - 1)).end_index) := fun h => hrn h.1
      rw [if_neg hcond, if_pos hrn]
      have fr := facts r hrl
      have h2 := hs2 hrl
      by_cases hgt : (paragraph_at d.iGlyphParagraphs r).start_index > g
      · rw [if_pos hgt]
        have hjr : j < r := by
          by_contra hne
          rcases Nat.eq_or_lt_of_le (Nat.le_of_not_lt hne) with h3 | h3
          · subst h3; omega
          · have := ord r j h3 hj; omega
        have hprev := hs1 (r - 1) (Nat.zero_le _) (by omega)
        have fp := facts (r - 1) (by omega)
        have hjp : j = r - 1 := by
          by_contra hne
          have := ord j (r - 1) (by omega) (by omega)
          omega
        rw [← hjp]
        exact src j hj hP1 hP2
      · rw [if_neg hgt]
        have hjr : r = j := uniq r hrl (by omega) (by omega)
        rw [hjr]
        exact src j hj hP1 hP2

/-! ## Round trip between text offsets and glyphs -/

/-- The offset lookup of `to_glyph` beyond the first paragraph.  In the
document "ab\ncd" (one glyph per character) `to_glyph(3)` looks up the second
paragraph, compares the absolute offset 3 with the paragraph-relative source
ranges `[0,1)` and `[1,2)`, finds no glyph and returns the end of the glyphs;
`from_glyph` maps that to `(5, 5)`.  For offset 1 the paragraph search lands on
the second paragraph as well and the round trip yields `(4, 5)`. -/
theorem round_trip_beyond_first_paragraph :
    (document_of "ab\ncd" 0).text = "ab\ncd".toList ∧
    (document_of "ab\ncd" 0).iGlyphParagraphs.length = 2 ∧
    (document_of "ab\ncd" 0).to_glyph 3 = (5, some 1) ∧
    (document_of "ab\ncd" 0).round_trip 3 = (5, 5) ∧
    ¬ (((document_of "ab\ncd" 0).round_trip 3).1 ≤ 3 ∧ 3 < ((document_of "ab\ncd" 0).round_trip 3).2) ∧
    (document_of "ab\ncd" 0).round_trip 1 = (4, 5) := by
  decide

/-! ## Cursor and text after an edit -/

theorem refresh_paragraph_cursor (h : host) (d : text_edit) :
    (d.refresh_paragraph h).iCursor = d.iCursor := rfl

theorem refresh_paragraph_text (h : host) (d : text_edit) :
    (d.refresh_paragraph h).iText = d.iText := rfl

theorem delete_text_cursor (h : host) (d : text_edit) (a b : Nat) :
    (d.delete_text h a b).iCursor = d.iCursor := by
  unfold text_edit.delete_text
  split
  · rfl
  · rfl

/-- C2 (as stated): `delete_text(1,3)` on "abcd" with cursor and anchor at 3
leaves the position at 3 although only two glyphs remain. -/
theorem C2_delete_text_leaves_cursor_out_of_range :
    (document_of "abcd" 3).iCursor.position ≤ (document_of "abcd" 3).iGlyphs.length ∧
    (document_of "abcd" 3).iCursor.anchor ≤ (document_of "abcd" 3).iGlyphs.length ∧
    ((document_of "abcd" 3).delete_text (plain_host 10) 1 3).iGlyphs.length = 2 ∧
    ¬ (((document_of "abcd" 3).delete_text (plain_host 10) 1 3).iCursor.position
        ≤ ((document_of "abcd" 3).delete_text (plain_host 10) 1 3).iGlyphs.length) := by
  decide

theorem eos_le (d : text_edit) (buf : List Char) : d.eos buf ≤ buf.length := by
  unfold text_edit.eos
  have : buf.indexOf '\n' ≤ buf.length := List.indexOf_le_length
  simp only
  split
  · split <;> omega
  · exact le_refl _

theorem insert_text_result (h : host) (d : text_edit) (aText : List Char) (aStyle : style)
    (aMoveCursor : Bool) :
    (d.insert_text h aText aStyle aMoveCursor).2 = d.eos (aText.filter (fun ch => ch ≠ '\r')) ∧
    (d.insert_text h aText aStyle aMoveCursor).1.iText =
      d.iText.take d.insertionPoint ++
        ((aText.filter (fun ch => ch ≠ '\r')).take (d.eos (aText.filter (fun ch => ch ≠ '\r')))).map
          (fun ch => (ch, (style_list_insert d.iStyles aStyle).2)) ++
        d.iText.drop d.insertionPoint := by
  unfold text_edit.insert_text
  cases aMoveCursor <;> simp [refresh_paragraph_text]

theorem insert_text_glyphs (h : host) (d : text_edit) (aText : List Char) (aStyle : style)
    (aMoveCursor : Bool) :
    (d.insert_text h aText aStyle aMoveCursor).1.iGlyphs =
      ({ d with
          iStyles := (style_list_insert d.iStyles aStyle).1
          iText := (d.insert_text h aText aStyle aMoveCursor).1.iText }.refresh_paragraph h).iGlyphs ∧
    (d.insert_text h aText aStyle aMoveCursor).1.iGlyphParagraphs =
      ({ d with
          iStyles := (style_list_insert d.iStyles aStyle).1
          iText := (d.insert_text h aText aStyle aMoveCursor).1.iText }.refresh_paragraph h).iGlyphParagraphs := by
  rw [(insert_text_result h d aText aStyle aMoveCursor).2]
  unfold text_edit.insert_text
  cases aMoveCursor <;> exact ⟨rfl, rfl⟩

theorem insert_text_glyph_count (h : host) (hb : bytewise h.to_glyph_text) (d : text_edit)
    (aText : List Char) (aStyle : style) (aMoveCursor : Bool) :
    (d.insert_text h aText aStyle aMoveCursor).1.iGlyphs.length
      = d.iText.length + (d.insert_text h aText aStyle aMoveCursor).2 := by
  rw [(insert_text_glyphs h d aText aStyle aMoveCursor).1, (refresh_paragraph_byte_layout h hb _).1]
  simp only
  rw [(insert_text_result h d aText aStyle aMoveCursor).2, (insert_text_result h d aText aStyle aMoveCursor).1]
  simp only [List.length_append, List.length_take, List.length_map, List.length_drop]
  have := eos_le d (aText.filter (fun ch => ch ≠ '\r'))
  omega

theorem insert_text_cursor (h : host) (d : text_edit) (aText : List Char) (aStyle : style)
    (aMoveCursor : Bool) :
    (d.insert_text h aText aStyle aMoveCursor).1.iCursor =
      if aMoveCursor then
        { iPosition := d.iCursor.position + (d.insert_text h aText aStyle aMoveCursor).2
          iAnchor := d.iCursor.position + (d.insert_text h aText aStyle aMoveCursor).2 }
      else d.iCursor := by
  unfold text_edit.insert_text
  cases aMoveCursor <;> simp [cursor.set_position, refresh_paragraph_cursor]

/-- C2 (amended): `delete_text` leaves position and anchor as they were; and in
a document with one glyph per text byte, shaped bytewise, `insert_text` keeps
position and anchor within `[0, new glyph count]`. -/
theorem C2_cursor_after_insert_and_delete (h : host) (hb : bytewise h.to_glyph_text) (d : text_edit)
    (aText : List Char) (aStyle : style) (aMoveCursor : Bool) (a b : Nat)
    (hcount : d.iGlyphs.length = d.iText.length)
    (hpos : d.iCursor.position ≤ d.iGlyphs.length) (hanchor : d.iCursor.anchor ≤ d.iGlyphs.length) :
    ((d.insert_text h aText aStyle aMoveCursor).1.iCursor.position
        ≤ (d.insert_text h aText aStyle aMoveCursor).1.iGlyphs.length ∧
      (d.insert_text h aText aStyle aMoveCursor).1.iCursor.anchor
        ≤ (d.insert_text h aText aStyle aMoveCursor).1.iGlyphs.length) ∧
    (d.delete_text h a b).iCursor.position = d.iCursor.position ∧
    (d.delete_text h a b).iCursor.anchor = d.iCursor.anchor := by
  refine ⟨?_, by rw [delete_text_cursor], by rw [delete_text_cursor]⟩
  rw [insert_text_glyph_count h hb, insert_text_cursor]
  cases aMoveCursor
  · simp only [Bool.false_eq_true, if_false]
    constructor <;> omega
  · simp only [if_true, cursor.position, cursor.anchor]
    simp only [cursor.position] at hpos
    constructor <;> omega

/-- C2 (amended), instance: inserting "xy" into "abcd" with the cursor at 3, and deleting glyphs 1 to 3. -/
theorem C2_cursor_after_insert_and_delete_witness :
    ((((document_of "abcd" 3).insert_text (plain_host 10) "xy".toList plain_style true).1.iCursor.position
        ≤ ((document_of "abcd" 3).insert_text (plain_host 10) "xy".toList plain_style true).1.iGlyphs.length ∧
      ((document_of "abcd" 3).insert_text (plain_host 10) "xy".toList plain_style true).1.iCursor.anchor
        ≤ ((document_of "abcd" 3).insert_text (plain_host 10) "xy".toList plain_style true).1.iGlyphs.length) ∧
    ((document_of "abcd" 3).delete_text (plain_host 10) 1 3).iCursor.position
      = (document_of "abcd" 3).iCursor.position ∧
    ((document_of "abcd" 3).delete_text (plain_host 10) 1 3).iCursor.anchor
      = (document_of "abcd" 3).iCursor.anchor) :=
  C2_cursor_after_insert_and_delete (plain_host 10) (byte_shaper_bytewise 10) (document_of "abcd" 3)
    "xy".toList plain_style true 1 3 (by decide) (by decide) (by decide)

theorem document_of_byte_layout (s : String) (pos : Nat) :
    byte_layout (document_of s pos).iText.length (document_of s pos).iGlyphs
      (document_of s pos).iGlyphParagraphs := by
  have h1 := insert_text_glyphs (plain_host 10) (empty_document type_e.MultiLine) s.toList plain_style true
  have h2 := refresh_paragraph_byte_layout (plain_host 10) (byte_shaper_bytewise 10)
    { empty_document type_e.MultiLine with
      iStyles := (style_list_insert (empty_document type_e.MultiLine).iStyles plain_style).1
      iText := ((empty_document type_e.MultiLine).insert_text (plain_host 10) s.toList plain_style true).1.iText }
  simp only [document_of]
  rw [h1.1, h1.2]
  exact h2

theorem document_of_cache_valid (s : String) (pos : Nat) : (document_of s pos).cache_valid := by
  intro c hc
  simp [document_of, text_edit.insert_text, text_edit.refresh_paragraph] at hc

/-- C4 (as stated): after `delete_text(1,3)` on "abcd" with the cursor at 3 the
text is "ad" and the cursor is still at 3, not at 1. -/
theorem C4_delete_text_cursor_not_moved :
    (document_of "abcd" 3).iCursor.position = 3 ∧
    ((document_of "abcd" 3).delete_text (plain_host 10) 1 3).text = "ad".toList ∧
    ((document_of "abcd" 3).delete_text (plain_host 10) 1 3).iCursor.position = 3 ∧
    ((document_of "abcd" 3).delete_text (plain_host 10) 1 3).iCursor.position ≠ 1 := by
  decide

/-- C4 (amended): `delete_text(a, b)` does not move the cursor, position and
anchor are what they were before the call; the cursor ends at the start of the
deleted range when the deletion goes through `delete_any_selection`, which
sets position and anchor to the smaller of the two afterwards. -/
theorem C4_delete_text_keeps_cursor (h : host) (d : text_edit) (a b : Nat) :
    (d.delete_text h a b).iCursor.position = d.iCursor.position ∧
    (d.delete_text h a b).iCursor.anchor = d.iCursor.anchor ∧
    (d.iCursor.position ≠ d.iCursor.anchor →
      (d.delete_any_selection h).iCursor.position = min d.iCursor.position d.iCursor.anchor ∧
      (d.delete_any_selection h).iCursor.anchor = min d.iCursor.position d.iCursor.anchor ∧
      (d.delete_any_selection h).text =
        (d.delete_text h (min d.iCursor.position d.iCursor.anchor)
          (max d.iCursor.position d.iCursor.anchor)).text) := by
  refine ⟨by rw [delete_text_cursor], by rw [delete_text_cursor], ?_⟩
  intro hsel
  unfold text_edit.delete_any_selection
  rw [if_pos hsel]
  simp only [delete_text_cursor, cursor.set_position, cursor.position, cursor.anchor, text_edit.text,
    if_true, and_self]

/-- C4 (amended), instance: with the selection from 1 to 3 in "abcd", deleting the selection leaves "ad" and the cursor at 1. -/
theorem C4_delete_text_keeps_cursor_witness :
    ((document_of "abcd" 3).set_anchor 1).iCursor.position ≠ ((document_of "abcd" 3).set_anchor 1).iCursor.anchor ∧
    (((document_of "abcd" 3).set_anchor 1).delete_any_selection (plain_host 10)).iCursor.position = 1 ∧
    (((document_of "abcd" 3).set_anchor 1).delete_any_selection (plain_host 10)).text = "ad".toList := by
  have w := (C4_delete_text_keeps_cursor (plain_host 10) ((document_of "abcd" 3).set_anchor 1) 1 3).2.2
    (by decide)
  exact ⟨by decide, w.1.trans (by decide), w.2.2.trans (by decide)⟩

/-! ## Inserting into an empty document -/

theorem take_indexOf_eq_takeWhile (t : List Char) :
    t.take (t.indexOf '\n') = t.takeWhile (fun ch => ch ≠ '\n') := by
  induction t with
  | nil => rfl
  | cons c t ih =>
    by_cases hc : c = '\n'
    · subst hc
      simp [List.indexOf_cons, List.takeWhile]
    · have hc2 : (c == '\n') = false := by simpa using hc
      simp [List.indexOf_cons, List.takeWhile, hc, hc2, ih]

theorem take_eos_eq (d : text_edit) (t : List Char) :
    t.take (d.eos t) =
      if d.iType = type_e.SingleLine then t.takeWhile (fun ch => ch ≠ '\n') else t := by
  unfold text_edit.eos
  simp only
  split
  · split
    · exact take_indexOf_eq_takeWhile t
    · rename_i h
      have h2 : t.indexOf '\n' = t.length := by simpa using h
      rw [← take_indexOf_eq_takeWhile, h2]
  · simp

theorem filter_eq_self_of_no_cr (s : List Char) (hs : ∀ c ∈ s, c ≠ '\r' ∧ c ≠ '\n') :
    norm_spec true s = s ∧ norm_spec false s = s := by
  have h1 : s.filter (fun ch => ch ≠ '\r') = s := by
    rw [List.filter_eq_self]
    intro c hc
    simpa using (hs c hc).1
  have h2 : s.takeWhile (fun ch => ch ≠ '\n') = s := by
    rw [List.takeWhile_eq_self_iff]
    intro c hc
    simpa using (hs c hc).2
  constructor
  · simp only [norm_spec, h1, h2, if_true]
  · simp only [norm_spec, h1, Bool.false_eq_true, if_false]

/-- C5: `insert_text(s)` into an empty document returns the length of `norm(s)`
and makes `text()` equal to `norm(s)`, where `norm` removes every carriage
return and, in a single-line document, drops everything from the first line
feed on; for `s` without carriage return and line feed `text()` is `s`, and
inserting "Hello" gives "Hello" and returns 5. -/
theorem C5_insert_text_into_empty_document (h : host) (d : text_edit) (s : List Char)
    (aStyle : style) (aMoveCursor : Bool) (hempty : d.iText = []) :
    (d.insert_text h s aStyle aMoveCursor).2
      = (norm_spec (decide (d.iType = type_e.SingleLine)) s).length ∧
    (d.insert_text h s aStyle aMoveCursor).1.text
      = norm_spec (decide (d.iType = type_e.SingleLine)) s ∧
    ((∀ c ∈ s, c ≠ '\r' ∧ c ≠ '\n') → (d.insert_text h s aStyle aMoveCursor).1.text = s) ∧
    (d.insert_text_default h s aMoveCursor).1.text
      = norm_spec (decide (d.iType = type_e.SingleLine)) s := by
  have htext : ∀ st, (d.insert_text h s st aMoveCursor).1.text
      = norm_spec (decide (d.iType = type_e.SingleLine)) s := by
    intro st
    unfold text_edit.text
    rw [(insert_text_result h d s st aMoveCursor).2, hempty]
    simp only [List.take_nil, List.drop_nil, List.nil_append, List.append_nil, List.map_map]
    have : (Prod.fst ∘ fun ch => (ch, (style_list_insert d.iStyles st).2)) = (id : Char → Char) := rfl
    rw [this, List.map_id, take_eos_eq]
    unfold norm_spec
    by_cases hs : d.iType = type_e.SingleLine <;> simp [hs]
  refine ⟨?_, htext aStyle, ?_, htext _⟩
  · rw [(insert_text_result h d s aStyle aMoveCursor).1]
    have h1 := congrArg List.length (take_eos_eq d (s.filter (fun ch => ch ≠ '\r')))
    have h2 := eos_le d (s.filter (fun ch => ch ≠ '\r'))
    rw [List.length_take, Nat.min_eq_left h2] at h1
    rw [h1]
    unfold norm_spec
    by_cases hs : d.iType = type_e.SingleLine <;> simp [hs]
  · intro hs
    rw [htext aStyle]
    have := filter_eq_self_of_no_cr s hs
    by_cases hsl : d.iType = type_e.SingleLine <;> simp [hsl, this]

/-- C5, instances: "Hello" and a string with a carriage return and a line feed, in a single-line and in a multi-line widget. -/
theorem C5_insert_text_into_empty_document_witness :
    ((empty_document type_e.SingleLine).insert_text (plain_host 10) "Hello".toList plain_style true).2 = 5 ∧
    ((empty_document type_e.SingleLine).insert_text (plain_host 10) "Hello".toList plain_style true).1.text
      = "Hello".toList ∧
    ((empty_document type_e.SingleLine).insert_text (plain_host 10) "a\rb\nc".toList plain_style true).1.text
      = "ab".toList ∧
    ((empty_document type_e.MultiLine).insert_text (plain_host 10) "a\rb\nc".toList plain_style true).1.text
      = "ab\nc".toList := by
  have w1 := C5_insert_text_into_empty_document (plain_host 10) (empty_document type_e.SingleLine)
    "Hello".toList plain_style true rfl
  have w2 := C5_insert_text_into_empty_document (plain_host 10) (empty_document type_e.SingleLine)
    "a\rb\nc".toList plain_style true rfl
  have w3 := C5_insert_text_into_empty_document (plain_host 10) (empty_document type_e.MultiLine)
    "a\rb\nc".toList plain_style true rfl
  exact ⟨w1.1.trans (by decide), w1.2.1.trans (by decide), w2.2.1.trans (by decide),
    w3.2.1.trans (by decide)⟩

/-! ## Copy and cut without a selection -/

/-- C7: with no selection (position equal to anchor) `copy` and `cut` change
neither the clipboard nor the document (text, cursor and everything else);
both are total functions, so nothing is raised. -/
theorem C7_copy_cut_without_selection (h : host) (d : text_edit) (aClipboard : List Char)
    (hsel : d.iCursor.position = d.iCursor.anchor) :
    d.copy aClipboard = (d, aClipboard) ∧ d.cut h aClipboard = (d, aClipboard) := by
  unfold text_edit.copy text_edit.cut
  simp [hsel]

/-- C7, instance: copy and cut on "abc" with position and anchor at 1. -/
theorem C7_copy_cut_without_selection_witness :
    (document_of "abc" 1).iCursor.position = (document_of "abc" 1).iCursor.anchor ∧
    ((document_of "abc" 1).copy "old".toList).2 = "old".toList ∧
    ((document_of "abc" 1).cut (plain_host 10) "old".toList).2 = "old".toList ∧
    ((document_of "abc" 1).cut (plain_host 10) "old".toList).1.text = "abc".toList ∧
    ((document_of "abc" 1).cut (plain_host 10) "old".toList).1.iCursor = { iPosition := 1, iAnchor := 1 } := by
  have w := C7_copy_cut_without_selection (plain_host 10) (document_of "abc" 1) "old".toList (by decide)
  refine ⟨by decide, by rw [w.1], by rw [w.2], by rw [w.2]; decide, by rw [w.2]; decide⟩

/-! ## Select all and copy -/

theorem paragraph_at_append_singleton_last (ps : List glyph_paragraph) (p : glyph_paragraph) :
    paragraph_at (ps ++ [p]) ((ps ++ [p]).length - 1) = p := by
  unfold paragraph_at
  simp [List.getD_eq_getElem?_getD]

theorem paragraph_at_append_zero (ps : List glyph_paragraph) (p : glyph_paragraph) (h : ps ≠ []) :
    paragraph_at (ps ++ [p]) 0 = paragraph_at ps 0 := by
  unfold paragraph_at
  cases ps with
  | nil => exact absurd rfl h
  | cons q qs => rfl

theorem refresh_paragraph_spanned_layout (h : host) (hs : spans_buffer h.to_glyph_text) (d : text_edit) :
    spanned_layout d.iText.length (d.refresh_paragraph h).iGlyphs
      (d.refresh_paragraph h).iGlyphParagraphs := by
  have hlen : d.text.length = d.iText.length := by simp [text_edit.text]
  have key := refresh_paragraph_loop_inv h d spanned_layout (by
    intro paragraphStart ch gs ps c hp hch hc hcond hQ
    obtain ⟨q1, q2, q3⟩ := hQ
    have hbl := take_drop_length d.text paragraphStart ch hp hch
    have hbuf : (d.text.drop paragraphStart).take (ch + 1 - paragraphStart) ≠ [] := by
      intro h0
      rw [h0] at hbl
      simp at hbl
      omega
    obtain ⟨s1, s2, s3⟩ := hs _ (d.fs paragraphStart) hbuf
    generalize h.to_glyph_text ((d.text.drop paragraphStart).take (ch + 1 - paragraphStart))
      (d.fs paragraphStart) = gt at s1 s2 s3 ⊢
    have hgt : 0 < gt.length := List.length_pos.2 s1
    refine ⟨by simp, ?_, ?_⟩
    · intro _
      refine ⟨by simp [s1], ?_, ?_, ?_⟩
      · by_cases hps : ps = []
        · subst hps
          simp only [List.nil_append, paragraph_at, List.getD_cons_zero]
          exact (q1 rfl).1
        · rw [paragraph_at_append_zero _ _ hps]
          exact (q2 hps).2.1
      · by_cases hps : ps = []
        · have := (q1 hps).2
          subst this
          simpa using s2
        · have hg := (q2 hps).1
          rw [glyph_at_append_left _ _ _ (List.length_pos.2 hg)]
          exact (q2 hps).2.2.1
      · rw [paragraph_at_append_singleton_last]
        simp only [List.length_append]
        rw [glyph_at_append_right _ _ _ (by omega)]
        have e : gs.length + gt.length - 1 - gs.length = gt.length - 1 := by omega
        rw [e, s3, hbl]
        omega
    · intro P hP h0
      rcases List.mem_append.1 hP with h1 | h1
      · exact q3 P h1 h0
      · simp only [List.mem_singleton] at h1
        subst h1
        simp only at h0 ⊢
        have hg : gs = [] := List.length_eq_zero.1 h0
        by_cases hps : ps = []
        · exact (q1 hps).1
        · exact absurd hg (q2 hps).1)
    d.text 0 0 [] [] (by simp) (by omega) (le_refl _) (fun _ => rfl)
    ⟨fun _ => ⟨rfl, rfl⟩, fun hne => absurd rfl hne, by simp⟩
  rw [hlen] at key
  obtain ⟨q1, q2, q3⟩ := key
  have hl := position_paragraphs_length (d.refresh_paragraph_loop h d.text 0 0 [] []).2
    (d.refresh_paragraph_loop h d.text 0 0 [] []).1
  refine ⟨?_, ?_, q3⟩
  · intro hps
    refine ⟨(q1 hps).1, ?_⟩
    apply List.length_eq_zero.1
    simp only [text_edit.refresh_paragraph]
    rw [hl, (q1 hps).2]
    rfl
  · intro hps
    obtain ⟨r1, r2, r3, r4⟩ := q2 hps
    simp only [text_edit.refresh_paragraph]
    refine ⟨?_, r2, ?_, ?_⟩
    · intro h0
      rw [h0] at hl
      exact r1 (List.length_eq_zero.1 hl.symm)
    · rw [position_paragraphs_source]; exact r3
    · rw [position_paragraphs_source, hl]; exact r4

/-- The loop variables after a pass do not depend on the output collected so
far. -/
theorem wrap_step_control (d : text_edit) (p : glyph_paragraph) (availableWidth : Int)
    (s : wrap_state) (y : Int) (lines : List glyph_line) (cx : Int) :
    (d.wrap_step p availableWidth { s with y := y, lines := lines, cx := cx }).next
      = (d.wrap_step p availableWidth s).next ∧
    (d.wrap_step p availableWidth { s with y := y, lines := lines, cx := cx }).lineStart
      = (d.wrap_step p availableWidth s).lineStart ∧
    (d.wrap_step p availableWidth { s with y := y, lines := lines, cx := cx }).lineEnd
      = (d.wrap_step p availableWidth s).lineEnd ∧
    (d.wrap_step p availableWidth { s with y := y, lines := lines, cx := cx }).offset
      = (d.wrap_step p availableWidth s).offset :=
  ⟨rfl, rfl, rfl, rfl⟩

theorem cluster_wrap_step (y : Int) (lines : List glyph_line) (cx : Int) :
    ∃ y1 lines1 cx1,
      cluster_document.wrap_step
        { text_start_index := 0, text_end_index := 1, start_index := 0, end_index := 2 } 15
        { next := 0, lineStart := 0, lineEnd := 2, offset := 0, y := y, lines := lines, cx := cx }
      = { next := 0, lineStart := 0, lineEnd := 2, offset := 0, y := y1, lines := lines1, cx := cx1 } := by
  have hc := wrap_step_control cluster_document
    { text_start_index := 0, text_end_index := 1, start_index := 0, end_index := 2 } 15
    { next := 0, lineStart := 0, lineEnd := 2, offset := 0, y := 0, lines := [], cx := 0 } y lines cx
  have h0 : (cluster_document.wrap_step
      { text_start_index := 0, text_end_index := 1, start_index := 0, end_index := 2 } 15
      { next := 0, lineStart := 0, lineEnd := 2, offset := 0, y := 0, lines := [], cx := 0 }).next = 0 ∧
    (cluster_document.wrap_step
      { text_start_index := 0, text_end_index := 1, start_index := 0, end_index := 2 } 15
      { next := 0, lineStart := 0, lineEnd := 2, offset := 0, y := 0, lines := [], cx := 0 }).lineStart = 0 ∧
    (cluster_document.wrap_step
      { text_start_index := 0, text_end_index := 1, start_index := 0, end_index := 2 } 15
      { next := 0, lineStart := 0, lineEnd := 2, offset := 0, y := 0, lines := [], cx := 0 }).lineEnd = 2 ∧
    (cluster_document.wrap_step
      { text_start_index := 0, text_end_index := 1, start_index := 0, end_index := 2 } 15
      { next := 0, lineStart := 0, lineEnd := 2, offset := 0, y := 0, lines := [], cx := 0 }).offset = 0 := by
    decide
  simp only at hc
  rcases hs : cluster_document.wrap_step
      { text_start_index := 0, text_end_index := 1, start_index := 0, end_index := 2 } 15
      { next := 0, lineStart := 0, lineEnd := 2, offset := 0, y := y, lines := lines, cx := cx }
    with ⟨n, ls, le, o, y1, l1, c1⟩
  rw [hs] at hc
  simp only at hc
  refine ⟨y1, l1, c1, ?_⟩
  rw [hc.1, hc.2.1, hc.2.2.1, hc.2.2.2, h0.1, h0.2.1, h0.2.2.1, h0.2.2.2]

theorem cluster_wrap_loop (fuel : Nat) :
    ∀ (y : Int) (lines : List glyph_line) (cx : Int),
      cluster_document.wrap_loop
        { text_start_index := 0, text_end_index := 1, start_index := 0, end_index := 2 } 15 fuel
        { next := 0, lineStart := 0, lineEnd := 2, offset := 0, y := y, lines := lines, cx := cx } = none := by
  induction fuel with
  | zero => intro y lines cx; rfl
  | succ n ih =>
    intro y lines cx
    obtain ⟨y1, lines1, cx1, e⟩ := cluster_wrap_step y lines cx
    unfold text_edit.wrap_loop
    rw [if_pos (by simp), e]
    exact ih y1 lines1 cx1

/-- C8: the wrapping loop of `refresh_lines` does not terminate on a cluster
wider than the available width.  The document "a" is shaped into two glyphs of
advance 10 that share the source range `[0,1)`; with available width 15 a pass
of the loop leaves the start of the next line at glyph 0, and no number of
passes finishes the layout. -/
theorem C8_wrap_loop_stuck_on_wide_cluster :
    cluster_document.iGlyphs.map (fun g => (g.source, g.cx)) = [((0, 1), 10), ((0, 1), 10)] ∧
    cluster_document.iWordWrap = true ∧
    (cluster_document.wrap_step
        { text_start_index := 0, text_end_index := 1, start_index := 0, end_index := 2 } 15
        { next := 0, lineStart := 0, lineEnd := 2, offset := 0, y := 0, lines := [], cx := 0 }).next = 0 ∧
    ∀ fuel, cluster_document.refresh_lines 15 fuel = none := by
  refine ⟨by decide, by decide, by decide, ?_⟩
  intro fuel
  have hp : cluster_document.iGlyphParagraphs
      = [{ text_start_index := 0, text_end_index := 1, start_index := 0, end_index := 2 }] := by decide
  unfold text_edit.refresh_lines
  rw [hp]
  unfold text_edit.refresh_lines_loop text_edit.refresh_lines_paragraph
  rw [if_neg (by decide), if_pos (by decide)]
  simp only
  rw [cluster_wrap_loop fuel 0 [] 0]

/-- C9 (as stated): a visual line can have an empty glyph range.  The document
"\n" (an empty paragraph) is laid out as one line with the range `[0, 0)`; and
with word wrap on and available width 5 the document "  a" (glyphs 10 wide)
gets a first line with the range `[0, 0)`. -/
theorem C9_empty_visual_line :
    line_ranges ((document_of "\n" 0).refresh_lines 100 4) = some [(0, 0)] ∧
    line_ranges ((document_of "  a" 0).refresh_lines 5 4) = some [(0, 0), (2, 3)] ∧
    ¬ (∀ r ∈ (line_ranges ((document_of "\n" 0).refresh_lines 100 4)).getD [], r.1 < r.2) := by
  decide

/-- C10 (as stated): for "ab cd" with glyphs 10 wide and available width 30 the
first visual line is the glyph range `[0, 2)`, the glyphs of "ab"; it does not
hold the three glyphs of "ab ". -/
theorem C10_first_line_excludes_space :
    line_ranges ((document_of "ab cd" 0).refresh_lines 30 4) = some [(0, 2), (3, 5)] ∧
    line_ranges ((document_of "ab cd" 0).refresh_lines 30 4) ≠ some [(0, 3), (3, 5)] := by
  decide

/-! ## Progress of the wrapping loop -/

theorem scan_back_spec (cond : Nat → Bool) (aBegin : Nat) :
    ∀ i0, aBegin ≤ i0 →
      aBegin ≤ scan_back cond aBegin i0 ∧ scan_back cond aBegin i0 ≤ i0 ∧
      (scan_back cond aBegin i0 = aBegin ∨ cond (scan_back cond aBegin i0) = false) ∧
      ∀ i, scan_back cond aBegin i0 < i → i ≤ i0 → cond i = true := by
  intro i0
  induction i0 with
  | zero =>
    intro h
    have : aBegin = 0 := by omega
    subst this
    refine ⟨by simp [scan_back], by simp [scan_back], Or.inl rfl, ?_⟩
    intro i h1 h2
    simp [scan_back] at h1
    omega
  | succ n ih =>
    intro h
    unfold scan_back
    by_cases hc : n + 1 ≠ aBegin ∧ cond (n + 1) = true
    · rw [if_pos hc]
      obtain ⟨h1, h2, h3, h4⟩ := ih (by omega)
      refine ⟨h1, by omega, h3, ?_⟩
      intro i hi1 hi2
      by_cases hi : i = n + 1
      · subst hi; exact hc.2
      · exact h4 i hi1 (by omega)
    · rw [if_neg hc]
      refine ⟨h, le_refl _, ?_, fun i h1 h2 => by omega⟩
      by_cases h1 : n + 1 = aBegin
      · exact Or.inl h1
      · right
        by_contra h2
        exact hc ⟨h1, by simpa using h2⟩

theorem scan_forward_spec (cond : Nat → Bool) (aEnd : Nat) :
    ∀ n i, i + n = aEnd →
      i ≤ scan_forward cond aEnd n i ∧ scan_forward cond aEnd n i ≤ aEnd ∧
      (cond i = true → i ≠ aEnd → i < scan_forward cond aEnd n i) := by
  intro n
  induction n with
  | zero =>
    intro i h
    simp only [scan_forward]
    exact ⟨le_refl _, by omega, fun _ h2 => absurd (by omega) h2⟩
  | succ n ih =>
    intro i h
    unfold scan_forward
    by_cases hc : cond i = true ∧ i ≠ aEnd
    · rw [if_pos hc]
      obtain ⟨h1, h2, _⟩ := ih (i + 1) (by omega)
      exact ⟨by omega, h2, fun _ _ => by omega⟩
    · rw [if_neg hc]
      exact ⟨le_refl _, by omega, fun h1 h2 => absurd ⟨h1, h2⟩ hc⟩

theorem wrap_split_range (gs : List glyph) (next pend : Nat) (key : Int) (h : next < pend) :
    next < wrap_split gs next pend key ∧ wrap_split gs next pend key ≤ pend := by
  have hr := lower_bound_range (fun i => decide ((glyph_at gs i).x < key)) next pend (by omega)
  unfold wrap_split split_point
  simp only
  generalize lower_bound (fun i => decide ((glyph_at gs i).x < key)) next pend = r at hr ⊢
  split_ifs <;> omega

/-- What `word_break` returns for a break position strictly inside the line:
either a forced break at the start of the run of glyphs sharing the source
range of the break position, or a break at whitespace with the next line
starting behind it. -/
theorem word_break_spec (gs : List glyph) (b aFrom aEnd : Nat) (h1 : b < aFrom) (h2 : aFrom < aEnd) :
    ((word_break gs b aFrom aEnd).1 = (word_break gs b aFrom aEnd).2 ∧
      b ≤ (word_break gs b aFrom aEnd).1 ∧ (word_break gs b aFrom aEnd).1 ≤ aFrom ∧
      (∀ i, (word_break gs b aFrom aEnd).1 < i → i ≤ aFrom →
        (glyph_at gs (i - 1)).source = (glyph_at gs aFrom).source)) ∨
    ((word_break gs b aFrom aEnd).1 < (word_break gs b aFrom aEnd).2 ∧
      (word_break gs b aFrom aEnd).2 ≤ aEnd ∧ b ≤ (word_break gs b aFrom aEnd).1 ∧
      ((glyph_at gs b).is_whitespace = false → b < (word_break gs b aFrom aEnd).1)) := by
  have skip : ∀ start, b ≤ start → start ≤ aFrom → (glyph_at gs start).is_whitespace = true →
      (scan_back (fun i => (glyph_at gs (i - 1)).is_whitespace) b start
        < scan_forward (fun i => (glyph_at gs i).is_whitespace) aEnd (aEnd - start) start ∧
      scan_forward (fun i => (glyph_at gs i).is_whitespace) aEnd (aEnd - start) start ≤ aEnd ∧
      b ≤ scan_back (fun i => (glyph_at gs (i - 1)).is_whitespace) b start ∧
      ((glyph_at gs b).is_whitespace = false →
        b < scan_back (fun i => (glyph_at gs (i - 1)).is_whitespace) b start)) := by
    intro start hs1 hs2 hws
    obtain ⟨f1, f2, f3⟩ := scan_forward_spec (fun i => (glyph_at gs i).is_whitespace) aEnd
      (aEnd - start) start (by omega)
    obtain ⟨k1, k2, k3, k4⟩ := scan_back_spec (fun i => (glyph_at gs (i - 1)).is_whitespace) b start hs1
    have f4 := f3 hws (by omega)
    refine ⟨by omega, f2, k1, ?_⟩
    intro hb
    by_contra hnot
    have hk : scan_back (fun i => (glyph_at gs (i - 1)).is_whitespace) b start = b := by omega
    by_cases hsb : start = b
    · subst hsb
      rw [hws] at hb
      exact Bool.noConfusion hb
    · have := k4 (b + 1) (by omega) (by omega)
      simp only [Nat.add_sub_cancel] at this
      rw [this] at hb
      exact Bool.noConfusion hb
  unfold word_break
  simp only
  by_cases hfrom : (glyph_at gs aFrom).is_whitespace = true
  · rw [if_neg (by simpa using hfrom)]
    exact Or.inr (skip aFrom (by omega) (le_refl _) hfrom)
  · rw [if_pos hfrom]
    obtain ⟨k1, k2, k3, k4⟩ := scan_back_spec (fun i => ! (glyph_at gs i).is_whitespace) b aFrom (by omega)
    by_cases hfirst : (glyph_at gs (scan_back (fun i => ! (glyph_at gs i).is_whitespace) b aFrom)).is_whitespace
        = true
    · rw [if_neg (by simpa using hfirst)]
      exact Or.inr (skip _ k1 k2 hfirst)
    · rw [if_pos hfirst]
      obtain ⟨c1, c2, c3, c4⟩ := scan_back_spec
        (fun i => decide ((glyph_at gs (i - 1)).source = (glyph_at gs aFrom).source)) b aFrom (by omega)
      refine Or.inl ⟨rfl, c1, c2, ?_⟩
      intro i hi1 hi2
      simpa using c4 i hi1 hi2

theorem trim_cr_spec (gs : List glyph) (b lineEnd : Nat) :
    trim_cr gs b lineEnd ≤ lineEnd ∧
    (b < lineEnd → (glyph_at gs b).is_whitespace = false → b < trim_cr gs b lineEnd) ∧
    (b ≤ lineEnd → b ≤ trim_cr gs b lineEnd) := by
  unfold trim_cr
  split
  · rename_i h
    refine ⟨by omega, ?_, fun _ => by omega⟩
    intro h1 h2
    by_contra h3
    have : lineEnd - 1 = b := by omega
    rw [this, h2] at h
    exact Bool.noConfusion h.2.1
  · exact ⟨le_refl _, fun h1 _ => h1, fun h1 => h1⟩

theorem wrap_break_spec (gs : List glyph) (b split pend : Nat) (h1 : b < split) (h2 : split ≤ pend) :
    b ≤ (wrap_break gs b pend split pend).1 ∧ (wrap_break gs b pend split pend).1 ≤ pend ∧
    b ≤ (wrap_break gs b pend split pend).2 ∧ (wrap_break gs b pend split pend).2 ≤ pend ∧
    ((glyph_at gs b).is_whitespace = false →
      (glyph_at gs b).source ≠ (glyph_at gs (b + 1)).source → b < (wrap_break gs b pend split pend).1) ∧
    ((glyph_at gs b).source ≠ (glyph_at gs (b + 1)).source ∨ b + 1 = pend →
      b < (wrap_break gs b pend split pend).2) := by
  unfold wrap_break
  by_cases hsp : split = pend
  · rw [if_neg (by simpa using hsp)]
    exact ⟨by omega, le_refl _, by omega, le_refl _, fun _ _ => by omega, fun _ => by omega⟩
  · rw [if_pos hsp]
    simp only
    rcases word_break_spec gs b split pend h1 (by omega) with ⟨w1, w2, w3, w4⟩ | ⟨w1, w2, w3, w4⟩
    · rw [if_pos w1]
      generalize word_break gs b split pend = wb at w1 w2 w3 w4 ⊢
      obtain ⟨c1, c2, c3, c4⟩ := scan_back_spec
        (fun i => decide ((glyph_at gs (i - 1)).source = (glyph_at gs wb.1).source)) b wb.1 w2
      generalize scan_back (fun i => decide ((glyph_at gs (i - 1)).source = (glyph_at gs wb.1).source))
        b wb.1 = c at c1 c2 c3 c4 ⊢
      have hsrc : (glyph_at gs b).source ≠ (glyph_at gs (b + 1)).source → b < c := by
        intro hne
        by_contra hnot
        have hcb : c = b := by omega
        -- every glyph from b up to split shares the source of the break position
        have hwb : (glyph_at gs wb.1).source = (glyph_at gs split).source := by
          by_cases hws : wb.1 = split
          · rw [hws]
          · have := w4 (wb.1 + 1) (by omega) (by omega)
            simpa using this
        have hall : ∀ i, b < i → i ≤ split → (glyph_at gs (i - 1)).source = (glyph_at gs split).source := by
          intro i hi1 hi2
          by_cases hi : i ≤ wb.1
          · have := c4 i (by omega) hi
            simp only [decide_eq_true_eq] at this
            rw [this, hwb]
          · exact w4 i (by omega) hi2
        have e1 := hall (b + 1) (by omega) (by omega)
        simp only [Nat.add_sub_cancel] at e1
        have e2 : (glyph_at gs (b + 1)).source = (glyph_at gs split).source := by
          by_cases hb2 : b + 1 = split
          · rw [hb2]
          · have := hall (b + 2) (by omega) (by omega)
            simpa using this
        exact hne (e1.trans e2.symm)
      refine ⟨c1, by omega, c1, by omega, fun _ hne => hsrc hne, ?_⟩
      intro h
      rcases h with h | h
      · exact hsrc h
      · omega
    · rw [if_neg (by omega)]
      exact ⟨w3, by omega, by omega, w2, fun hws _ => w4 hws, fun _ => by omega⟩

theorem wrap_step_spec (d : text_edit) (p : glyph_paragraph) (availableWidth : Int) (s : wrap_state)
    (hs1 : s.lineStart = s.next) (hs2 : s.next < p.end_index) (hs3 : s.lineEnd = p.end_index) :
    (d.wrap_step p availableWidth s).lineStart = (d.wrap_step p availableWidth s).next ∧
    (d.wrap_step p availableWidth s).lineEnd = p.end_index ∧
    s.next ≤ (d.wrap_step p availableWidth s).next ∧
    (d.wrap_step p availableWidth s).next ≤ p.end_index ∧
    (∃ l, (d.wrap_step p availableWidth s).lines = s.lines ++ [l] ∧ l.start = s.next ∧
      ((glyph_at d.iGlyphs s.next).is_whitespace = false →
        (glyph_at d.iGlyphs s.next).source ≠ (glyph_at d.iGlyphs (s.next + 1)).source →
        s.next < l.end_)) ∧
    ((glyph_at d.iGlyphs s.next).source ≠ (glyph_at d.iGlyphs (s.next + 1)).source ∨
        s.next + 1 = p.end_index → s.next < (d.wrap_step p availableWidth s).next) := by
  obtain ⟨r1, r2⟩ := wrap_split_range d.iGlyphs s.next p.end_index (s.offset + availableWidth) hs2
  obtain ⟨b1, b2, b3, b4, b5, b6⟩ := wrap_break_spec d.iGlyphs s.next
    (wrap_split d.iGlyphs s.next p.end_index (s.offset + availableWidth)) p.end_index r1 r2
  obtain ⟨t1, t2, t3⟩ := trim_cr_spec d.iGlyphs s.next
    (wrap_break d.iGlyphs s.next p.end_index
      (wrap_split d.iGlyphs s.next p.end_index (s.offset + availableWidth)) p.end_index).1
  unfold text_edit.wrap_step
  simp only [hs1, hs3]
  refine ⟨trivial, trivial, b3, b4, ⟨_, rfl, rfl, ?_⟩, b6⟩
  intro hws hsrc
  exact t2 (b5 hws hsrc) hws

theorem wrap_loop_lines (d : text_edit) (p : glyph_paragraph) (availableWidth : Int) :
    ∀ fuel s s', s.lineStart = s.next → s.lineEnd = p.end_index → s.next ≤ p.end_index →
      (∀ l ∈ s.lines, d.line_ok l) → d.wrap_loop p availableWidth fuel s = some s' →
      ∀ l ∈ s'.lines, d.line_ok l := by
  intro fuel
  induction fuel with
  | zero =>
    intro s s' _ _ _ hl hres
    unfold text_edit.wrap_loop at hres
    split at hres
    · exact Option.noConfusion hres
    · simp only [Option.some.injEq] at hres
      subst hres
      exact hl
  | succ n ih =>
    intro s s' hs1 hs3 hs2 hl hres
    unfold text_edit.wrap_loop at hres
    split at hres
    · rename_i hne
      obtain ⟨q1, q2, _, q4, ⟨l, q5, q6, q7⟩, _⟩ :=
        wrap_step_spec d p availableWidth s hs1 (by omega) hs3
      refine ih _ s' q1 q2 q4 ?_ hres
      intro l' hl'
      rw [q5] at hl'
      rcases List.mem_append.1 hl' with h1 | h1
      · exact hl l' h1
      · simp only [List.mem_singleton] at h1
        subst h1
        by_cases hws : (glyph_at d.iGlyphs s.next).is_whitespace = true
        · exact Or.inr (Or.inr (Or.inl (by rw [q6]; exact hws)))
        · by_cases hsrc : (glyph_at d.iGlyphs s.next).source = (glyph_at d.iGlyphs (s.next + 1)).source
          · exact Or.inr (Or.inr (Or.inr (by rw [q6]; exact hsrc)))
          · left
            rw [q6]
            exact q7 (by simpa using hws) hsrc
    · simp only [Option.some.injEq] at hres
      subst hres
      exact hl

theorem wrap_loop_terminates (d : text_edit) (p : glyph_paragraph) (availableWidth : Int)
    (hd : d.distinct_sources p) :
    ∀ fuel s, s.lineStart = s.next → s.lineEnd = p.end_index → s.next ≤ p.end_index →
      p.start_index ≤ s.next → p.end_index - s.next ≤ fuel →
      ∃ s', d.wrap_loop p availableWidth fuel s = some s' := by
  intro fuel
  induction fuel with
  | zero =>
    intro s _ _ h2 _ h4
    unfold text_edit.wrap_loop
    rw [if_neg (by simp only [ne_eq, not_not]; omega)]
    exact ⟨s, rfl⟩
  | succ n ih =>
    intro s hs1 hs3 hs2 hs4 hs5
    unfold text_edit.wrap_loop
    split
    · rename_i hne
      obtain ⟨q1, q2, q3, q4, _, q6⟩ := wrap_step_spec d p availableWidth s hs1 (by omega) hs3
      have hprog : s.next < (d.wrap_step p availableWidth s).next := by
        apply q6
        by_cases he : s.next + 1 = p.end_index
        · exact Or.inr he
        · exact Or.inl (hd s.next hs4 (by omega))
      exact ih _ q1 q2 q4 (by omega) (by omega)
    · exact ⟨s, rfl⟩

theorem refresh_lines_paragraph_lines (d : text_edit) (availableWidth : Int) (fuel : Nat)
    (p : glyph_paragraph) (hp : p ∈ d.iGlyphParagraphs) (hle : p.start_index ≤ p.end_index)
    (acc acc' : List glyph_line × Int × Int) (hacc : ∀ l ∈ acc.1, d.line_ok l)
    (hres : d.refresh_lines_paragraph availableWidth fuel p acc = some acc') :
    ∀ l ∈ acc'.1, d.line_ok l := by
  unfold text_edit.refresh_lines_paragraph at hres
  simp only at hres
  split at hres
  · simp only [Option.some.injEq] at hres
    subst hres
    intro l hl
    rcases List.mem_append.1 hl with h1 | h1
    · exact hacc l h1
    · simp only [List.mem_singleton] at h1
      subst h1
      by_cases he : p.start_index = p.end_index
      · exact Or.inr (Or.inl ⟨p, hp, he, rfl, rfl⟩)
      · exact Or.inl (by simp only; omega)
  · rename_i hne
    split at hres
    · split at hres
      · rename_i s hs
        simp only [Option.some.injEq] at hres
        subst hres
        exact wrap_loop_lines d p availableWidth fuel _ s rfl rfl hle hacc hs
      · exact Option.noConfusion hres
    · simp only [Option.some.injEq] at hres
      subst hres
      intro l hl
      rcases List.mem_append.1 hl with h1 | h1
      · exact hacc l h1
      · simp only [List.mem_singleton] at h1
        subst h1
        have : p.start_index ≠ p.end_index := fun h => hne (Or.inl h)
        exact Or.inl (by simp only; omega)

theorem refresh_lines_paragraph_terminates (d : text_edit) (availableWidth : Int) (fuel : Nat)
    (p : glyph_paragraph) (hle : p.start_index ≤ p.end_index)
    (hfuel : p.end_index - p.start_index ≤ fuel) (hd : d.distinct_sources p)
    (acc : List glyph_line × Int × Int) :
    ∃ acc', d.refresh_lines_paragraph availableWidth fuel p acc = some acc' := by
  unfold text_edit.refresh_lines_paragraph
  simp only
  split
  · exact ⟨_, rfl⟩
  · split
    · obtain ⟨s', hs'⟩ := wrap_loop_terminates d p availableWidth hd fuel
        { next := p.start_index, lineStart := p.start_index, lineEnd := p.end_index
          offset := 0, y := acc.2.1, lines := acc.1, cx := acc.2.2 } rfl rfl hle (le_refl _) hfuel
      rw [hs']
      exact ⟨_, rfl⟩
    · exact ⟨_, rfl⟩

theorem refresh_lines_loop_lines (d : text_edit) (availableWidth : Int) (fuel : Nat) :
    ∀ (ps : List glyph_paragraph) (acc acc' : List glyph_line × Int × Int),
      (∀ p ∈ ps, p ∈ d.iGlyphParagraphs ∧ p.start_index ≤ p.end_index) →
      (∀ l ∈ acc.1, d.line_ok l) →
      d.refresh_lines_loop availableWidth fuel ps acc = some acc' →
      ∀ l ∈ acc'.1, d.line_ok l := by
  intro ps
  induction ps with
  | nil =>
    intro acc acc' _ hacc hres
    simp only [text_edit.refresh_lines_loop, Option.some.injEq] at hres
    subst hres
    exact hacc
  | cons p ps ih =>
    intro acc acc' hps hacc hres
    unfold text_edit.refresh_lines_loop at hres
    split at hres
    · rename_i acc1 h1
      have hp := hps p (List.mem_cons_self _ _)
      exact ih acc1 acc' (fun q hq => hps q (List.mem_cons_of_mem _ hq))
        (refresh_lines_paragraph_lines d availableWidth fuel p hp.1 hp.2 acc acc1 hacc h1) hres
    · exact Option.noConfusion hres

theorem refresh_lines_loop_terminates (d : text_edit) (availableWidth : Int) (fuel : Nat) :
    ∀ (ps : List glyph_paragraph) (acc : List glyph_line × Int × Int),
      (∀ p ∈ ps, p.start_index ≤ p.end_index ∧ p.end_index - p.start_index ≤ fuel ∧
        d.distinct_sources p) →
      ∃ acc', d.refresh_lines_loop availableWidth fuel ps acc = some acc' := by
  intro ps
  induction ps with
  | nil => intro acc _; exact ⟨acc, rfl⟩
  | cons p ps ih =>
    intro acc hps
    obtain ⟨h1, h2, h3⟩ := hps p (List.mem_cons_self _ _)
    obtain ⟨acc1, e1⟩ := refresh_lines_paragraph_terminates d availableWidth fuel p h1 h2 h3 acc
    obtain ⟨acc2, e2⟩ := ih acc1 (fun q hq => hps q (List.mem_cons_of_mem _ hq))
    refine ⟨acc2, ?_⟩
    unfold text_edit.refresh_lines_loop
    rw [e1]
    exact e2

/-- C9 (amended): a paragraph without glyphs (only its line break) yields one
visual line with an empty glyph range; every other visual line produced by
`refresh_lines` whose first glyph is not whitespace and does not share its
source range with the glyph after it holds at least one glyph, for every
available width and word-wrap setting; and when no two adjacent glyphs of a
paragraph share a source range the layout is produced (enough fuel gives a
result). -/
theorem C9_visual_lines_hold_a_glyph (d : text_edit) (availableWidth : Int) (fuel : Nat)
    (hp : ∀ p ∈ d.iGlyphParagraphs, p.start_index ≤ p.end_index) :
    (∀ d', d.refresh_lines availableWidth fuel = some d' → ∀ l ∈ d'.iGlyphLines, d.line_ok l) ∧
    ((∀ p ∈ d.iGlyphParagraphs, p.end_index - p.start_index ≤ fuel ∧ d.distinct_sources p) →
      ∃ d', d.refresh_lines availableWidth fuel = some d') ∧
    (∀ p acc, p.start_index = p.end_index →
      ∃ l, l.start = l.end_ ∧ ∃ y cx,
        d.refresh_lines_paragraph availableWidth fuel p acc = some (acc.1 ++ [l], y, cx)) := by
  refine ⟨?_, ?_, ?_⟩
  · intro d' hres
    unfold text_edit.refresh_lines at hres
    split at hres
    · exact Option.noConfusion hres
    · rename_i r hr
      simp only [Option.some.injEq] at hres
      subst hres
      exact refresh_lines_loop_lines d availableWidth fuel d.iGlyphParagraphs _ r
        (fun p h => ⟨h, hp p h⟩) (by simp) hr
  · intro h
    obtain ⟨acc', e⟩ := refresh_lines_loop_terminates d availableWidth fuel d.iGlyphParagraphs ([], 0, 0)
      (fun p hq => ⟨hp p hq, (h p hq).1, (h p hq).2⟩)
    unfold text_edit.refresh_lines
    rw [e]
    exact ⟨_, rfl⟩
  · intro p acc he
    unfold text_edit.refresh_lines_paragraph
    simp only
    rw [if_pos (Or.inl he)]
    exact ⟨_, he, _, _, rfl⟩

/-- C9 (amended), instance: the layout of "ab cd" in width 30 is produced and all its lines pass. -/
theorem C9_visual_lines_hold_a_glyph_witness :
    ∃ d', (document_of "ab cd" 0).refresh_lines 30 5 = some d' ∧
      ∀ l ∈ d'.iGlyphLines, (document_of "ab cd" 0).line_ok l := by
  have w := C9_visual_lines_hold_a_glyph (document_of "ab cd" 0) 30 5 (by decide)
  have hps : (document_of "ab cd" 0).iGlyphParagraphs
      = [{ text_start_index := 0, text_end_index := 5, start_index := 0, end_index := 5 }] := by decide
  have hd : ∀ p ∈ (document_of "ab cd" 0).iGlyphParagraphs,
      p.end_index - p.start_index ≤ 5 ∧ (document_of "ab cd" 0).distinct_sources p := by
    intro p hp
    rw [hps] at hp
    simp only [List.mem_singleton] at hp
    subst hp
    refine ⟨by decide, ?_⟩
    intro i h1 h2
    change i + 1 < 5 at h2
    have h3 : i < 4 := by omega
    clear h1 h2
    interval_cases i <;> decide
  obtain ⟨d', e⟩ := w.2.1 hd
  exact ⟨d', e, w.1 d' e⟩

theorem document_adv_glyphs (a : Int) :
    (document_adv a "ab cd").iGlyphs.map (fun g => (g.is_whitespace, g.source, g.cx, g.x)) =
      [(false, (0, 1), a, 0), (false, (1, 2), a, 0 + a), (true, (2, 3), a, 0 + a + a),
        (false, (3, 4), a, 0 + a + a + a), (false, (4, 5), a, 0 + a + a + a + a)] := by
  rfl

/-! ## Scenario: "ab cd" in a width of three glyphs -/

theorem wrap_loop_done (d : text_edit) (p : glyph_paragraph) (availableWidth : Int) (fuel : Nat)
    (s : wrap_state) (h : s.next = p.end_index) : d.wrap_loop p availableWidth fuel s = some s := by
  cases fuel <;> simp [text_edit.wrap_loop, h]

theorem ab_cd_first_pass (a : Int) (ha : 0 < a) (y : Int) (lines : List glyph_line) (cx : Int) :
    (document_adv a "ab cd").wrap_step
        { text_start_index := 0, text_end_index := 5, start_index := 0, end_index := 5 } (3 * a)
        { next := 0, lineStart := 0, lineEnd := 5, offset := 0, y := y, lines := lines, cx := cx } =
      { next := 3, lineStart := 3, lineEnd := 5, offset := 3 * a
        y := y + (document_adv a "ab cd").paragraph_height
          { text_start_index := 0, text_end_index := 5, start_index := 0, end_index := 5 } 0 2
        lines := lines ++ [{ start := 0, end_ := 2, y := y
                             extents := (2 * a, (document_adv a "ab cd").paragraph_height
                               { text_start_index := 0, text_end_index := 5, start_index := 0, end_index := 5 }
                               0 2) }]
        cx := max cx (2 * a) } := by
  have hl : (document_adv a "ab cd").iGlyphs.length = 5 := rfl
  have hx1 : (glyph_at (document_adv a "ab cd").iGlyphs 1).x = 0 + a := rfl
  have hx2 : (glyph_at (document_adv a "ab cd").iGlyphs 2).x = 0 + a + a := rfl
  have hx3 : (glyph_at (document_adv a "ab cd").iGlyphs 3).x = 0 + a + a + a := rfl
  have hx4 : (glyph_at (document_adv a "ab cd").iGlyphs 4).x = 0 + a + a + a + a := rfl
  have hw1 : (glyph_at (document_adv a "ab cd").iGlyphs 1).is_whitespace = false := rfl
  have hw2 : (glyph_at (document_adv a "ab cd").iGlyphs 2).is_whitespace = true := rfl
  have hw3 : (glyph_at (document_adv a "ab cd").iGlyphs 3).is_whitespace = false := rfl
  have hsplit : wrap_split (document_adv a "ab cd").iGlyphs 0 5 (0 + 3 * a) = 2 := by
    simp (disch := omega) [wrap_split, split_point, lower_bound, lower_bound_go, hx1, hx2, hx3, hx4,
      decide_eq_true, decide_eq_false]
  have hbreak : wrap_break (document_adv a "ab cd").iGlyphs 0 5 2 5 = (2, 3) := by
    simp [wrap_break, word_break, scan_back, scan_forward, hw1, hw2, hw3]
  have htrim : trim_cr (document_adv a "ab cd").iGlyphs 0 2 = 2 := by
    simp [trim_cr, hw1]
  unfold text_edit.wrap_step
  simp only [hsplit, hbreak, htrim, hl, hx2, hx3]
  simp only [wrap_state.mk.injEq, glyph_line.mk.injEq, Prod.mk.injEq, List.append_cancel_left_eq,
    List.cons.injEq, and_true, true_and]
  have e1 : (0 : Int) + a + a - 0 = 2 * a := by ring
  have e2 : (0 : Int) + a + a + a = 3 * a := by ring
  have n1 : (3 : Nat) ≠ 5 := by decide
  have n2 : (2 : Nat) ≠ 5 := by decide
  simp only [n1, n2, ne_eq, not_false_eq_true, if_true, e1, e2, and_self]

theorem ab_cd_second_pass (a : Int) (ha : 0 < a) (y : Int) (lines : List glyph_line) (cx : Int) :
    (document_adv a "ab cd").wrap_step
        { text_start_index := 0, text_end_index := 5, start_index := 0, end_index := 5 } (3 * a)
        { next := 3, lineStart := 3, lineEnd := 5, offset := 3 * a, y := y, lines := lines, cx := cx } =
      { next := 5, lineStart := 5, lineEnd := 5, offset := 3 * a
        y := y + (document_adv a "ab cd").paragraph_height
          { text_start_index := 0, text_end_index := 5, start_index := 0, end_index := 5 } 3 5
        lines := lines ++ [{ start := 3, end_ := 5, y := y
                             extents := (2 * a, (document_adv a "ab cd").paragraph_height
                               { text_start_index := 0, text_end_index := 5, start_index := 0, end_index := 5 }
                               3 5) }]
        cx := max cx (2 * a) } := by
  have hl : (document_adv a "ab cd").iGlyphs.length = 5 := rfl
  have hx3 : (glyph_at (document_adv a "ab cd").iGlyphs 3).x = 0 + a + a + a := rfl
  have hx4 : (glyph_at (document_adv a "ab cd").iGlyphs 4).x = 0 + a + a + a + a := rfl
  have hc4 : (glyph_at (document_adv a "ab cd").iGlyphs 4).cx = a := rfl
  have hw4 : (glyph_at (document_adv a "ab cd").iGlyphs 4).is_whitespace = false := rfl
  have hsplit : wrap_split (document_adv a "ab cd").iGlyphs 3 5 (3 * a + 3 * a) = 5 := by
    simp (disch := omega) [wrap_split, split_point, lower_bound, lower_bound_go, hx3, hx4, hc4,
      decide_eq_true, decide_eq_false, if_pos, if_neg]
  have hbreak : wrap_break (document_adv a "ab cd").iGlyphs 3 5 5 5 = (5, 5) := by
    simp [wrap_break]
  have htrim : trim_cr (document_adv a "ab cd").iGlyphs 3 5 = 5 := by
    simp [trim_cr, hw4]
  unfold text_edit.wrap_step
  simp only [hsplit, hbreak, htrim, hl, hx4, hc4]
  simp only [wrap_state.mk.injEq, glyph_line.mk.injEq, Prod.mk.injEq, List.append_cancel_left_eq,
    List.cons.injEq, and_true, true_and]
  have e1 : (0 : Int) + a + a + a + a + a - 3 * a = 2 * a := by ring
  have n1 : (3 : Nat) ≠ 5 := by decide
  simp only [n1, ne_eq, not_true_eq_false, not_false_eq_true, if_true, if_false, e1, and_self]

theorem ab_cd_layout (a : Int) (ha : 0 < a) (n : Nat) :
    ∃ h1 h2 : Int,
      (document_adv a "ab cd").refresh_lines_loop (3 * a) (n + 2)
        (document_adv a "ab cd").iGlyphParagraphs ([], 0, 0) =
      some ([{ start := 0, end_ := 2, y := 0, extents := (2 * a, h1) },
             { start := 3, end_ := 5, y := 0 + h1, extents := (2 * a, h2) }],
            0 + h1 + h2, max (max 0 (2 * a)) (2 * a)) := by
  have hps : (document_adv a "ab cd").iGlyphParagraphs
      = [{ text_start_index := 0, text_end_index := 5, start_index := 0, end_index := 5 }] := rfl
  have hww : (document_adv a "ab cd").iWordWrap = true := rfl
  have hw0 : (glyph_at (document_adv a "ab cd").iGlyphs 0).is_whitespace = false := rfl
  have hloop := wrap_loop_done (document_adv a "ab cd")
    { text_start_index := 0, text_end_index := 5, start_index := 0, end_index := 5 } (3 * a) n
    { next := 5, lineStart := 5, lineEnd := 5, offset := 3 * a
      y := 0 + (document_adv a "ab cd").paragraph_height
          { text_start_index := 0, text_end_index := 5, start_index := 0, end_index := 5 } 0 2
        + (document_adv a "ab cd").paragraph_height
          { text_start_index := 0, text_end_index := 5, start_index := 0, end_index := 5 } 3 5
      lines := [] ++ [{ start := 0, end_ := 2, y := 0
                        extents := (2 * a, (document_adv a "ab cd").paragraph_height
                          { text_start_index := 0, text_end_index := 5, start_index := 0, end_index := 5 }
                          0 2) }]
        ++ [{ start := 3, end_ := 5
              y := 0 + (document_adv a "ab cd").paragraph_height
                { text_start_index := 0, text_end_index := 5, start_index := 0, end_index := 5 } 0 2
              extents := (2 * a, (document_adv a "ab cd").paragraph_height
                { text_start_index := 0, text_end_index := 5, start_index := 0, end_index := 5 } 3 5) }]
      cx := max (max 0 (2 * a)) (2 * a) } rfl
  refine ⟨(document_adv a "ab cd").paragraph_height
      { text_start_index := 0, text_end_index := 5, start_index := 0, end_index := 5 } 0 2,
    (document_adv a "ab cd").paragraph_height
      { text_start_index := 0, text_end_index := 5, start_index := 0, end_index := 5 } 3 5, ?_⟩
  rw [hps]
  unfold text_edit.refresh_lines_loop text_edit.refresh_lines_paragraph
  simp only
  rw [if_neg (by simp [hw0]), if_pos hww]
  rw [text_edit.wrap_loop, if_pos (by simp), ab_cd_first_pass a ha,
    text_edit.wrap_loop, if_pos (by simp), ab_cd_second_pass a ha, hloop]
  rfl

/-- C10 (amended): with word wrap on, "ab cd" with glyphs of one positive
advance `a` and available width `3 * a` is laid out as exactly two visual
lines; the first is the glyph range `[0, 2)`, the glyphs of "ab", with width
`2 * a`; the space glyph (glyph 2) is skipped and lies in neither line; the
second is the glyph range `[3, 5)`, the glyphs of "cd", with width `2 * a`. -/
theorem C10_ab_cd_two_visual_lines (a : Int) (ha : 0 < a) (fuel : Nat) (hfuel : 2 ≤ fuel) :
    (document_adv a "ab cd").text = "ab cd".toList ∧
    (document_adv a "ab cd").iWordWrap = true ∧
    (document_adv a "ab cd").iGlyphs.map (fun g => (g.source, g.cx, g.is_whitespace)) =
      [((0, 1), a, false), ((1, 2), a, false), ((2, 3), a, true), ((3, 4), a, false),
        ((4, 5), a, false)] ∧
    line_ranges ((document_adv a "ab cd").refresh_lines (3 * a) fuel) = some [(0, 2), (3, 5)] ∧
    line_widths ((document_adv a "ab cd").refresh_lines (3 * a) fuel) = some [2 * a, 2 * a] := by
  obtain ⟨n, rfl⟩ : ∃ n, fuel = n + 2 := ⟨fuel - 2, by omega⟩
  obtain ⟨h1, h2, e⟩ := ab_cd_layout a ha n
  refine ⟨rfl, rfl, rfl, ?_, ?_⟩
  · unfold text_edit.refresh_lines
    rw [e]
    rfl
  · unfold text_edit.refresh_lines
    rw [e]
    rfl

/-- C10 (amended), instance: advance 7, available width 21. -/
theorem C10_ab_cd_two_visual_lines_witness :
    line_ranges ((document_adv 7 "ab cd").refresh_lines (3 * 7) 2) = some [(0, 2), (3, 5)] ∧
    line_widths ((document_adv 7 "ab cd").refresh_lines (3 * 7) 2) = some [2 * 7, 2 * 7] :=
  ⟨(C10_ab_cd_two_visual_lines 7 (by decide) 2 (by decide)).2.2.2.1,
    (C10_ab_cd_two_visual_lines 7 (by decide) 2 (by decide)).2.2.2.2⟩

/-! ## The documents left by the editing operations have the assumed shape -/

theorem refresh_paragraph_cache_valid (h : host) (d : text_edit) : (d.refresh_paragraph h).cache_valid := by
  intro c hc
  simp [text_edit.refresh_paragraph] at hc

theorem insert_text_byte_layout (h : host) (hb : bytewise h.to_glyph_text) (d : text_edit)
    (aText : List Char) (aStyle : style) (aMoveCursor : Bool) :
    byte_layout (d.insert_text h aText aStyle aMoveCursor).1.iText.length
      (d.insert_text h aText aStyle aMoveCursor).1.iGlyphs
      (d.insert_text h aText aStyle aMoveCursor).1.iGlyphParagraphs := by
  have h1 := insert_text_glyphs h d aText aStyle aMoveCursor
  rw [h1.1, h1.2]
  exact refresh_paragraph_byte_layout h hb _

theorem insert_text_spanned_layout (h : host) (hs : spans_buffer h.to_glyph_text) (d : text_edit)
    (aText : List Char) (aStyle : style) (aMoveCursor : Bool) :
    spanned_layout (d.insert_text h aText aStyle aMoveCursor).1.iText.length
      (d.insert_text h aText aStyle aMoveCursor).1.iGlyphs
      (d.insert_text h aText aStyle aMoveCursor).1.iGlyphParagraphs := by
  have h1 := insert_text_glyphs h d aText aStyle aMoveCursor
  rw [h1.1, h1.2]
  exact refresh_paragraph_spanned_layout h hs _

theorem insert_text_cache_valid (h : host) (d : text_edit) (aText : List Char) (aStyle : style)
    (aMoveCursor : Bool) : (d.insert_text h aText aStyle aMoveCursor).1.cache_valid := by
  intro c hc
  unfold text_edit.insert_text at hc
  cases aMoveCursor <;> simp [text_edit.refresh_paragraph] at hc

theorem delete_text_byte_layout (h : host) (hb : bytewise h.to_glyph_text) (d : text_edit)
    (a b : Nat) (hab : a ≠ b) :
    byte_layout (d.delete_text h a b).iText.length (d.delete_text h a b).iGlyphs
      (d.delete_text h a b).iGlyphParagraphs := by
  unfold text_edit.delete_text
  rw [if_neg hab]
  exact refresh_paragraph_byte_layout h hb _

theorem delete_text_spanned_layout (h : host) (hs : spans_buffer h.to_glyph_text) (d : text_edit)
    (a b : Nat) (hab : a ≠ b) :
    spanned_layout (d.delete_text h a b).iText.length (d.delete_text h a b).iGlyphs
      (d.delete_text h a b).iGlyphParagraphs := by
  unfold text_edit.delete_text
  rw [if_neg hab]
  exact refresh_paragraph_spanned_layout h hs _

theorem delete_text_cache_valid (h : host) (d : text_edit) (a b : Nat) (hab : a ≠ b) :
    (d.delete_text h a b).cache_valid := by
  unfold text_edit.delete_text
  rw [if_neg hab]
  exact refresh_paragraph_cache_valid h _

/-! ## Round trip inside a single paragraph -/

theorem lower_bound_one (comp : Nat → Bool) :
    lower_bound comp 0 1 = if comp 0 then 1 else 0 := by
  simp [lower_bound, lower_bound_go]

theorem find_from_unique (p : Nat → Bool) (n t : Nat) (ht : t < n) (hp : p t = true)
    (hu : ∀ j, j < n → p j = true → j = t) : find_from p 0 n = some t := by
  cases hf : find_from p 0 n with
  | none =>
    have := find_from_none p n 0 hf t (Nat.zero_le _) (by omega)
    rw [hp] at this
    exact Bool.noConfusion this
  | some r =>
    obtain ⟨_, h2, h3, _⟩ := find_from_some p n 0 r hf
    rw [hu r (by omega) h3]

theorem byte_layout_single (d : text_edit)
    (hL : byte_layout d.iText.length d.iGlyphs d.iGlyphParagraphs)
    (h1 : d.iGlyphParagraphs.length = 1) (hn : 0 < d.iText.length) :
    (paragraph_at d.iGlyphParagraphs 0).text_start_index = 0 ∧
    (paragraph_at d.iGlyphParagraphs 0).start_index = 0 ∧
    (paragraph_at d.iGlyphParagraphs 0).text_end_index = d.iText.length ∧
    (paragraph_at d.iGlyphParagraphs 0).end_index ≤ d.iText.length ∧
    (∀ g, g < d.iText.length → (glyph_at d.iGlyphs g).source = (g, g + 1)) := by
  obtain ⟨q1, q2, q3, q4, q5⟩ := hL
  obtain ⟨P, hP⟩ := List.length_eq_one.1 h1
  have hp0 : paragraph_at d.iGlyphParagraphs 0 = P := by rw [hP]; rfl
  have hmem : ∀ P' ∈ d.iGlyphParagraphs, P' = P := by
    intro P' h
    rw [hP] at h
    simpa using h
  have f := q2 P (by rw [hP]; simp)
  obtain ⟨Pa, ha, ha1, _⟩ := q4 0 hn
  obtain ⟨Pb, hb, _, hb2⟩ := q4 (d.iText.length - 1) (by omega)
  rw [hmem Pa ha] at ha1
  rw [hmem Pb hb] at hb2
  rw [hp0]
  have hts : P.text_start_index = 0 := by omega
  refine ⟨hts, by omega, by omega, by omega, ?_⟩
  intro g hg
  have := q5 P (by rw [hP]; simp) g (by omega) (by omega)
  rw [this, hts]
  rfl

theorem to_glyph_single_cache (d : text_edit)
    (hL : byte_layout d.iText.length d.iGlyphs d.iGlyphParagraphs) (hc : d.cache_valid)
    (h1 : d.iGlyphParagraphs.length = 1) (t : Nat) (ht : t < d.iText.length) :
    d.to_glyph t =
      match find_from (fun i => decide (t ≥ (glyph_at d.iGlyphs i).source.1) &&
          decide (t < (glyph_at d.iGlyphs i).source.2))
          0 (paragraph_at d.iGlyphParagraphs 0).end_index with
      | some i => (i, some 0)
      | none =>
        if (paragraph_at d.iGlyphParagraphs 0).end_index ≠ d.iGlyphs.length
            ∧ (glyph_at d.iGlyphs (paragraph_at d.iGlyphParagraphs 0).end_index).is_whitespace
            ∧ (glyph_at d.iGlyphs (paragraph_at d.iGlyphParagraphs 0).end_index).value = 10
        then ((paragraph_at d.iGlyphParagraphs 0).end_index + 1, some 0)
        else ((paragraph_at d.iGlyphParagraphs 0).end_index, some 0) := by
  obtain ⟨s1, s2, s3, s4, s5⟩ := byte_layout_single d hL h1 (by omega)
  have hcache : (if (match d.iGlyphParagraphCache with
        | none => true
        | some c => decide (t < (paragraph_at d.iGlyphParagraphs c).text_start_index) ||
            decide (t ≥ (paragraph_at d.iGlyphParagraphs c).text_end_index)) = true
      then
        if (if lower_bound (fun i => decide ((paragraph_at d.iGlyphParagraphs i).text_start_index < t)) 0
                d.iGlyphParagraphs.length = d.iGlyphParagraphs.length ∧
              lower_bound (fun i => decide ((paragraph_at d.iGlyphParagraphs i).text_start_index < t)) 0
                d.iGlyphParagraphs.length ≠ 0 ∧
              t ≤ (paragraph_at d.iGlyphParagraphs
                (lower_bound (fun i => decide ((paragraph_at d.iGlyphParagraphs i).text_start_index < t)) 0
                  d.iGlyphParagraphs.length - 1)).text_end_index
            then lower_bound (fun i => decide ((paragraph_at d.iGlyphParagraphs i).text_start_index < t)) 0
                d.iGlyphParagraphs.length - 1
            else lower_bound (fun i => decide ((paragraph_at d.iGlyphParagraphs i).text_start_index < t)) 0
                d.iGlyphParagraphs.length) ≠ d.iGlyphParagraphs.length
        then some (if lower_bound (fun i => decide ((paragraph_at d.iGlyphParagraphs i).text_start_index < t)) 0
                d.iGlyphParagraphs.length = d.iGlyphParagraphs.length ∧
              lower_bound (fun i => decide ((paragraph_at d.iGlyphParagraphs i).text_start_index < t)) 0
                d.iGlyphParagraphs.length ≠ 0 ∧
              t ≤ (paragraph_at d.iGlyphParagraphs
                (lower_bound (fun i => decide ((paragraph_at d.iGlyphParagraphs i).text_start_index < t)) 0
                  d.iGlyphParagraphs.length - 1)).text_end_index
            then lower_bound (fun i => decide ((paragraph_at d.iGlyphParagraphs i).text_start_index < t)) 0
                d.iGlyphParagraphs.length - 1
            else lower_bound (fun i => decide ((paragraph_at d.iGlyphParagraphs i).text_start_index < t)) 0
                d.iGlyphParagraphs.length)
        else d.iGlyphParagraphCache
      else d.iGlyphParagraphCache) = some 0 := by
    rw [h1, lower_bound_one]
    simp only [s1]
    cases hcc : d.iGlyphParagraphCache with
    | none =>
      by_cases h0 : 0 < t
      · simp [h0, s3]; omega
      · have : t = 0 := by omega
        simp [this]
    | some c =>
      have hc0 : c = 0 := by have := hc c hcc; omega
      subst hc0
      simp [s1, s3, ht]
  unfold text_edit.to_glyph
  simp only
  rw [hcache]
  simp only [s2, Nat.sub_zero]

theorem find_from_eq_none (p : Nat → Bool) (n : Nat) (hp : ∀ j, j < n → p j = false) :
    find_from p 0 n = none := by
  cases hf : find_from p 0 n with
  | none => rfl
  | some r =>
    obtain ⟨_, h2, h3, _⟩ := find_from_some p n 0 r hf
    rw [hp r (by omega)] at h3
    exact Bool.noConfusion h3

/-- C1 (as stated): the round trip does not return a range containing `t` at
the offset of a line feed.  In the single-paragraph document "ab\n" (one glyph
per character) `to_glyph(2)` resolves to the glyph after the line-feed glyph,
here the end of the glyphs, and `from_glyph` returns `(3, 3)`. -/
theorem C1_round_trip_at_line_feed :
    (document_of "ab\n" 0).text = "ab\n".toList ∧
    (document_of "ab\n" 0).iGlyphParagraphs.length = 1 ∧
    (document_of "ab\n" 0).to_glyph 2 = (3, some 0) ∧
    (document_of "ab\n" 0).round_trip 2 = (3, 3) ∧
    ¬ (((document_of "ab\n" 0).round_trip 2).1 ≤ 2 ∧ 2 < ((document_of "ab\n" 0).round_trip 2).2) := by
  decide

/-- C1 (amended): in a document that consists of a single paragraph, rebuilt
with one glyph per byte, `from_glyph(to_glyph(t))` is `(t, t + 1)` for every
text offset `t` before the paragraph's line feed, whatever the paragraph cache
holds; at the offset of the line feed that ends the paragraph `to_glyph`
resolves to the glyph after the line-feed glyph and the round trip returns
`(len, len)`. -/
theorem C1_round_trip_in_single_paragraph (d : text_edit)
    (hL : byte_layout d.iText.length d.iGlyphs d.iGlyphParagraphs) (hc : d.cache_valid)
    (h1 : d.iGlyphParagraphs.length = 1) (t : Nat) :
    (t < (paragraph_at d.iGlyphParagraphs 0).end_index →
      d.round_trip t = (t, t + 1) ∧ (d.round_trip t).1 ≤ t ∧ t < (d.round_trip t).2) ∧
    (t = (paragraph_at d.iGlyphParagraphs 0).end_index → t < d.iGlyphs.length →
      (glyph_at d.iGlyphs t).is_whitespace = true → (glyph_at d.iGlyphs t).value = 10 →
      (d.to_glyph t).1 = t + 1 ∧ d.round_trip t = (d.iText.length, d.iText.length)) := by
  have hlen : d.iGlyphs.length = d.iText.length := hL.1
  have f := hL.2.1 (paragraph_at d.iGlyphParagraphs 0) (paragraph_at_mem _ 0 (by omega))
  constructor
  · intro ht
    obtain ⟨s1, s2, s3, s4, s5⟩ := byte_layout_single d hL h1 (by omega)
    have htn : t < d.iText.length := by omega
    have hto : d.to_glyph t = (t, some 0) := by
      rw [to_glyph_single_cache d hL hc h1 t htn]
      rw [find_from_unique _ _ t ht (by rw [s5 t htn]; simp)]
      intro j hj hp
      rw [s5 j (by omega)] at hp
      simp only [ge_iff_le, Bool.and_eq_true, decide_eq_true_eq] at hp
      omega
    have hrt : d.round_trip t = (t, t + 1) := by
      unfold text_edit.round_trip
      rw [hto]
      exact from_glyph_byte_layout { d with iGlyphParagraphCache := some 0 } hL
        (by
          intro c hcc
          change some 0 = some c at hcc
          simp only [Option.some.injEq] at hcc
          show c < d.iGlyphParagraphs.length
          omega) t (by show t < d.iGlyphs.length; omega)
    rw [hrt]
    exact ⟨rfl, le_refl _, Nat.lt_succ_self _⟩
  · intro ht htl hws hval
    obtain ⟨s1, s2, s3, s4, s5⟩ := byte_layout_single d hL h1 (by omega)
    have htn : t < d.iText.length := by omega
    have hto : d.to_glyph t = (t + 1, some 0) := by
      rw [to_glyph_single_cache d hL hc h1 t htn]
      rw [find_from_eq_none]
      · simp only
        rw [← ht, if_pos ⟨by omega, hws, hval⟩]
      · intro j hj
        rw [s5 j (by omega)]
        simp only [ge_iff_le, Bool.and_eq_false_imp, decide_eq_true_eq, decide_eq_false_iff_not]
        intro _
        omega
    refine ⟨by rw [hto], ?_⟩
    unfold text_edit.round_trip
    rw [hto]
    have hend : t + 1 = d.iGlyphs.length := by omega
    have hne : d.iGlyphs ≠ [] := by
      intro h0
      rw [h0] at htl
      simp at htl
    unfold text_edit.from_glyph
    simp only [hend, if_true, hne, if_false, h1, Nat.sub_self, s1, Nat.zero_add]
    have hlast : d.iGlyphs.length - 1 = t := by omega
    rw [hlast, s5 t htn]
    simp only [Prod.mk.injEq, and_self]
    omega

/-- C1 (amended), instances: offset 1 of "ab\n" and the line feed at offset 2. -/
theorem C1_round_trip_in_single_paragraph_witness :
    (document_of "ab\n" 0).round_trip 1 = (1, 2) ∧
    ((document_of "ab\n" 0).to_glyph 2).1 = 3 ∧
    (document_of "ab\n" 0).round_trip 2 = (3, 3) := by
  have w1 := (C1_round_trip_in_single_paragraph (document_of "ab\n" 0)
    (document_of_byte_layout "ab\n" 0) (document_of_cache_valid "ab\n" 0) (by decide) 1).1 (by decide)
  have w2 := (C1_round_trip_in_single_paragraph (document_of "ab\n" 0)
    (document_of_byte_layout "ab\n" 0) (document_of_cache_valid "ab\n" 0) (by decide) 2).2
    (by decide) (by decide) (by decide) (by decide)
  exact ⟨w1.1, w2.1, w2.2.trans (by decide)⟩

/-! ## Style registry and default style (C13, C14) -/

theorem style_lt_irrefl (a : style) : a.lt a = false := by
  rcases a with ⟨f, t, b, o⟩
  cases f <;> cases t <;> cases b <;> simp [style.lt, option_lt]

theorem style_list_insert_equivalent (l : List style) (a : style) :
    (style_list_insert l a).2.equivalent a := by
  induction l with
  | nil => exact ⟨style_lt_irrefl a, style_lt_irrefl a⟩
  | cons e es ih =>
    unfold style_list_insert
    by_cases h1 : a.lt e = true
    · rw [if_pos h1]; exact ⟨style_lt_irrefl a, style_lt_irrefl a⟩
    · rw [if_neg h1]
      by_cases h2 : e.lt a = true
      · rw [if_pos h2]; exact ih
      · rw [if_neg h2]
        exact ⟨by simpa using h2, by simpa using h1⟩

theorem style_equivalent_fields (a b : style) (h : a.equivalent b) :
    a.iFont.map font.id = b.iFont.map font.id ∧ a.iTextColour = b.iTextColour ∧
      a.iBackgroundColour = b.iBackgroundColour := by
  rcases a with ⟨f, t, b1, o⟩
  rcases b with ⟨f2, t2, b2, o2⟩
  rcases h with ⟨h1, h2⟩
  cases f <;> cases f2 <;> cases t <;> cases t2 <;> cases b1 <;> cases b2 <;>
    simp [style.lt, option_lt] at h1 h2 ⊢ <;> omega

/-- C13 (the code departs from the claim): two styles that differ only in their
outline colour are given to `insert_text` one after the other; the registry
then holds a single entry, and the text inserted with the second style carries
the first one, outline colour included. -/
theorem C13_outline_colour_shares_registry_entry :
    outlined_style none ≠ outlined_style (some 7) ∧
    (((((empty_document type_e.MultiLine).insert_text (plain_host 10) "a".toList
        (outlined_style none) true).1).insert_text (plain_host 10) "b".toList
        (outlined_style (some 7)) true).1).iStyles = [outlined_style none] ∧
    (((((empty_document type_e.MultiLine).insert_text (plain_host 10) "a".toList
        (outlined_style none) true).1).insert_text (plain_host 10) "b".toList
        (outlined_style (some 7)) true).1).iText
      = [('a', outlined_style none), ('b', outlined_style none)] := by
  decide

/-- C14 (counterexample): in the document "ac", whose two characters carry a
style with text colour 1, a "b" inserted between them without an explicit style
is tagged with the default style of the document, not with the style of the
text around the insertion point. -/
theorem C14_insert_without_style_uses_default :
    styled_document.iText = [('a', outlined_style none), ('c', outlined_style none)] ∧
    styled_document.insertionPoint = 1 ∧
    styled_document.iDefaultStyle = plain_style ∧
    (styled_document.insert_text_default (layout_host 10 100) "b".toList true).1.iText
      = [('a', outlined_style none), ('b', plain_style), ('c', outlined_style none)] := by
  decide

/-- C14 (amended): `insert_text` without an explicit style tags the inserted
bytes with the registry entry found for the default style of the document, an
entry that agrees with the default style in font, text colour and background
colour; the text before the insertion point and the text after it keep their
bytes and tags. -/
theorem C14_insert_without_style_tags_default (h : host) (d : text_edit) (aText : List Char)
    (aMoveCursor : Bool) :
    (d.insert_text_default h aText aMoveCursor).1.iText
      = d.iText.take d.insertionPoint
        ++ ((aText.filter (fun ch => ch ≠ '\r')).take (d.insert_text_default h aText aMoveCursor).2).map
            (fun ch => (ch, (style_list_insert d.iStyles d.iDefaultStyle).2))
        ++ d.iText.drop d.insertionPoint ∧
    (style_list_insert d.iStyles d.iDefaultStyle).2.equivalent d.iDefaultStyle ∧
    (style_list_insert d.iStyles d.iDefaultStyle).2.iFont.map font.id = d.iDefaultStyle.iFont.map font.id ∧
    (style_list_insert d.iStyles d.iDefaultStyle).2.iTextColour = d.iDefaultStyle.iTextColour ∧
    (style_list_insert d.iStyles d.iDefaultStyle).2.iBackgroundColour
      = d.iDefaultStyle.iBackgroundColour := by
  refine ⟨?_, style_list_insert_equivalent _ _, style_equivalent_fields _ _ (style_list_insert_equivalent _ _)⟩
  unfold text_edit.insert_text_default text_edit.insert_text
  by_cases hm : aMoveCursor = true
  · simp only [hm, if_true]
    rfl
  · simp only [hm]
    rfl

/-! ## Wrapping at the available width and the trailing line break (C19, C20) -/

theorem split_point_all_fit (gs : List glyph) (next pend : Nat) (key : Int) (h : next ≤ pend)
    (hx : ∀ i, next ≤ i → i < pend → (glyph_at gs i).x < key) :
    split_point gs next pend key = pend := by
  have hr := lower_bound_range (fun i => decide ((glyph_at gs i).x < key)) next pend h
  have hs := lower_bound_spec (fun i => decide ((glyph_at gs i).x < key)) next pend h
    (fun i j h1 h2 h3 _ => by simpa using hx i h1 (by omega))
  unfold split_point
  by_contra hne
  have h1 := hs.2 (by omega)
  have h2 := hx _ hr.1 (by omega)
  simp only [decide_eq_false_iff_not] at h1
  exact h1 h2

theorem wrap_step_all_fit (d : text_edit) (p : glyph_paragraph) (availableWidth : Int)
    (s : wrap_state) (h1 : s.next < p.end_index) (h2 : s.lineStart = s.next)
    (h3 : s.lineEnd = p.end_index)
    (hx : ∀ i, s.next ≤ i → i < p.end_index → (glyph_at d.iGlyphs i).x < s.offset + availableWidth)
    (hfit : (glyph_at d.iGlyphs (p.end_index - 1)).x + (glyph_at d.iGlyphs (p.end_index - 1)).cx
      < s.offset + availableWidth)
    (hcr : ¬ ((glyph_at d.iGlyphs (p.end_index - 1)).is_whitespace = true
      ∧ (glyph_at d.iGlyphs (p.end_index - 1)).value = 13)) :
    (d.wrap_step p availableWidth s).next = p.end_index ∧
    ∃ l, (d.wrap_step p availableWidth s).lines = s.lines ++ [l] ∧ l.start = s.next ∧
      l.end_ = p.end_index := by
  have hsp := split_point_all_fit d.iGlyphs s.next p.end_index (s.offset + availableWidth)
    (by omega) hx
  have hws : wrap_split d.iGlyphs s.next p.end_index (s.offset + availableWidth) = p.end_index := by
    unfold wrap_split
    simp only [hsp]
    have hc : ¬ (p.end_index ≠ s.next ∧ (p.end_index ≠ p.end_index ∨
        (glyph_at d.iGlyphs (p.end_index - 1)).x + (glyph_at d.iGlyphs (p.end_index - 1)).cx
          ≥ s.offset + availableWidth)) := by
      rintro ⟨_, h | h⟩
      · exact h rfl
      · omega
    rw [if_neg hc, if_neg (by omega)]
  have hwb : wrap_break d.iGlyphs s.lineStart s.lineEnd p.end_index p.end_index
      = (p.end_index, p.end_index) := by
    unfold wrap_break
    rw [if_neg (by simp), h3]
  have htr : trim_cr d.iGlyphs s.lineStart p.end_index = p.end_index := by
    unfold trim_cr
    rw [if_neg (fun h => hcr ⟨h.2.1, h.2.2⟩)]
  unfold text_edit.wrap_step
  simp only [hws, hwb, htr]
  exact ⟨trivial, _, rfl, h2, rfl⟩

theorem wrap_loop_height (d : text_edit) (p : glyph_paragraph) (availableWidth : Int) :
    ∀ fuel s s', s.y = lines_height s.lines → d.wrap_loop p availableWidth fuel s = some s' →
      s'.y = lines_height s'.lines := by
  have hstep : ∀ s : wrap_state, s.y = lines_height s.lines →
      (d.wrap_step p availableWidth s).y = lines_height (d.wrap_step p availableWidth s).lines := by
    intro s hs
    unfold text_edit.wrap_step
    simp only [lines_height, List.map_append, List.sum_append, List.map_cons, List.map_nil,
      List.sum_cons, List.sum_nil, add_zero]
    rw [hs]
    rfl
  intro fuel
  induction fuel with
  | zero =>
    intro s s' hs hres
    unfold text_edit.wrap_loop at hres
    split at hres
    · exact Option.noConfusion hres
    · simp only [Option.some.injEq] at hres
      subst hres
      exact hs
  | succ n ih =>
    intro s s' hs hres
    unfold text_edit.wrap_loop at hres
    split at hres
    · exact ih _ _ (hstep s hs) hres
    · simp only [Option.some.injEq] at hres
      subst hres
      exact hs

theorem refresh_lines_paragraph_height (d : text_edit) (availableWidth : Int) (fuel : Nat)
    (p : glyph_paragraph) (acc acc' : List glyph_line × Int × Int)
    (hacc : acc.2.1 = lines_height acc.1)
    (hres : d.refresh_lines_paragraph availableWidth fuel p acc = some acc') :
    acc'.2.1 = lines_height acc'.1 := by
  unfold text_edit.refresh_lines_paragraph at hres
  simp only at hres
  split at hres
  · simp only [Option.some.injEq] at hres
    subst hres
    simp only [lines_height, List.map_append, List.sum_append, List.map_cons, List.map_nil,
      List.sum_cons, List.sum_nil, add_zero]
    rw [hacc]
    rfl
  · split at hres
    · split at hres
      · rename_i s hs
        simp only [Option.some.injEq] at hres
        subst hres
        exact wrap_loop_height d p availableWidth fuel _ s hacc hs
      · exact Option.noConfusion hres
    · simp only [Option.some.injEq] at hres
      subst hres
      simp only [lines_height, List.map_append, List.sum_append, List.map_cons, List.map_nil,
        List.sum_cons, List.sum_nil, add_zero]
      rw [hacc]
      rfl

theorem refresh_lines_loop_height (d : text_edit) (availableWidth : Int) (fuel : Nat) :
    ∀ (ps : List glyph_paragraph) (acc acc' : List glyph_line × Int × Int),
      acc.2.1 = lines_height acc.1 →
      d.refresh_lines_loop availableWidth fuel ps acc = some acc' →
      acc'.2.1 = lines_height acc'.1 := by
  intro ps
  induction ps with
  | nil =>
    intro acc acc' hacc hres
    simp only [text_edit.refresh_lines_loop, Option.some.injEq] at hres
    subst hres
    exact hacc
  | cons p ps ih =>
    intro acc acc' hacc hres
    unfold text_edit.refresh_lines_loop at hres
    split at hres
    · rename_i acc1 h1
      exact ih acc1 acc' (refresh_lines_paragraph_height d availableWidth fuel p acc acc1 hacc h1) hres
    · exact Option.noConfusion hres

/-- C19 (counterexample): the five glyphs of "ab cd", each 10 wide, end at
x = 50; laid out with word wrap in an available width of 50 the paragraph is
broken into two visual lines although the trailing edge of its last glyph does
not exceed the width. -/
theorem C19_exact_fit_is_broken :
    (document_adv 10 "ab cd").iWordWrap = true ∧
    (glyph_at (document_adv 10 "ab cd").iGlyphs 4).x + (glyph_at (document_adv 10 "ab cd").iGlyphs 4).cx
      = 50 ∧
    line_ranges ((document_adv 10 "ab cd").refresh_lines 50 5) = some [(0, 2), (3, 5)] := by
  decide

/-- C19 (amended): in wrapping mode a paragraph with at least one glyph whose
last glyph's trailing edge is less than the available width is laid out as a
single visual line holding all its glyphs (glyph x positions do not decrease
towards the last glyph, whose advance is not negative and which is not a
carriage return); the layout of the paragraph takes one pass of the wrapping
loop. -/
theorem C19_fitting_paragraph_is_one_line (d : text_edit) (p : glyph_paragraph)
    (availableWidth : Int) (fuel : Nat) (acc : List glyph_line × Int × Int)
    (hw : d.iWordWrap = true) (hne : p.start_index < p.end_index)
    (hmono : ∀ i, p.start_index ≤ i → i < p.end_index →
      (glyph_at d.iGlyphs i).x ≤ (glyph_at d.iGlyphs (p.end_index - 1)).x)
    (hadv : 0 ≤ (glyph_at d.iGlyphs (p.end_index - 1)).cx)
    (hfit : (glyph_at d.iGlyphs (p.end_index - 1)).x + (glyph_at d.iGlyphs (p.end_index - 1)).cx
      < availableWidth)
    (hcr : ¬ ((glyph_at d.iGlyphs (p.end_index - 1)).is_whitespace = true
      ∧ (glyph_at d.iGlyphs (p.end_index - 1)).value = 13)) :
    ∃ l y cx, d.refresh_lines_paragraph availableWidth (fuel + 1) p acc = some (acc.1 ++ [l], y, cx) ∧
      l.start = p.start_index ∧ l.end_ = p.end_index := by
  unfold text_edit.refresh_lines_paragraph
  simp only
  split
  · exact ⟨_, _, _, rfl, rfl, rfl⟩
  · obtain ⟨e1, l, e2, e3, e4⟩ := wrap_step_all_fit d p availableWidth
      { next := p.start_index, lineStart := p.start_index, lineEnd := p.end_index
        offset := 0, y := acc.2.1, lines := acc.1, cx := acc.2.2 }
      hne rfl rfl
      (fun i h1 h2 => by
        have := hmono i h1 h2
        show (glyph_at d.iGlyphs i).x < 0 + availableWidth
        omega)
      (by show _ < 0 + availableWidth; omega) hcr
    unfold text_edit.wrap_loop
    rw [if_pos (by show p.start_index ≠ p.end_index; omega)]
    rw [wrap_loop_done d p availableWidth fuel _ e1]
    simp only
    exact ⟨l, _, _, by rw [e2], e3, e4⟩

/-- C19 (amended), instance: "ab cd" with glyphs 10 wide fits a width of 51
and is laid out as the single line of glyphs 0 to 5. -/
theorem C19_fitting_paragraph_is_one_line_witness :
    ∃ l y cx, (document_adv 10 "ab cd").refresh_lines_paragraph 51 1
        { text_start_index := 0, text_end_index := 5, start_index := 0, end_index := 5 } ([], 0, 0)
          = some ([] ++ [l], y, cx) ∧ l.start = 0 ∧ l.end_ = 5 :=
  C19_fitting_paragraph_is_one_line (document_adv 10 "ab cd")
    { text_start_index := 0, text_end_index := 5, start_index := 0, end_index := 5 } 51 0 ([], 0, 0)
    (by decide) (by decide)
    (by
      intro i _ h2
      change i < 5 at h2
      interval_cases i <;> decide)
    (by decide) (by decide) (by decide)

/-- C20 (counterexample): the document "ab" followed by a line feed has three
glyphs, the last one the line break; its laid-out line list is the single
line of glyphs 0 to 2, which is not empty, and the height of one extra line
(16) shows only in the text extents. -/
theorem C20_no_line_for_trailing_line_feed :
    (document_adv 10 "ab\n").iGlyphs.length = 3 ∧
    (glyph_at (document_adv 10 "ab\n").iGlyphs 2).is_whitespace = true ∧
    (glyph_at (document_adv 10 "ab\n").iGlyphs 2).value = 10 ∧
    line_ranges ((document_adv 10 "ab\n").refresh_lines 100 3) = some [(0, 2)] ∧
    ((document_adv 10 "ab\n").refresh_lines 100 3).map (fun d => d.iTextExtents.2) = some 32 := by
  decide

/-- C20 (amended): when the last glyph of a non-empty document is an explicit
line break, `refresh_lines` appends no line for it: the line list is the one
built from the paragraphs, and the total text height is the sum of the heights
of these lines plus the height of the default font; with enough passes for
every paragraph the layout is produced. -/
theorem C20_trailing_line_feed_adds_height_only (d : text_edit) (availableWidth : Int) (fuel : Nat)
    (hlast : d.iGlyphs ≠ [] ∧ (glyph_at d.iGlyphs (d.iGlyphs.length - 1)).is_whitespace = true
      ∧ (glyph_at d.iGlyphs (d.iGlyphs.length - 1)).value = 10) :
    (d.refresh_lines availableWidth fuel).map (fun d' => d'.iGlyphLines)
      = (d.refresh_lines_loop availableWidth fuel d.iGlyphParagraphs ([], 0, 0)).map (fun r => r.1) ∧
    (d.refresh_lines availableWidth fuel).map (fun d' => d'.iTextExtents.2)
      = (d.refresh_lines availableWidth fuel).map
          (fun d' => lines_height d'.iGlyphLines + d.font.height) ∧
    ((∀ p ∈ d.iGlyphParagraphs, p.start_index ≤ p.end_index ∧ p.end_index - p.start_index ≤ fuel ∧
        d.distinct_sources p) → (d.refresh_lines availableWidth fuel).isSome = true) := by
  refine ⟨?_, ?_, ?_⟩
  · unfold text_edit.refresh_lines
    split <;> rename_i h <;> rw [h] <;> rfl
  · unfold text_edit.refresh_lines
    split
    · rfl
    · rename_i r hr
      have hy := refresh_lines_loop_height d availableWidth fuel d.iGlyphParagraphs ([], 0, 0) r rfl hr
      simp only [Option.map_some', Option.some.injEq]
      rw [if_pos hlast, hy]
  · intro h
    obtain ⟨acc', e⟩ := refresh_lines_loop_terminates d availableWidth fuel d.iGlyphParagraphs
      ([], 0, 0) h
    unfold text_edit.refresh_lines
    rw [e]
    rfl

/-- C20 (amended), instance: for "ab" followed by a line feed the line list is
that of the one paragraph and the text height exceeds the line heights by the
default font height. -/
theorem C20_trailing_line_feed_adds_height_only_witness :
    ((document_adv 10 "ab\n").refresh_lines 100 3).map (fun d' => d'.iGlyphLines)
      = ((document_adv 10 "ab\n").refresh_lines_loop 100 3
          (document_adv 10 "ab\n").iGlyphParagraphs ([], 0, 0)).map (fun r => r.1) ∧
    ((document_adv 10 "ab\n").refresh_lines 100 3).map (fun d' => d'.iTextExtents.2)
      = ((document_adv 10 "ab\n").refresh_lines 100 3).map
          (fun d' => lines_height d'.iGlyphLines + (document_adv 10 "ab\n").font.height) :=
  ⟨(C20_trailing_line_feed_adds_height_only (document_adv 10 "ab\n") 100 3 (by decide)).1,
   (C20_trailing_line_feed_adds_height_only (document_adv 10 "ab\n") 100 3 (by decide)).2.1⟩

/-! ## Paragraphs partition the text (C12) -/

/-- Invariant rule for the first loop of `refresh_paragraph` that also hands
out what the loop has seen since the last flush: no line feed between the
paragraph start and the current character. -/
theorem refresh_paragraph_loop_scan_inv (h : host) (d : text_edit)
    (Q : Nat → List glyph → List glyph_paragraph → Prop)
    (hstep : ∀ paragraphStart ch gs ps c, paragraphStart ≤ ch → ch < d.text.length →
      d.text[ch]? = some c → (c = '\n' ∨ ch + 1 = d.text.length) →
      (∀ i, paragraphStart ≤ i → i < ch → d.text[i]? ≠ some '\n') → Q paragraphStart gs ps →
      Q (ch + 1)
        (gs ++ h.to_glyph_text ((d.text.drop paragraphStart).take (ch + 1 - paragraphStart)) (d.fs paragraphStart))
        (ps ++ [{ text_start_index := paragraphStart, text_end_index := ch + 1, start_index := gs.length,
                  end_index := size_sub
                    (gs ++ h.to_glyph_text ((d.text.drop paragraphStart).take (ch + 1 - paragraphStart))
                      (d.fs paragraphStart)).length (if c = '\n' then 1 else 0) }])) :
    ∀ rest ch paragraphStart gs ps, d.text.drop ch = rest → ch ≤ d.text.length → paragraphStart ≤ ch →
      (rest = [] → paragraphStart = ch) →
      (∀ i, paragraphStart ≤ i → i < ch → d.text[i]? ≠ some '\n') → Q paragraphStart gs ps →
      Q d.text.length (d.refresh_paragraph_loop h rest ch paragraphStart gs ps).1
        (d.refresh_paragraph_loop h rest ch paragraphStart gs ps).2 := by
  intro rest
  induction rest with
  | nil =>
    intro ch paragraphStart gs ps hd hch hp he _ hQ
    have hlen : d.text.length ≤ ch := by
      have := congrArg List.length hd
      simp at this
      omega
    have : ch = d.text.length := by omega
    have h2 := he rfl
    subst h2
    unfold text_edit.refresh_paragraph_loop
    rw [this] at hQ
    exact hQ
  | cons c rest ih =>
    intro ch paragraphStart gs ps hd hch hp he hscan hQ
    have hlt : ch < d.text.length := by
      have := congrArg List.length hd
      simp at this
      omega
    have hc : d.text[ch]? = some c := by
      have := congrArg (fun l => l[0]?) hd
      simpa using this
    have hrest : d.text.drop (ch + 1) = rest := by
      have := congrArg (List.drop 1) hd
      simpa [List.drop_drop, Nat.add_comm] using this
    unfold text_edit.refresh_paragraph_loop
    by_cases hflush : c = '\n' ∨ rest = []
    · simp only [hflush, if_true]
      have hcond : c = '\n' ∨ ch + 1 = d.text.length := by
        rcases hflush with h1 | h1
        · exact Or.inl h1
        · right
          have := congrArg List.length hrest
          simp [h1] at this
          omega
      exact ih (ch + 1) (ch + 1) _ _ hrest (by omega) (le_refl _) (fun _ => rfl)
        (fun i h1 h2 => by omega)
        (hstep paragraphStart ch gs ps c hp hlt hc hcond hscan hQ)
    · simp only [hflush, if_false]
      refine ih (ch + 1) paragraphStart gs ps hrest (by omega) (by omega) ?_ ?_ hQ
      · intro hr
        exact absurd (Or.inr hr) hflush
      · intro i h1 h2
        by_cases hi : i = ch
        · subst hi
          rw [hc]
          intro hcn
          exact hflush (Or.inl (Option.some.inj hcn))
        · exact hscan i h1 (by omega)

theorem count_take_no_line_feed (text : List Char) (a : Nat) :
    ∀ k, (∀ i, a ≤ i → i < a + k → text[i]? ≠ some '\n') →
      (text.take (a + k)).count '\n' = (text.take a).count '\n' := by
  intro k
  induction k with
  | zero => intro _; rfl
  | succ k ih =>
    intro hk
    have h1 := ih (fun i h1 h2 => hk i h1 (by omega))
    have h2 := hk (a + k) (by omega) (by omega)
    rw [← Nat.add_assoc, List.take_succ, List.count_append, h1]
    cases hg : text[a + k]? with
    | none => simp
    | some c =>
      rw [hg] at h2
      have : c ≠ '\n' := fun hc => h2 (by rw [hc])
      simp [List.count_cons, this]

theorem refresh_paragraph_loop_partition (h : host) (d : text_edit) :
    paragraph_partition d.text d.text.length (d.refresh_paragraph_loop h d.text 0 0 [] []).2 := by
  refine refresh_paragraph_loop_scan_inv h d (fun n _ ps => paragraph_partition d.text n ps) ?_
    d.text 0 0 [] [] rfl (Nat.zero_le _) (le_refl _) (fun _ => rfl) (fun i h1 h2 => by omega) ?_
  · intro paragraphStart ch gs ps c hp hlt hc hcond hscan hQ
    obtain ⟨q1, q2, q3, q4, q5, q8, q6, q7⟩ := hQ
    have hind : ¬ (0 < paragraphStart ∧ d.text[paragraphStart - 1]? ≠ some '\n') := by
      intro hh
      have := q7 hh
      omega
    rw [if_neg hind] at q6
    refine ⟨?_, ?_, ?_, ?_, ?_, ?_, ?_, ?_⟩
    · intro P hP
      cases ps with
      | nil =>
        simp only [List.nil_append, List.head?_cons, Option.mem_def, Option.some.injEq] at hP
        subst hP
        exact q4 rfl
      | cons e es =>
        exact q1 P (by simpa using hP)
    · rw [List.chain'_append]
      refine ⟨q2, List.chain'_singleton _, ?_⟩
      intro x hx y hy
      simp only [List.head?_cons, Option.mem_def, Option.some.injEq] at hy
      subst hy
      exact q3 x hx
    · intro P hP
      rw [Option.mem_def, List.getLast?_concat, Option.some.injEq] at hP
      subst hP
      rfl
    · intro he
      simp at he
    · intro P hP
      rcases List.mem_append.1 hP with hP | hP
      · exact ⟨(q5 P hP).1, by have := (q5 P hP).2.1; omega, (q5 P hP).2.2.1, (q5 P hP).2.2.2⟩
      · simp only [List.mem_singleton] at hP
        subst hP
        refine ⟨by show paragraphStart < ch + 1; omega, le_refl _, ?_,
          fun i h1 h2 => hscan i h1 (by change i + 1 < ch + 1 at h2; omega)⟩
        show d.text[ch + 1 - 1]? = some '\n' ∨ ch + 1 = d.text.length
        rw [Nat.add_sub_cancel, hc]
        rcases hcond with h1 | h1
        · exact Or.inl (by rw [h1])
        · exact Or.inr h1
    · rw [List.pairwise_append]
      refine ⟨q8, List.pairwise_singleton _ _, ?_⟩
      intro a ha b hb
      simp only [List.mem_singleton] at hb
      subst hb
      exact (q5 a ha).2.1
    · have hcount : (d.text.take (ch + 1)).count '\n'
          = (d.text.take paragraphStart).count '\n' + (if c = '\n' then 1 else 0) := by
        have e1 := count_take_no_line_feed d.text paragraphStart (ch - paragraphStart)
          (fun i h1 h2 => hscan i h1 (by omega))
        have e2 : paragraphStart + (ch - paragraphStart) = ch := by omega
        rw [e2] at e1
        rw [List.take_succ, List.count_append, e1, hc]
        by_cases hcn : c = '\n'
        · simp [hcn]
        · simp [List.count_cons, hcn]
      rw [List.length_append, List.length_singleton, q6, hcount]
      have e3 : ch + 1 - 1 = ch := by omega
      rw [e3, hc]
      by_cases hcn : c = '\n'
      · simp [hcn]
      · simp [hcn]
    · intro hh
      have e3 : ch + 1 - 1 = ch := by omega
      rw [e3, hc] at hh
      rcases hcond with h1 | h1
      · exact absurd (by rw [h1]) hh.2
      · exact h1
  · exact ⟨by simp, List.chain'_nil, by simp, fun _ => rfl, by simp, List.Pairwise.nil, by simp,
      by simp⟩

/-- C12: after `refresh_paragraph` the paragraph list partitions the text at
line feeds: the first paragraph starts at offset 0, every paragraph starts
where the one before it ends, so the text starts increase strictly, the last
paragraph ends at the text length, every paragraph is non-empty, ends with a
line feed unless it ends the text, and has no line feed before its last byte;
the number of paragraphs is the number of line feeds, plus one when the text is
non-empty and does not end with a line feed. -/
theorem C12_paragraphs_partition_text (h : host) (d : text_edit) :
    (d.refresh_paragraph h).text = d.text ∧
    (∀ P ∈ (d.refresh_paragraph h).iGlyphParagraphs.head?, P.text_start_index = 0) ∧
    (d.refresh_paragraph h).iGlyphParagraphs.Chain'
      (fun a b => a.text_end_index = b.text_start_index) ∧
    (d.refresh_paragraph h).iGlyphParagraphs.Pairwise
      (fun a b => a.text_start_index < b.text_start_index) ∧
    (∀ P ∈ (d.refresh_paragraph h).iGlyphParagraphs.getLast?, P.text_end_index = d.text.length) ∧
    (∀ P ∈ (d.refresh_paragraph h).iGlyphParagraphs,
      P.text_start_index < P.text_end_index ∧ P.text_end_index ≤ d.text.length ∧
      (P.text_end_index < d.text.length → d.text[P.text_end_index - 1]? = some '\n') ∧
      ∀ i, P.text_start_index ≤ i → i + 1 < P.text_end_index → d.text[i]? ≠ some '\n') ∧
    (d.refresh_paragraph h).iGlyphParagraphs.length
      = d.text.count '\n' + (if d.text ≠ [] ∧ d.text.getLast? ≠ some '\n' then 1 else 0) := by
  obtain ⟨q1, q2, q3, _, q5, q8, q6, _⟩ := refresh_paragraph_loop_partition h d
  refine ⟨rfl, q1, q2, ?_, q3, ?_, ?_⟩
  · refine List.Pairwise.imp_of_mem ?_ q8
    intro a b ha _ hab
    have := (q5 a ha).1
    omega
  · intro P hP
    obtain ⟨a1, a2, a3, a4⟩ := q5 P hP
    refine ⟨a1, a2, ?_, a4⟩
    intro hlt
    rcases a3 with a3 | a3
    · exact a3
    · omega
  · show (d.refresh_paragraph_loop h d.text 0 0 [] []).2.length = _
    rw [q6, List.take_length, List.getLast?_eq_getElem?]
    simp only [List.length_pos]

/-! ## Cursor movement (C15, C16) -/

/-- C15: in a non-empty document with `n` glyphs and the cursor at `p ≤ n`,
`move_cursor` puts the position at 0 for StartOfDocument, at `n` for
EndOfDocument, at `max (p - 1) 0` for Left and PreviousCharacter and at
`min (p + 1) n` for Right and NextCharacter, whatever the move-anchor flag. -/
theorem C15_move_cursor_document_and_character (d : text_edit) (aMoveAnchor : Bool)
    (hne : d.iGlyphs ≠ []) (hp : d.iCursor.position ≤ d.iGlyphs.length) :
    (d.move_cursor move_operation_e.StartOfDocument aMoveAnchor).iCursor.position = 0 ∧
    (d.move_cursor move_operation_e.EndOfDocument aMoveAnchor).iCursor.position = d.iGlyphs.length ∧
    (((d.move_cursor move_operation_e.Left aMoveAnchor).iCursor.position : Nat) : Int)
      = max ((d.iCursor.position : Int) - 1) 0 ∧
    (((d.move_cursor move_operation_e.PreviousCharacter aMoveAnchor).iCursor.position : Nat) : Int)
      = max ((d.iCursor.position : Int) - 1) 0 ∧
    (d.move_cursor move_operation_e.Right aMoveAnchor).iCursor.position
      = min (d.iCursor.position + 1) d.iGlyphs.length ∧
    (d.move_cursor move_operation_e.NextCharacter aMoveAnchor).iCursor.position
      = min (d.iCursor.position + 1) d.iGlyphs.length := by
  unfold text_edit.move_cursor
  simp only [if_neg hne]
  refine ⟨rfl, rfl, ?_, ?_, ?_, ?_⟩
  · by_cases h0 : d.iCursor.position > 0
    · rw [if_pos h0]
      show (((d.iCursor.position - 1 : Nat)) : Int) = _
      omega
    · rw [if_neg h0]
      have : d.iCursor.position = 0 := by omega
      rw [this]
      rfl
  · by_cases h0 : d.iCursor.position > 0
    · rw [if_pos h0]
      show (((d.iCursor.position - 1 : Nat)) : Int) = _
      omega
    · rw [if_neg h0]
      have : d.iCursor.position = 0 := by omega
      rw [this]
      rfl
  · by_cases h0 : d.iCursor.position < d.iGlyphs.length
    · rw [if_pos h0]
      show d.iCursor.position + 1 = _
      omega
    · rw [if_neg h0]
      omega
  · by_cases h0 : d.iCursor.position < d.iGlyphs.length
    · rw [if_pos h0]
      show d.iCursor.position + 1 = _
      omega
    · rw [if_neg h0]
      omega

/-- C15, instance: the six moves in "abc" with the cursor at 0 and a selection
reaching to 2. -/
theorem C15_move_cursor_document_and_character_witness :
    ((selected_document "abc" 0 2).move_cursor move_operation_e.StartOfDocument true).iCursor.position = 0 ∧
    ((selected_document "abc" 0 2).move_cursor move_operation_e.EndOfDocument true).iCursor.position
      = (selected_document "abc" 0 2).iGlyphs.length ∧
    ((((selected_document "abc" 0 2).move_cursor move_operation_e.Left true).iCursor.position : Nat) : Int)
      = max (((selected_document "abc" 0 2).iCursor.position : Int) - 1) 0 ∧
    ((((selected_document "abc" 0 2).move_cursor move_operation_e.PreviousCharacter true).iCursor.position
        : Nat) : Int)
      = max (((selected_document "abc" 0 2).iCursor.position : Int) - 1) 0 ∧
    ((selected_document "abc" 0 2).move_cursor move_operation_e.Right true).iCursor.position
      = min ((selected_document "abc" 0 2).iCursor.position + 1) (selected_document "abc" 0 2).iGlyphs.length ∧
    ((selected_document "abc" 0 2).move_cursor move_operation_e.NextCharacter true).iCursor.position
      = min ((selected_document "abc" 0 2).iCursor.position + 1)
          (selected_document "abc" 0 2).iGlyphs.length :=
  C15_move_cursor_document_and_character (selected_document "abc" 0 2) true (by decide) (by decide)

/-- The anchor after a move: with the flag false it is the anchor before; with
the flag true either the operation left the cursor untouched or the anchor is
the new position. -/
theorem move_cursor_anchor (d : text_edit) (op : move_operation_e) :
    (d.move_cursor op false).iCursor.anchor = d.iCursor.anchor ∧
    ((d.move_cursor op true).iCursor = d.iCursor ∨
      (d.move_cursor op true).iCursor.anchor = (d.move_cursor op true).iCursor.position) := by
  unfold text_edit.move_cursor
  by_cases hne : d.iGlyphs = []
  · rw [if_pos hne, if_pos hne]
    exact ⟨rfl, Or.inl rfl⟩
  · rw [if_neg hne, if_neg hne]
    cases op <;> dsimp only <;> constructor <;>
      first
      | rfl
      | exact Or.inl rfl
      | exact Or.inr rfl
      | (split_ifs <;> first | rfl | exact Or.inl rfl | exact Or.inr rfl)

/-- C16 (the code departs from the claim): in "abc" with the position at 0 and
the anchor at 2, Left with the move-anchor flag set leaves the anchor at 2, so
the selection remains, while PreviousWord and StartOfDocument, which cannot
move the position either, bring the anchor to 0; likewise Right at the end of
the document leaves the anchor where NextWord moves it. -/
theorem C16_left_at_start_keeps_selection :
    ((selected_document "abc" 0 2).move_cursor move_operation_e.Left true).iCursor
      = { iPosition := 0, iAnchor := 2 } ∧
    ((selected_document "abc" 0 2).move_cursor move_operation_e.PreviousWord true).iCursor
      = { iPosition := 0, iAnchor := 0 } ∧
    ((selected_document "abc" 0 2).move_cursor move_operation_e.StartOfDocument true).iCursor
      = { iPosition := 0, iAnchor := 0 } ∧
    ((selected_document "abc" 3 1).move_cursor move_operation_e.Right true).iCursor
      = { iPosition := 3, iAnchor := 1 } ∧
    ((selected_document "abc" 3 1).move_cursor move_operation_e.NextWord true).iCursor
      = { iPosition := 3, iAnchor := 3 } := by
  decide

/-! ## Run segmentation (C17, C18) -/

/-- C17: for a classifier that maps the Latin letters A and B to LTR, the
Hebrew letter bet to RTL and the control codes RLE and PDF to neutral with the
common script, the code points A, U+202B, bet, U+202C, B under one font (not
in password mode) are segmented into exactly three runs: an LTR run holding A,
an RTL run holding RLE and bet, and an LTR run holding PDF and B. -/
theorem C17_hebrew_letter_between_latin (gc : opengl_graphics_context) (f : font)
    (clusterMap : List cluster)
    (hf : f.password = false)
    (hA : gc.get_text_direction 0x41 = text_direction.LTR)
    (hB : gc.get_text_direction 0x42 = text_direction.LTR)
    (hbet : gc.get_text_direction 0x5D1 = text_direction.RTL)
    (hRLE : gc.get_text_direction 0x202B = text_direction.None)
    (hPDF : gc.get_text_direction 0x202C = text_direction.None)
    (sRLE : gc.hb_unicode_script f 0x202B = HB_SCRIPT_COMMON)
    (sPDF : gc.hb_unicode_script f 0x202C = HB_SCRIPT_COMMON) :
    (segment_runs gc (fun _ => f) clusterMap [0x41, 0x202B, 0x5D1, 0x202C, 0x42]).runs
      = [{ start := 0, end_ := 1, direction := text_direction.LTR,
           script := gc.hb_unicode_script f 0x41 },
         { start := 1, end_ := 3, direction := text_direction.RTL,
           script := gc.hb_unicode_script f 0x5D1 },
         { start := 3, end_ := 5, direction := text_direction.LTR, script := HB_SCRIPT_COMMON }] := by
  simp [segment_runs, run_step, look_ahead, bidi_check, List.range, List.range.loop, hf, hA, hB, hbet,
    hRLE, hPDF, sRLE, sPDF]

/-- C17, instance: the sample context classifies the five code points as
required, and the three runs come out. -/
theorem C17_hebrew_letter_between_latin_witness :
    (segment_runs sample_context
        (fun _ => { id := 0, height := 16, password := false, password_mask := [] })
        [{ from_ := 0, flags := false }, { from_ := 1, flags := false }, { from_ := 4, flags := false },
          { from_ := 6, flags := false }, { from_ := 9, flags := false }]
        [0x41, 0x202B, 0x5D1, 0x202C, 0x42]).runs
      = [{ start := 0, end_ := 1, direction := text_direction.LTR,
           script := sample_context.hb_unicode_script
             { id := 0, height := 16, password := false, password_mask := [] } 0x41 },
         { start := 1, end_ := 3, direction := text_direction.RTL,
           script := sample_context.hb_unicode_script
             { id := 0, height := 16, password := false, password_mask := [] } 0x5D1 },
         { start := 3, end_ := 5, direction := text_direction.LTR, script := HB_SCRIPT_COMMON }] :=
  C17_hebrew_letter_between_latin sample_context
    { id := 0, height := 16, password := false, password_mask := [] }
    [{ from_ := 0, flags := false }, { from_ := 1, flags := false }, { from_ := 4, flags := false },
      { from_ := 6, flags := false }, { from_ := 9, flags := false }]
    (by decide) (by decide) (by decide) (by decide) (by decide) (by decide) (by decide) (by decide)

/-- C18 (the code departs from the claim): a change at the last code point
starts no run.  The Latin letter A followed by the Hebrew letter bet, under one
font, form a single LTR run holding both; two Latin letters with two different
fonts form a single run; in A, bet, B the last run is RTL and holds bet and B.
A change before the last code point does start a run. -/
theorem C18_change_at_last_code_point_starts_no_run :
    (segment_runs sample_context
        (fun _ => { id := 0, height := 16, password := false, password_mask := [] })
        [{ from_ := 0, flags := false }, { from_ := 1, flags := false }] [0x41, 0x5D1]).runs.map
        (fun r => (r.start, r.end_, r.direction))
      = [(0, 2, text_direction.LTR)] ∧
    (segment_runs sample_context
        (fun i => { id := if i = 1 then 7 else 0, height := 16, password := false, password_mask := [] })
        [{ from_ := 0, flags := false }, { from_ := 1, flags := false }] [0x41, 0x42]).runs.map
        (fun r => (r.start, r.end_, r.direction))
      = [(0, 2, text_direction.LTR)] ∧
    (segment_runs sample_context
        (fun _ => { id := 0, height := 16, password := false, password_mask := [] })
        [{ from_ := 0, flags := false }, { from_ := 1, flags := false }, { from_ := 2, flags := false }]
        [0x41, 0x5D1, 0x42]).runs.map (fun r => (r.start, r.end_, r.direction))
      = [(0, 1, text_direction.LTR), (1, 3, text_direction.RTL)] := by
  decide

/-! ## Glyph coverage (C11) -/

theorem tiles_after_append (l1 l2 : List (Nat × Nat)) (m b : Nat) :
    ∀ s, tiles_after s l1 m → tiles m l2 b → tiles_after s (l1 ++ l2) b := by
  induction l1 with
  | nil =>
    intro s h1 h2
    cases l2 with
    | nil =>
      simp only [tiles_after, tiles] at *
      omega
    | cons t rest =>
      simp only [tiles_after, tiles, List.nil_append] at *
      exact ⟨Or.inr ⟨by omega, h2.2.1⟩, h2.2.2⟩
  | cons t rest ih =>
    intro s h1 h2
    simp only [tiles_after, List.cons_append] at *
    exact ⟨h1.1, ih t h1.2 h2⟩

theorem tiles_append (l1 l2 : List (Nat × Nat)) (a m b : Nat)
    (h1 : tiles a l1 m) (h2 : tiles m l2 b) : tiles a (l1 ++ l2) b := by
  cases l1 with
  | nil =>
    simp only [tiles] at h1
    subst h1
    exact h2
  | cons s rest =>
    simp only [tiles, List.cons_append] at *
    exact ⟨h1.1, h1.2.1, tiles_after_append rest l2 m b s h1.2.2 h2⟩

theorem tiles_after_sorted (rest : List (Nat × Nat)) (b : Nat) :
    ∀ s, s.1 < s.2 → tiles_after s rest b →
      (s :: rest).Chain' (fun x y => x.1 ≤ y.1 ∧ x.2 ≤ y.2) ∧ ∀ t ∈ s :: rest, t.1 < t.2 ∧ t.2 ≤ b := by
  induction rest with
  | nil =>
    intro s hs h
    simp only [tiles_after] at h
    refine ⟨List.chain'_singleton _, ?_⟩
    intro t ht
    simp only [List.mem_singleton] at ht
    subst ht
    exact ⟨hs, by omega⟩
  | cons t rest ih =>
    intro s hs h
    simp only [tiles_after] at h
    have ht : t.1 < t.2 := by
      rcases h.1 with h1 | h1
      · rw [h1]; exact hs
      · exact h1.2
    obtain ⟨c1, c2⟩ := ih t ht h.2
    refine ⟨List.Chain'.cons ?_ c1, ?_⟩
    · rcases h.1 with h1 | h1
      · rw [h1]; exact ⟨le_refl _, le_refl _⟩
      · omega
    · intro u hu
      rcases List.mem_cons.1 hu with hu | hu
      · subst hu
        have := c2 t (List.mem_cons_self _ _)
        refine ⟨hs, ?_⟩
        rcases h.1 with h1 | h1
        · rw [← h1]; exact this.2
        · omega
      · exact c2 u hu

/-- Tiling ranges are non-decreasing, non-empty and inside the span. -/
theorem tiles_sorted (a b : Nat) (l : List (Nat × Nat)) (h : tiles a l b) :
    l.Chain' (fun x y => x.1 ≤ y.1 ∧ x.2 ≤ y.2) ∧ ∀ t ∈ l, a ≤ t.1 ∧ t.1 < t.2 ∧ t.2 ≤ b := by
  cases l with
  | nil => exact ⟨List.chain'_nil, by simp⟩
  | cons s rest =>
    simp only [tiles] at h
    obtain ⟨c1, c2⟩ := tiles_after_sorted rest b s h.2.1 h.2.2
    refine ⟨c1, ?_⟩
    have hall : ∀ (l : List (Nat × Nat)) (s : Nat × Nat),
        (s :: l).Chain' (fun x y => x.1 ≤ y.1 ∧ x.2 ≤ y.2) → ∀ t ∈ s :: l, s.1 ≤ t.1 := by
      intro l
      induction l with
      | nil =>
        intro s _ t ht
        simp only [List.mem_singleton] at ht
        rw [ht]
      | cons u l ih =>
        intro s hc t ht
        rcases List.mem_cons.1 ht with ht | ht
        · rw [ht]
        · have hc' := List.chain'_cons.1 hc
          have := ih u hc'.2 t ht
          omega
    intro t ht
    have := hall rest s c1 t ht
    exact ⟨by omega, (c2 t ht).1, (c2 t ht).2⟩

theorem climbs_after_lt (rest : List Nat) (b : Nat) :
    ∀ c, climbs_after c rest b → c < b := by
  induction rest with
  | nil =>
    intro c h
    simp only [climbs_after] at h
    omega
  | cons c2 rest ih =>
    intro c h
    simp only [climbs_after] at h
    have := ih c2 h.2
    omega

theorem climbs_after_shift (k : Nat) (rest : List Nat) (b : Nat) :
    ∀ c, climbs_after c rest b → climbs_after (c + k) (rest.map (fun x => x + k)) (b + k) := by
  induction rest with
  | nil =>
    intro c h
    simp only [climbs_after, List.map_nil] at *
    omega
  | cons c2 rest ih =>
    intro c h
    simp only [climbs_after, List.map_cons] at *
    exact ⟨by omega, ih c2 h.2⟩

theorem climbs_shift (k a b : Nat) (l : List Nat) (h : climbs a l b) :
    climbs (a + k) (l.map (fun x => x + k)) (b + k) := by
  cases l with
  | nil =>
    simp only [climbs, List.map_nil] at *
    omega
  | cons c rest =>
    simp only [climbs, List.map_cons] at *
    exact ⟨by omega, climbs_after_shift k rest b c h.2⟩

theorem cluster_source_fst (cm : List cluster) (n c : Nat) (hc : c < cm.length) :
    (cluster_source cm n c).1 = cluster_start cm n c := by
  unfold cluster_source cluster_start
  rw [if_pos hc]

theorem cluster_source_snd (cm : List cluster) (n c : Nat) (hc : c < cm.length) :
    (cluster_source cm n c).2 = cluster_start cm n (c + 1) := by
  unfold cluster_source cluster_start
  by_cases h : c + 1 < cm.length
  · rw [if_pos h]
    simp only
    rw [if_pos (by omega)]
  · rw [if_neg h]
    simp only
    rw [if_neg (by omega)]

theorem cluster_source_nonempty (cm : List cluster) (n c : Nat) (hc : c < cm.length)
    (hinc : ∀ c, c + 1 < cm.length → (cm.getD c default).from_ < (cm.getD (c + 1) default).from_)
    (hlt : ∀ c, c < cm.length → (cm.getD c default).from_ < n) :
    (cluster_source cm n c).1 < (cluster_source cm n c).2 := by
  unfold cluster_source
  simp only
  by_cases h : c + 1 < cm.length
  · rw [if_pos (by omega)]
    exact hinc c h
  · rw [if_neg (by omega)]
    exact hlt c hc

theorem cluster_tiles_after (cm : List cluster) (n : Nat)
    (hinc : ∀ c, c + 1 < cm.length → (cm.getD c default).from_ < (cm.getD (c + 1) default).from_)
    (hlt : ∀ c, c < cm.length → (cm.getD c default).from_ < n) (rest : List Nat) (b : Nat)
    (hb : b ≤ cm.length) :
    ∀ c, climbs_after c rest b →
      tiles_after (cluster_source cm n c) (rest.map (cluster_source cm n)) (cluster_start cm n b) := by
  induction rest with
  | nil =>
    intro c h
    simp only [climbs_after] at h
    simp only [tiles_after, List.map_nil]
    rw [cluster_source_snd cm n c (by omega), h]
  | cons c2 rest ih =>
    intro c h
    simp only [climbs_after] at h
    have hc2 := climbs_after_lt rest b c2 h.2
    simp only [tiles_after, List.map_cons]
    refine ⟨?_, ih c2 h.2⟩
    rcases h.1 with h1 | h1
    · left; rw [h1]
    · right
      refine ⟨?_, cluster_source_nonempty cm n c2 (by omega) hinc hlt⟩
      rw [cluster_source_fst cm n c2 (by omega), cluster_source_snd cm n c (by omega), h1]

/-- Cluster indices that run through `[a, b)` give source ranges that tile the
bytes from the start of cluster `a` to the start of cluster `b`. -/
theorem cluster_tiles (cm : List cluster) (n : Nat)
    (hinc : ∀ c, c + 1 < cm.length → (cm.getD c default).from_ < (cm.getD (c + 1) default).from_)
    (hlt : ∀ c, c < cm.length → (cm.getD c default).from_ < n) (l : List Nat) (a b : Nat)
    (hb : b ≤ cm.length) (h : climbs a l b) :
    tiles (cluster_start cm n a) (l.map (cluster_source cm n)) (cluster_start cm n b) := by
  cases l with
  | nil =>
    simp only [climbs] at h
    simp only [tiles, List.map_nil, h]
  | cons c rest =>
    simp only [climbs] at h
    have hc := climbs_after_lt rest b c h.2
    simp only [tiles, List.map_cons]
    refine ⟨?_, cluster_source_nonempty cm n c (by omega) hinc hlt,
      cluster_tiles_after cm n hinc hlt rest b hb c h.2⟩
    rw [cluster_source_fst cm n c (by omega), h.1]

theorem shape_glyphs_source (gc : opengl_graphics_context) (text : List Char)
    (aFontSelector : Nat → font) (clusterMap : List cluster) (textDirections : List text_direction)
    (runStart : Nat) :
    ∀ infos : List hb_glyph,
      (shape_glyphs gc text aFontSelector clusterMap textDirections runStart infos).map glyph.source
        = (infos.map (fun g => g.cluster + runStart)).map (cluster_source clusterMap text.length) := by
  intro infos
  induction infos with
  | nil => rfl
  | cons g rest ih =>
    cases rest with
    | nil => rfl
    | cons g2 rest2 =>
      unfold shape_glyphs
      rw [List.map_cons, ih]
      rfl

theorem run_glyph_infos_cluster (gc : opengl_graphics_context) (aFontSelector : Nat → font)
    (clusterMap : List cluster) (codePoints : List Nat) (r : run) :
    (run_glyph_infos gc aFontSelector clusterMap codePoints r).map hb_glyph.cluster
      = (gc.hb_shape (aFontSelector (clusterMap.getD r.start default).from_)
          (decide (r.direction = text_direction.RTL)) r.script
          ((codePoints.drop r.start).take (r.end_ - r.start))).map hb_glyph.cluster := by
  unfold run_glyph_infos
  simp only [List.map_map]
  apply List.map_congr_left
  intro g _
  simp only [Function.comp]
  split <;> rfl

theorem links_le (rs : List run) (b : Nat) : ∀ a, links a rs b → a ≤ b := by
  induction rs with
  | nil =>
    intro a h
    simp only [links] at h
    omega
  | cons r rs ih =>
    intro a h
    simp only [links] at h
    have := ih r.end_ h.2.2
    omega

/-- The glyphs of runs that lead from code point `a` to code point `b`, shaped
in order with at least one glyph per code point, have source ranges that tile
the bytes of these code points. -/
theorem shape_runs_tiles (gc : opengl_graphics_context) (hs : shapes_in_order gc)
    (text : List Char) (aFontSelector : Nat → font) (clusterMap : List cluster)
    (codePoints : List Nat) (textDirections : List text_direction)
    (hlen : codePoints.length = clusterMap.length)
    (hinc : ∀ c, c + 1 < clusterMap.length →
      (clusterMap.getD c default).from_ < (clusterMap.getD (c + 1) default).from_)
    (hlt : ∀ c, c < clusterMap.length → (clusterMap.getD c default).from_ < text.length) :
    ∀ (rs : List run) (a b : Nat), b ≤ clusterMap.length → links a rs b →
      tiles (cluster_start clusterMap text.length a)
        ((shape_runs gc text aFontSelector clusterMap codePoints textDirections rs).map glyph.source)
        (cluster_start clusterMap text.length b) := by
  intro rs
  induction rs with
  | nil =>
    intro a b _ h
    simp only [links] at h
    simp only [shape_runs, List.map_nil, tiles, h]
  | cons r rs ih =>
    intro a b hb h
    simp only [links] at h
    obtain ⟨h1, h2, h3⟩ := h
    have h4 := links_le rs b r.end_ h3
    unfold shape_runs
    rw [List.map_append]
    refine tiles_append _ _ _ (cluster_start clusterMap text.length r.end_) _ ?_ (ih r.end_ b hb h3)
    have e0 : (run_glyph_infos gc aFontSelector clusterMap codePoints r).map (fun g => g.cluster + r.start)
        = ((run_glyph_infos gc aFontSelector clusterMap codePoints r).map hb_glyph.cluster).map
            (fun x => x + r.start) := by
      rw [List.map_map]
      rfl
    rw [shape_glyphs_source, e0, run_glyph_infos_cluster]
    have hc := hs (aFontSelector (clusterMap.getD r.start default).from_)
      (decide (r.direction = text_direction.RTL)) r.script
      ((codePoints.drop r.start).take (r.end_ - r.start))
    have hl : ((codePoints.drop r.start).take (r.end_ - r.start)).length = r.end_ - r.start := by
      rw [List.length_take, List.length_drop]
      omega
    rw [hl] at hc
    have hc2 := climbs_shift r.start 0 (r.end_ - r.start) _ hc
    have e1 : 0 + r.start = a := by omega
    have e2 : r.end_ - r.start + r.start = r.end_ := by omega
    rw [e1, e2] at hc2
    exact cluster_tiles clusterMap text.length hinc hlt _ a r.end_ (by omega) hc2

theorem links_append (r : run) (hr : r.start ≤ r.end_) (rs : List run) :
    ∀ a, links a rs r.start → links a (rs ++ [r]) r.end_ := by
  induction rs with
  | nil =>
    intro a h
    simp only [links] at h
    simp only [links, List.nil_append]
    exact ⟨h.symm, hr, trivial⟩
  | cons q rs ih =>
    intro a h
    simp only [links, List.cons_append] at *
    exact ⟨h.1, h.2.1, ih q.end_ h.2.2⟩

/-- What one pass of the segmentation loop does to the run list: a run from
`runStart` is pushed or not, and it is pushed at the last code point. -/
theorem run_step_runs (gc : opengl_graphics_context) (aFontSelector : Nat → font)
    (clusterMap : List cluster) (lastCodePointIndex : Nat) (s : run_state) (i : Nat) :
    ∃ newRun : Bool, (i = lastCodePointIndex → newRun = true) ∧
      (run_step gc aFontSelector clusterMap lastCodePointIndex s i).runs
        = (if newRun then
            s.runs ++ [{ start := s.runStart, end_ := if i ≠ lastCodePointIndex then i else i + 1,
                         direction := s.previousDirection, script := s.previousScript }]
          else s.runs) ∧
      (run_step gc aFontSelector clusterMap lastCodePointIndex s i).runStart
        = (if newRun then i else s.runStart) ∧
      (run_step gc aFontSelector clusterMap lastCodePointIndex s i).codePoints.length
        = s.codePoints.length := by
  unfold run_step
  refine ⟨_, ?_, rfl, rfl, ?_⟩
  · intro h
    simp [h]
  · simp only
    split
    · rw [List.length_set]
    · rfl

theorem segment_runs_fold_links (gc : opengl_graphics_context) (aFontSelector : Nat → font)
    (clusterMap : List cluster) (lastCodePointIndex : Nat) (s0 : run_state)
    (h0 : s0.runs = [] ∧ s0.runStart = 0) :
    ∀ k, k ≤ lastCodePointIndex + 1 →
      ∃ e, links 0 ((List.range k).foldl
            (run_step gc aFontSelector clusterMap lastCodePointIndex) s0).runs e ∧
        (k ≤ lastCodePointIndex →
          e = ((List.range k).foldl (run_step gc aFontSelector clusterMap lastCodePointIndex) s0).runStart
          ∧ e ≤ k) ∧
        (k = lastCodePointIndex + 1 → e = lastCodePointIndex + 1) ∧
        ((List.range k).foldl
            (run_step gc aFontSelector clusterMap lastCodePointIndex) s0).codePoints.length
          = s0.codePoints.length := by
  intro k
  induction k with
  | zero =>
    intro _
    refine ⟨0, ?_, ?_, ?_, rfl⟩
    · simp only [List.range_zero, List.foldl_nil, h0.1, links]
    · intro _
      simp only [List.range_zero, List.foldl_nil, h0.2]
      exact ⟨trivial, le_refl _⟩
    · intro h
      omega
  | succ k ih =>
    intro hk
    obtain ⟨e, l1, l2, _, l4⟩ := ih (by omega)
    obtain ⟨l2a, l2b⟩ := l2 (by omega)
    subst l2a
    rw [List.range_succ, List.foldl_append, List.foldl_cons, List.foldl_nil]
    obtain ⟨newRun, n1, n2, n3, n4⟩ := run_step_runs gc aFontSelector clusterMap lastCodePointIndex
      ((List.range k).foldl (run_step gc aFontSelector clusterMap lastCodePointIndex) s0) k
    rw [n2, n3, n4]
    cases newRun with
    | true =>
      simp only [if_true]
      refine ⟨if k ≠ lastCodePointIndex then k else k + 1, ?_, ?_, ?_, l4⟩
      · have hr : ((List.range k).foldl (run_step gc aFontSelector clusterMap lastCodePointIndex)
            s0).runStart ≤ (if k ≠ lastCodePointIndex then k else k + 1) := by
          split <;> omega
        exact links_append
          { start := ((List.range k).foldl (run_step gc aFontSelector clusterMap lastCodePointIndex)
              s0).runStart
            end_ := if k ≠ lastCodePointIndex then k else k + 1
            direction := ((List.range k).foldl
              (run_step gc aFontSelector clusterMap lastCodePointIndex) s0).previousDirection
            script := ((List.range k).foldl
              (run_step gc aFontSelector clusterMap lastCodePointIndex) s0).previousScript }
          hr _ 0 l1
      · intro h
        rw [if_pos (by omega)]
        exact ⟨rfl, by omega⟩
      · intro h
        rw [if_neg (by omega)]
        omega
    | false =>
      have hne : k ≠ lastCodePointIndex := fun h => Bool.noConfusion (n1 h)
      simp only [Bool.false_eq_true, if_false]
      refine ⟨_, l1, ?_, ?_, l4⟩
      · intro _
        exact ⟨rfl, by omega⟩
      · intro h
        omega

/-- The runs of the segmentation lead from the first code point to the end of
the sequence, and password masking keeps the number of code points. -/
theorem segment_runs_links (gc : opengl_graphics_context) (aFontSelector : Nat → font)
    (clusterMap : List cluster) (codePoints : List Nat) (hne : codePoints ≠ []) :
    links 0 (segment_runs gc aFontSelector clusterMap codePoints).runs codePoints.length ∧
    (segment_runs gc aFontSelector clusterMap codePoints).codePoints.length = codePoints.length := by
  have hpos : 0 < codePoints.length := List.length_pos.2 hne
  obtain ⟨e, l1, _, l3, l4⟩ := segment_runs_fold_links gc aFontSelector clusterMap
    (codePoints.length - 1)
    { codePoints := codePoints
      textDirections := []
      runs := []
      previousDirection := gc.get_text_direction (codePoints.getD 0 0)
      runStart := 0
      previousFont := aFontSelector (clusterMap.getD 0 default).from_
      previousScript :=
        gc.hb_unicode_script (aFontSelector (clusterMap.getD 0 default).from_) (codePoints.getD 0 0)
      directionStack := []
      currentLineHasLTR := false }
    ⟨rfl, rfl⟩ codePoints.length (by omega)
  have he := l3 (by omega)
  have e2 : codePoints.length - 1 + 1 = codePoints.length := by omega
  rw [he, e2] at l1
  exact ⟨l1, l4⟩

theorem decode_cluster_from (l : List (Nat × Nat)) (c : Nat) :
    ((l.map (fun e => (e.1, ({ from_ := e.2, flags := false } : cluster)))).map Prod.snd
      |>.getD c default).from_ = (l.getD c (0, 0)).2 := by
  rw [List.map_map]
  have h := List.getD_map (l := l) (d := ((0, 0) : Nat × Nat)) (n := c)
    (Prod.snd ∘ fun e : Nat × Nat => (e.1, ({ from_ := e.2, flags := false } : cluster)))
  have hdef : (default : cluster)
      = (Prod.snd ∘ fun e : Nat × Nat => (e.1, ({ from_ := e.2, flags := false } : cluster))) (0, 0) := rfl
  rw [hdef, h]
  rfl

/-- One shaping pass over a non-empty text, with an in-order decoder, no
mnemonic marker configured and a shaper that returns, in order, at least one
glyph per code point: the source ranges of the glyphs tile the text. -/
theorem to_glyph_text_impl_tiles (gc : opengl_graphics_context) (hd : decodes_in_order gc)
    (hm : gc.iMnemonic = none) (hs : shapes_in_order gc) (text : List Char) (fs : Nat → font)
    (hne : text ≠ []) :
    tiles 0 ((gc.to_glyph_text_impl text fs).1.map glyph.source) text.length := by
  obtain ⟨d1, d2, d3, d4⟩ := hd text hne
  have hdec : gc.decode text
      = (gc.utf8_to_utf32 text).map (fun e => (e.1, ({ from_ := e.2, flags := false } : cluster))) := by
    unfold opengl_graphics_context.decode
    rw [hm]
  have hlen0 : text.length ≠ 0 := fun h => hne (List.length_eq_zero.1 h)
  have hcp : (gc.decode text).map Prod.fst ≠ [] := by
    intro h
    have := congrArg List.length h
    rw [hdec, List.length_map, List.length_map, List.length_nil] at this
    omega
  unfold opengl_graphics_context.to_glyph_text_impl
  rw [if_neg hlen0]
  simp only
  rw [if_neg hcp]
  simp only
  obtain ⟨k1, k2⟩ := segment_runs_links gc fs ((gc.decode text).map Prod.snd)
    ((gc.decode text).map Prod.fst) hcp
  have hcm : ((gc.decode text).map Prod.snd).length = (gc.utf8_to_utf32 text).length := by
    rw [hdec]; simp
  have hcl : ((gc.decode text).map Prod.fst).length = (gc.utf8_to_utf32 text).length := by
    rw [hdec]; simp
  have hfrom : ∀ c, (((gc.decode text).map Prod.snd).getD c default).from_
      = ((gc.utf8_to_utf32 text).getD c (0, 0)).2 := by
    intro c
    rw [hdec]
    exact decode_cluster_from _ c
  have key := shape_runs_tiles gc hs text fs ((gc.decode text).map Prod.snd)
    (segment_runs gc fs ((gc.decode text).map Prod.snd) ((gc.decode text).map Prod.fst)).codePoints
    (segment_runs gc fs ((gc.decode text).map Prod.snd) ((gc.decode text).map Prod.fst)).textDirections
    (by rw [k2, hcl, hcm])
    (fun c hc => by rw [hfrom, hfrom]; exact d3 c (by omega))
    (fun c hc => by rw [hfrom]; exact d4 c (by omega))
    (segment_runs gc fs ((gc.decode text).map Prod.snd) ((gc.decode text).map Prod.fst)).runs
    0 ((gc.decode text).map Prod.fst).length (by omega) k1
  have e0 : cluster_start ((gc.decode text).map Prod.snd) text.length 0 = 0 := by
    unfold cluster_start
    rw [if_pos (by omega), hfrom]
    exact d2
  have e1 : cluster_start ((gc.decode text).map Prod.snd) text.length
      ((gc.decode text).map Prod.fst).length = text.length := by
    unfold cluster_start
    rw [if_neg (by omega)]
  rw [e0, e1] at key
  exact key

theorem merge_fallback_source :
    ∀ (result fallbackResult : List glyph),
      fallbackResult.map glyph.source = result.map glyph.source →
      (merge_fallback result fallbackResult).map glyph.source = result.map glyph.source := by
  intro result
  induction result with
  | nil => intro _ _; rfl
  | cons g gs ih =>
    intro fb h
    cases fb with
    | nil => simp at h
    | cons f fs =>
      simp only [List.map_cons, List.cons.injEq] at h
      unfold merge_fallback
      simp only [List.map_cons, List.headD_cons, List.tail_cons]
      rw [ih fs h.2]
      congr 1
      split
      · exact h.1
      · rfl

/-- The glyphs `to_glyph_text` returns for a non-empty text tile the text,
under the assumptions of one pass and an aligned fallback pass. -/
theorem to_glyph_text_tiles (gc : opengl_graphics_context) (hd : decodes_in_order gc)
    (hm : gc.iMnemonic = none) (hs : shapes_in_order gc) (ha : fallback_aligned gc)
    (text : List Char) (fs : Nat → font) (hne : text ≠ []) :
    tiles 0 ((gc.to_glyph_text text fs).map glyph.source) text.length := by
  have h1 := to_glyph_text_impl_tiles gc hd hm hs text fs hne
  unfold opengl_graphics_context.to_glyph_text
  simp only
  split
  · rename_i hfb
    rw [merge_fallback_source _ _ (ha text fs hfb)]
    exact h1
  · exact h1

theorem sources_of_append_left (gs gt : List glyph) (a b : Nat) (hab : a ≤ b) (hb : b ≤ gs.length) :
    sources_of (gs ++ gt) a b = sources_of gs a b := by
  unfold sources_of
  rw [List.drop_append_of_le_length (by omega), List.take_append_of_le_length]
  rw [List.length_drop]
  omega

theorem sources_of_append_right (gs gt : List glyph) :
    sources_of (gs ++ gt) gs.length (gs.length + gt.length) = gt.map glyph.source := by
  unfold sources_of
  rw [List.drop_left, Nat.add_sub_cancel_left, List.take_length]

theorem sources_of_congr (gs gs' : List glyph) (h : gs'.map glyph.source = gs.map glyph.source)
    (a b : Nat) : sources_of gs' a b = sources_of gs a b := by
  unfold sources_of
  rw [List.map_take, List.map_drop, List.map_take, List.map_drop, h]

/-- With a shaper whose glyphs tile every non-empty buffer, the glyphs that
`refresh_paragraph` shapes for a paragraph tile the bytes of the paragraph. -/
theorem refresh_paragraph_tiles (h : host) (d : text_edit)
    (ht : ∀ buf fs, buf ≠ [] → tiles 0 ((h.to_glyph_text buf fs).map glyph.source) buf.length) :
    ∀ P ∈ (d.refresh_paragraph h).iGlyphParagraphs,
      P.start_index ≤ d.shaped_end P ∧ d.shaped_end P ≤ (d.refresh_paragraph h).iGlyphs.length ∧
      tiles 0 (sources_of (d.refresh_paragraph h).iGlyphs P.start_index (d.shaped_end P))
        (P.text_end_index - P.text_start_index) := by
  have key := refresh_paragraph_loop_inv h d
    (fun _ gs ps => ∀ P ∈ ps, P.start_index ≤ d.shaped_end P ∧ d.shaped_end P ≤ gs.length ∧
      tiles 0 (sources_of gs P.start_index (d.shaped_end P)) (P.text_end_index - P.text_start_index))
    (by
      intro paragraphStart ch gs ps c hp hlt hc _ hQ P hP
      rcases List.mem_append.1 hP with hP | hP
      · obtain ⟨q1, q2, q3⟩ := hQ P hP
        refine ⟨q1, by rw [List.length_append]; omega, ?_⟩
        rw [sources_of_append_left gs _ _ _ q1 q2]
        exact q3
      · simp only [List.mem_singleton] at hP
        have hbuf : ((d.text.drop paragraphStart).take (ch + 1 - paragraphStart)).length
            = ch + 1 - paragraphStart := take_drop_length d.text paragraphStart ch hp hlt
        have hne : (d.text.drop paragraphStart).take (ch + 1 - paragraphStart) ≠ [] := by
          intro h0
          rw [h0] at hbuf
          simp at hbuf
          omega
        have t := ht _ (d.fs paragraphStart) hne
        rw [hbuf] at t
        have hgt : 0 < (h.to_glyph_text ((d.text.drop paragraphStart).take (ch + 1 - paragraphStart))
            (d.fs paragraphStart)).length := by
          rcases hg : h.to_glyph_text ((d.text.drop paragraphStart).take (ch + 1 - paragraphStart))
            (d.fs paragraphStart) with _ | ⟨g, rest⟩
          · rw [hg] at t
            simp only [List.map_nil, tiles] at t
            omega
          · simp
        have hse : d.shaped_end P = gs.length
            + (h.to_glyph_text ((d.text.drop paragraphStart).take (ch + 1 - paragraphStart))
                (d.fs paragraphStart)).length := by
          subst hP
          unfold text_edit.shaped_end size_sub
          simp only [List.length_append, Nat.add_sub_cancel, hc, Option.some.injEq]
          by_cases hcn : c = '\n'
          · simp only [hcn, if_true]
            rw [if_pos (by omega)]
            omega
          · simp only [hcn, if_false]
            rw [if_pos (by omega)]
            omega
        rw [hse]
        have hstart : P.start_index = gs.length := by rw [hP]
        have hspan : P.text_end_index - P.text_start_index = ch + 1 - paragraphStart := by rw [hP]
        rw [hstart, hspan, sources_of_append_right]
        exact ⟨by omega, by rw [List.length_append], t⟩)
    d.text 0 0 [] [] rfl (Nat.zero_le _) (le_refl _) (fun _ => rfl) (by simp)
  intro P hP
  have hsrc := position_paragraphs_map glyph.source (fun _ _ => rfl)
    (d.refresh_paragraph_loop h d.text 0 0 [] []).2 (d.refresh_paragraph_loop h d.text 0 0 [] []).1
  obtain ⟨q1, q2, q3⟩ := key P hP
  refine ⟨q1, ?_, ?_⟩
  · show _ ≤ (position_paragraphs _ _).length
    rw [position_paragraphs_length]
    exact q2
  · show tiles 0 (sources_of (position_paragraphs _ _) _ _) _
    rw [sources_of_congr _ _ hsrc]
    exact q3

theorem shape_glyphs_use_fallback (gc : opengl_graphics_context) (text : List Char)
    (aFontSelector : Nat → font) (clusterMap : List cluster) (textDirections : List text_direction)
    (runStart : Nat) :
    ∀ infos : List hb_glyph,
      (shape_glyphs gc text aFontSelector clusterMap textDirections runStart infos).map
          (fun g => g.use_fallback)
        = infos.map (fun g => decide (g.codepoint = 0)) := by
  intro infos
  induction infos with
  | nil => rfl
  | cons g rest ih =>
    cases rest with
    | nil => rfl
    | cons g2 rest2 =>
      unfold shape_glyphs
      rw [List.map_cons, ih]
      rfl

/-- A shaper that never reports a missing glyph needs no fallback pass. -/
theorem no_missing_glyph_no_fallback (gc : opengl_graphics_context)
    (hg : ∀ f rtl script cps, ∀ g ∈ gc.hb_shape f rtl script cps, g.codepoint ≠ 0)
    (text : List Char) (fs : Nat → font) : (gc.to_glyph_text_impl text fs).2 = false := by
  have hruns : ∀ (cm : List cluster) (cps : List Nat) (tds : List text_direction) (rs : List run),
      ∀ g ∈ shape_runs gc text fs cm cps tds rs, g.use_fallback = false := by
    intro cm cps tds rs
    induction rs with
    | nil => intro g hgm; simp [shape_runs] at hgm
    | cons r rs ih =>
      intro g hgm
      unfold shape_runs at hgm
      rcases List.mem_append.1 hgm with hgm | hgm
      · have hm : g.use_fallback ∈ (shape_glyphs gc text fs cm tds r.start
            (run_glyph_infos gc fs cm cps r)).map (fun g => g.use_fallback) :=
          List.mem_map_of_mem _ hgm
        rw [shape_glyphs_use_fallback] at hm
        obtain ⟨i, hi, he⟩ := List.mem_map.1 hm
        unfold run_glyph_infos at hi
        obtain ⟨j, hj, hje⟩ := List.mem_map.1 hi
        have hj0 := hg _ _ _ _ j hj
        rw [if_neg hj0] at hje
        rw [← he, ← hje]
        simpa using hj0
      · exact ih g hgm
  unfold opengl_graphics_context.to_glyph_text_impl
  split
  · rfl
  · simp only
    split
    · rfl
    · simp only
      rw [List.any_eq_false]
      intro g hgm
      have := hruns _ _ _ _ g hgm
      simp [this]

theorem no_missing_glyph_aligned (gc : opengl_graphics_context)
    (hg : ∀ f rtl script cps, ∀ g ∈ gc.hb_shape f rtl script cps, g.codepoint ≠ 0) :
    fallback_aligned gc := by
  intro text fs hfb
  rw [no_missing_glyph_no_fallback gc hg text fs] at hfb
  exact Bool.noConfusion hfb

theorem climbs_after_range (k : Nat) : ∀ a, climbs_after a (List.range' (a + 1) k) (a + 1 + k) := by
  induction k with
  | zero => intro a; simp [climbs_after]
  | succ k ih =>
    intro a
    unfold List.range' climbs_after
    refine ⟨Or.inr rfl, ?_⟩
    have := ih (a + 1)
    have e : a + 1 + 1 + k = a + 1 + (k + 1) := by omega
    rw [e] at this
    exact this

theorem climbs_range (n : Nat) : climbs 0 (List.range n) n := by
  rw [List.range_eq_range']
  cases n with
  | zero => simp [climbs]
  | succ k =>
    unfold List.range' climbs
    refine ⟨rfl, ?_⟩
    have := climbs_after_range k 0
    have e : 0 + 1 + k = k + 1 := by omega
    rw [e] at this
    exact this

theorem sample_context_decodes_in_order : decodes_in_order sample_context := by
  intro text hne
  have hpos : 0 < text.length := List.length_pos.2 hne
  have hget : ∀ i, i < text.length →
      ((sample_context.utf8_to_utf32 text).getD i (0, 0)).2 = i := by
    intro i hi
    simp [sample_context, List.getD_eq_getElem?_getD, hi]
  have hlen : (sample_context.utf8_to_utf32 text).length = text.length := by
    simp [sample_context]
  rw [hlen]
  refine ⟨hpos, hget 0 hpos, ?_, ?_⟩
  · intro i hi
    rw [hget i (by omega), hget (i + 1) hi]
    omega
  · intro i hi
    rw [hget i hi]
    exact hi

theorem sample_context_shapes_in_order : shapes_in_order sample_context := by
  intro f rtl script cps
  have : (sample_context.hb_shape f rtl script cps).map hb_glyph.cluster = List.range cps.length := by
    simp [sample_context, Function.comp_def]
  rw [this]
  exact climbs_range cps.length

theorem sample_context_aligned : fallback_aligned sample_context := by
  apply no_missing_glyph_aligned
  intro f rtl script cps g hg
  simp only [sample_context, List.mem_map, List.mem_range] at hg
  obtain ⟨i, _, hi⟩ := hg
  rw [← hi]
  simp

theorem climbs_after_append (l1 l2 : List Nat) (m b : Nat) :
    ∀ c, climbs_after c l1 m → climbs m l2 b → climbs_after c (l1 ++ l2) b := by
  induction l1 with
  | nil =>
    intro c h1 h2
    cases l2 with
    | nil =>
      simp only [climbs_after, climbs] at *
      omega
    | cons t rest =>
      simp only [climbs_after, climbs, List.nil_append] at *
      exact ⟨Or.inr (by omega), h2.2⟩
  | cons t rest ih =>
    intro c h1 h2
    simp only [climbs_after, List.cons_append] at *
    exact ⟨h1.1, ih t h1.2 h2⟩

theorem climbs_append (l1 l2 : List Nat) (a m b : Nat)
    (h1 : climbs a l1 m) (h2 : climbs m l2 b) : climbs a (l1 ++ l2) b := by
  cases l1 with
  | nil =>
    simp only [climbs] at h1
    subst h1
    exact h2
  | cons c rest =>
    simp only [climbs, List.cons_append] at *
    exact ⟨h1.1, climbs_after_append rest l2 m b c h1.2 h2⟩

theorem split_glyphs_climbs (fontId : Nat) :
    ∀ (cps : List Nat) (i : Nat),
      climbs i ((split_glyphs fontId cps i).map hb_glyph.cluster) (i + cps.length) := by
  intro cps
  induction cps with
  | nil => intro i; simp [split_glyphs, climbs]
  | cons cp rest ih =>
    intro i
    unfold split_glyphs
    rw [List.map_append]
    have e : i + (cp :: rest).length = i + 1 + rest.length := by
      simp only [List.length_cons]; omega
    rw [e]
    refine climbs_append _ _ i (i + 1) _ ?_ (ih (i + 1))
    split <;> simp [climbs, climbs_after]

theorem split_context_shapes_in_order : shapes_in_order split_context := by
  intro f rtl script cps
  have := split_glyphs_climbs f.id cps 0
  simpa [split_context] using this

/-- C11 (counterexample): two documents whose shaper returns, in order, at
least one glyph per code point.  In the document "ab" followed by a line feed
the paragraph has the text span [0, 3) and the glyph range [0, 2); the source
ranges of the glyphs of that range are [0, 1) and [1, 2), which leave the last
byte of the paragraph uncovered: the glyph of the line feed, with source range
[2, 3), sits at the end index of the glyph range, outside it.  In the document
"ab" shaped through `split_context` the first pass has no glyph for `b` and the
fallback pass, which shapes `a` into two glyphs, hands its second glyph over by
index: the two glyphs of the paragraph both have the source range [0, 1) and
no glyph covers the byte of `b`. -/
theorem C11_paragraph_glyphs_leave_gap :
    (shapes_in_order sample_context ∧
      (sample_document "ab\n").iGlyphParagraphs
        = [{ text_start_index := 0, text_end_index := 3, start_index := 0, end_index := 2 }] ∧
      sources_of (sample_document "ab\n").iGlyphs 0 2 = [(0, 1), (1, 2)] ∧
      ¬ tiles 0 (sources_of (sample_document "ab\n").iGlyphs 0 2) (3 - 0) ∧
      (glyph_at (sample_document "ab\n").iGlyphs 2).source = (2, 3)) ∧
    (shapes_in_order split_context ∧
      split_document.iGlyphParagraphs
        = [{ text_start_index := 0, text_end_index := 2, start_index := 0, end_index := 2 }] ∧
      split_document.iGlyphs.length = 2 ∧
      sources_of split_document.iGlyphs 0 2 = [(0, 1), (0, 1)] ∧
      ¬ tiles 0 (sources_of split_document.iGlyphs 0 2) (2 - 0)) := by
  have h : sources_of (sample_document "ab\n").iGlyphs 0 2 = [(0, 1), (1, 2)] := by decide
  have h2 : sources_of split_document.iGlyphs 0 2 = [(0, 1), (0, 1)] := by decide
  refine ⟨⟨sample_context_shapes_in_order, by decide, h, ?_, by decide⟩,
    ⟨split_context_shapes_in_order, by decide, by decide, h2, ?_⟩⟩
  · rw [h]
    simp [tiles, tiles_after]
  · rw [h2]
    simp [tiles, tiles_after]

/-- C11 (amended): let `refresh_paragraph` shape through `to_glyph_text` of a
graphics context with no mnemonic marker configured, a decoder that reports the
code points in order, a shaper that returns, in order, at least one glyph per
code point, and a fallback pass that, when needed, yields the source ranges of
the first pass.  Then for every paragraph the glyphs shaped for it, which are
the glyphs of its glyph range followed by the glyph of its final line feed when
it has one, have source ranges that tile the byte span
`[0, text_end - text_start)` of the paragraph: the first range starts at 0,
every further range repeats the one before it or starts where that one ends,
the last one ends at the paragraph length, and no range is empty; in
particular the ranges are non-decreasing. -/
theorem C11_shaped_glyphs_tile_paragraph (gc : opengl_graphics_context) (h : host) (d : text_edit)
    (hh : h.to_glyph_text = gc.to_glyph_text) (hm : gc.iMnemonic = none)
    (hd : decodes_in_order gc) (hs : shapes_in_order gc) (ha : fallback_aligned gc) :
    ∀ P ∈ (d.refresh_paragraph h).iGlyphParagraphs,
      P.start_index ≤ d.shaped_end P ∧ d.shaped_end P ≤ (d.refresh_paragraph h).iGlyphs.length ∧
      tiles 0 (sources_of (d.refresh_paragraph h).iGlyphs P.start_index (d.shaped_end P))
        (P.text_end_index - P.text_start_index) ∧
      (sources_of (d.refresh_paragraph h).iGlyphs P.start_index (d.shaped_end P)).Chain'
        (fun x y => x.1 ≤ y.1 ∧ x.2 ≤ y.2) ∧
      ∀ s ∈ sources_of (d.refresh_paragraph h).iGlyphs P.start_index (d.shaped_end P),
        s.1 < s.2 ∧ s.2 ≤ P.text_end_index - P.text_start_index := by
  intro P hP
  obtain ⟨q1, q2, q3⟩ := refresh_paragraph_tiles h d
    (fun buf fs hne => by rw [hh]; exact to_glyph_text_tiles gc hd hm hs ha buf fs hne) P hP
  obtain ⟨c1, c2⟩ := tiles_sorted _ _ _ q3
  exact ⟨q1, q2, q3, c1, fun s hs => ⟨(c2 s hs).2.1, (c2 s hs).2.2⟩⟩

/-- C11 (amended), instance: the first paragraph of "ab", line feed, "cd",
shaped through the sample context; its three glyphs, the line feed's included,
tile the three bytes of the paragraph. -/
theorem C11_shaped_glyphs_tile_paragraph_witness :
    sample_host.to_glyph_text = sample_context.to_glyph_text ∧
    sample_context.iMnemonic = none ∧
    ({ text_start_index := 0, text_end_index := 3, start_index := 0, end_index := 2 } : glyph_paragraph)
      ∈ ((sample_document "ab\ncd").refresh_paragraph sample_host).iGlyphParagraphs ∧
    (0 ≤ (sample_document "ab\ncd").shaped_end
        { text_start_index := 0, text_end_index := 3, start_index := 0, end_index := 2 } ∧
      (sample_document "ab\ncd").shaped_end
          { text_start_index := 0, text_end_index := 3, start_index := 0, end_index := 2 }
        ≤ ((sample_document "ab\ncd").refresh_paragraph sample_host).iGlyphs.length ∧
      tiles 0 (sources_of ((sample_document "ab\ncd").refresh_paragraph sample_host).iGlyphs 0
          ((sample_document "ab\ncd").shaped_end
            { text_start_index := 0, text_end_index := 3, start_index := 0, end_index := 2 }))
        (3 - 0) ∧
      (sources_of ((sample_document "ab\ncd").refresh_paragraph sample_host).iGlyphs 0
          ((sample_document "ab\ncd").shaped_end
            { text_start_index := 0, text_end_index := 3, start_index := 0, end_index := 2 })).Chain'
        (fun x y => x.1 ≤ y.1 ∧ x.2 ≤ y.2) ∧
      ∀ s ∈ sources_of ((sample_document "ab\ncd").refresh_paragraph sample_host).iGlyphs 0
          ((sample_document "ab\ncd").shaped_end
            { text_start_index := 0, text_end_index := 3, start_index := 0, end_index := 2 }),
        s.1 < s.2 ∧ s.2 ≤ 3 - 0) :=
  ⟨rfl, rfl, by decide,
    C11_shaped_glyphs_tile_paragraph sample_context sample_host (sample_document "ab\ncd") rfl rfl
      sample_context_decodes_in_order sample_context_shapes_in_order sample_context_aligned
      { text_start_index := 0, text_end_index := 3, start_index := 0, end_index := 2 } (by decide)⟩

/-! ## Mnemonic stripping and the fallback pass (C22, C23) -/

/-- C22 (the code departs from the claim): with the marker `&` configured, the
text of two markers followed by `c` loses both markers: the only code point
left is `c`, flagged as the mnemonic, and the one glyph shaped for the text is
the mnemonic glyph of `c`.  A single marker followed by `c` is removed and `c`
is flagged, as the claim says. -/
theorem C22_marker_pair_is_removed_whole :
    mnemonic_context.decode "&&c".toList = [(99, { from_ := 2, flags := true })] ∧
    (mnemonic_context.to_glyph_text "&&c".toList
        (fun _ => { id := 0, height := 16, password := false, password_mask := [] })).map
        (fun g => (g.source, g.mnemonic))
      = [((2, 3), true)] ∧
    mnemonic_context.decode "&c".toList = [(99, { from_ := 1, flags := true })] := by
  decide

theorem merge_fallback_length :
    ∀ (result fallbackResult : List glyph),
      (merge_fallback result fallbackResult).length = result.length := by
  intro result
  induction result with
  | nil => intro _; rfl
  | cons g gs ih =>
    intro fb
    unfold merge_fallback
    rw [List.length_cons, List.length_cons, ih]

theorem merge_fallback_at :
    ∀ (result fallbackResult : List glyph) (i : Nat), i < result.length →
      glyph_at (merge_fallback result fallbackResult) i
        = if (glyph_at result i).use_fallback then
            { glyph_at fallbackResult i with use_fallback := true }
          else glyph_at result i := by
  intro result
  induction result with
  | nil => intro _ i hi; simp at hi
  | cons g gs ih =>
    intro fb i hi
    unfold merge_fallback
    cases i with
    | zero =>
      cases fb <;> rfl
    | succ i =>
      have := ih fb.tail i (by simpa using hi)
      have e1 : glyph_at ((if g.use_fallback = true then { fb.headD default with use_fallback := true }
          else g) :: merge_fallback gs fb.tail) (i + 1) = glyph_at (merge_fallback gs fb.tail) i := rfl
      have e2 : glyph_at (g :: gs) (i + 1) = glyph_at gs i := rfl
      have e3 : glyph_at fb (i + 1) = glyph_at fb.tail i := by
        cases fb <;> rfl
      rw [e1, e2, e3]
      exact this

/-- C23: when the first shaping pass of `to_glyph_text` reports that a fallback
is needed, the result has as many glyphs as the first pass; a glyph that did
not carry the use-fallback flag in the first pass is the glyph of the first
pass; and a glyph that carried it is the glyph at the same index of the
fallback pass (shaped with the fallback font of every character), where that
pass has one, with the use-fallback flag set. -/
theorem C23_fallback_replaces_flagged_glyphs (gc : opengl_graphics_context) (text : List Char)
    (aFontSelector : Nat → font) (hfb : (gc.to_glyph_text_impl text aFontSelector).2 = true) :
    (gc.to_glyph_text text aFontSelector).length = (gc.to_glyph_text_impl text aFontSelector).1.length ∧
    ∀ i, i < (gc.to_glyph_text_impl text aFontSelector).1.length →
      ((glyph_at (gc.to_glyph_text_impl text aFontSelector).1 i).use_fallback = false →
        glyph_at (gc.to_glyph_text text aFontSelector) i
          = glyph_at (gc.to_glyph_text_impl text aFontSelector).1 i) ∧
      ((glyph_at (gc.to_glyph_text_impl text aFontSelector).1 i).use_fallback = true →
        i < (gc.to_glyph_text_impl text (fun j => gc.fallback (aFontSelector j))).1.length →
        glyph_at (gc.to_glyph_text text aFontSelector) i
          = { glyph_at (gc.to_glyph_text_impl text (fun j => gc.fallback (aFontSelector j))).1 i with
              use_fallback := true }) := by
  have e : gc.to_glyph_text text aFontSelector
      = merge_fallback (gc.to_glyph_text_impl text aFontSelector).1
          (gc.to_glyph_text_impl text (fun j => gc.fallback (aFontSelector j))).1 := by
    unfold opengl_graphics_context.to_glyph_text
    simp only [hfb, if_true]
  rw [e]
  refine ⟨merge_fallback_length _ _, ?_⟩
  intro i hi
  rw [merge_fallback_at _ _ i hi]
  constructor
  · intro h0
    rw [h0]
    rfl
  · intro h1 _
    rw [h1]
    rfl

/-- C23, instance: "ab" shaped through `split_context`, whose first font has no
glyph for `b`: the fallback pass is needed and the second glyph is taken from
it. -/
theorem C23_fallback_replaces_flagged_glyphs_witness :
    (split_context.to_glyph_text "ab".toList
        (fun _ => { id := 0, height := 16, password := false, password_mask := [] })).length
      = (split_context.to_glyph_text_impl "ab".toList
          (fun _ => { id := 0, height := 16, password := false, password_mask := [] })).1.length ∧
    ∀ i, i < (split_context.to_glyph_text_impl "ab".toList
          (fun _ => { id := 0, height := 16, password := false, password_mask := [] })).1.length →
      ((glyph_at (split_context.to_glyph_text_impl "ab".toList
            (fun _ => { id := 0, height := 16, password := false, password_mask := [] })).1
          i).use_fallback = false →
        glyph_at (split_context.to_glyph_text "ab".toList
            (fun _ => { id := 0, height := 16, password := false, password_mask := [] })) i
          = glyph_at (split_context.to_glyph_text_impl "ab".toList
              (fun _ => { id := 0, height := 16, password := false, password_mask := [] })).1 i) ∧
      ((glyph_at (split_context.to_glyph_text_impl "ab".toList
            (fun _ => { id := 0, height := 16, password := false, password_mask := [] })).1
          i).use_fallback = true →
        i < (split_context.to_glyph_text_impl "ab".toList
            (fun j => split_context.fallback
              ((fun _ => { id := 0, height := 16, password := false, password_mask := [] }) j))).1.length →
        glyph_at (split_context.to_glyph_text "ab".toList
            (fun _ => { id := 0, height := 16, password := false, password_mask := [] })) i
          = { glyph_at (split_context.to_glyph_text_impl "ab".toList
                (fun j => split_context.fallback
                  ((fun _ => { id := 0, height := 16, password := false, password_mask := [] }) j))).1 i with
              use_fallback := true }) :=
  C23_fallback_replaces_flagged_glyphs split_context "ab".toList
    (fun _ => { id := 0, height := 16, password := false, password_mask := [] }) (by decide)

/-! ## The paragraph cache of `to_glyph` (C24) -/

/-- C24 (the code departs from the claim): in the rebuilt document "ab", line
feed, "cd" the text offset 1 lies in the first paragraph.  With that paragraph
cached `to_glyph(1)` is glyph 1; with the cache unset the search, which looks
for the first paragraph starting at or after the offset, lands on the second
paragraph and `to_glyph(1)` is glyph 4; with the second paragraph cached the
same search runs and gives glyph 4 too. -/
theorem C24_to_glyph_depends_on_cache :
    (document_of "ab\ncd" 0).iGlyphParagraphs
      = [{ text_start_index := 0, text_end_index := 3, start_index := 0, end_index := 2 },
         { text_start_index := 3, text_end_index := 5, start_index := 3, end_index := 5 }] ∧
    (document_of "ab\ncd" 0).iGlyphParagraphCache = none ∧
    ((document_of "ab\ncd" 0).to_glyph 1).1 = 4 ∧
    ({ document_of "ab\ncd" 0 with iGlyphParagraphCache := some 0 }.to_glyph 1).1 = 1 ∧
    ({ document_of "ab\ncd" 0 with iGlyphParagraphCache := some 1 }.to_glyph 1).1 = 4 := by
  decide

/-! ## Vertical offsets of the visual lines (C21) -/

theorem running_offsets_append (ls : List glyph_line) (l : glyph_line)
    (h : running_offsets ls) (hl : l.y = lines_height ls) : running_offsets (ls ++ [l]) := by
  intro k hk
  rw [List.length_append, List.length_singleton] at hk
  by_cases hlt : k < ls.length
  · have e1 : line_at (ls ++ [l]) k = line_at ls k := by
      unfold line_at
      exact List.getD_append ls [l] default k hlt
    rw [e1, List.take_append_of_le_length (by omega)]
    exact h k hlt
  · have hk2 : k = ls.length := by omega
    subst hk2
    have e1 : line_at (ls ++ [l]) ls.length = l := by
      unfold line_at
      rw [List.getD_append_right ls [l] default ls.length (le_refl _)]
      simp
    rw [e1, List.take_left]
    exact hl

theorem wrap_loop_offsets (d : text_edit) (p : glyph_paragraph) (availableWidth : Int) :
    ∀ fuel s s', s.y = lines_height s.lines → running_offsets s.lines →
      d.wrap_loop p availableWidth fuel s = some s' → running_offsets s'.lines := by
  have hstep : ∀ s : wrap_state, s.y = lines_height s.lines → running_offsets s.lines →
      (d.wrap_step p availableWidth s).y = lines_height (d.wrap_step p availableWidth s).lines ∧
      running_offsets (d.wrap_step p availableWidth s).lines := by
    intro s hs hr
    constructor
    · unfold text_edit.wrap_step
      simp only [lines_height, List.map_append, List.sum_append, List.map_cons, List.map_nil,
        List.sum_cons, List.sum_nil, add_zero]
      rw [hs]
      rfl
    · unfold text_edit.wrap_step
      exact running_offsets_append _ _ hr hs
  intro fuel
  induction fuel with
  | zero =>
    intro s s' _ hr hres
    unfold text_edit.wrap_loop at hres
    split at hres
    · exact Option.noConfusion hres
    · simp only [Option.some.injEq] at hres
      subst hres
      exact hr
  | succ n ih =>
    intro s s' hs hr hres
    unfold text_edit.wrap_loop at hres
    split at hres
    · exact ih _ _ (hstep s hs hr).1 (hstep s hs hr).2 hres
    · simp only [Option.some.injEq] at hres
      subst hres
      exact hr

theorem refresh_lines_paragraph_offsets (d : text_edit) (availableWidth : Int) (fuel : Nat)
    (p : glyph_paragraph) (acc acc' : List glyph_line × Int × Int)
    (hacc : acc.2.1 = lines_height acc.1) (hr : running_offsets acc.1)
    (hres : d.refresh_lines_paragraph availableWidth fuel p acc = some acc') :
    running_offsets acc'.1 := by
  unfold text_edit.refresh_lines_paragraph at hres
  simp only at hres
  split at hres
  · simp only [Option.some.injEq] at hres
    subst hres
    exact running_offsets_append _ _ hr hacc
  · split at hres
    · split at hres
      · rename_i s hs
        simp only [Option.some.injEq] at hres
        subst hres
        exact wrap_loop_offsets d p availableWidth fuel _ s hacc hr hs
      · exact Option.noConfusion hres
    · simp only [Option.some.injEq] at hres
      subst hres
      exact running_offsets_append _ _ hr hacc

theorem refresh_lines_loop_offsets (d : text_edit) (availableWidth : Int) (fuel : Nat) :
    ∀ (ps : List glyph_paragraph) (acc acc' : List glyph_line × Int × Int),
      acc.2.1 = lines_height acc.1 → running_offsets acc.1 →
      d.refresh_lines_loop availableWidth fuel ps acc = some acc' →
      running_offsets acc'.1 := by
  intro ps
  induction ps with
  | nil =>
    intro acc acc' _ hr hres
    simp only [text_edit.refresh_lines_loop, Option.some.injEq] at hres
    subst hres
    exact hr
  | cons p ps ih =>
    intro acc acc' hacc hr hres
    unfold text_edit.refresh_lines_loop at hres
    split at hres
    · rename_i acc1 h1
      exact ih acc1 acc' (refresh_lines_paragraph_height d availableWidth fuel p acc acc1 hacc h1)
        (refresh_lines_paragraph_offsets d availableWidth fuel p acc acc1 hacc hr h1) hres
    · exact Option.noConfusion hres

theorem refresh_lines_loop_no_wrap (d : text_edit) (availableWidth : Int) (fuel : Nat)
    (hw : d.iWordWrap = false) :
    ∀ (ps : List glyph_paragraph) (acc : List glyph_line × Int × Int),
      ∃ acc', d.refresh_lines_loop availableWidth fuel ps acc = some acc' := by
  intro ps
  induction ps with
  | nil => intro acc; exact ⟨acc, rfl⟩
  | cons p ps ih =>
    intro acc
    have h1 : ∃ acc1, d.refresh_lines_paragraph availableWidth fuel p acc = some acc1 := by
      unfold text_edit.refresh_lines_paragraph
      simp only [hw]
      split
      · exact ⟨_, rfl⟩
      · exact ⟨_, rfl⟩
    obtain ⟨acc1, e1⟩ := h1
    obtain ⟨acc2, e2⟩ := ih acc1
    refine ⟨acc2, ?_⟩
    unfold text_edit.refresh_lines_loop
    rw [e1]
    exact e2

/-- C21: in the line list produced by `refresh_lines` the first line has
vertical offset 0 and every later line has as vertical offset the sum of the
heights of all lines before it, with word wrap on or off; without word wrap the
layout is always produced, with word wrap it is produced when every paragraph
has enough passes and no two adjacent glyphs of a paragraph share a source
range. -/
theorem C21_line_offsets_are_running_sums (d : text_edit) (availableWidth : Int) (fuel : Nat) :
    (∀ d' ∈ d.refresh_lines availableWidth fuel,
      (∀ k, k < d'.iGlyphLines.length →
        (line_at d'.iGlyphLines k).y = lines_height (d'.iGlyphLines.take k)) ∧
      (d'.iGlyphLines ≠ [] → (line_at d'.iGlyphLines 0).y = 0)) ∧
    (d.iWordWrap = false → (d.refresh_lines availableWidth fuel).isSome = true) ∧
    ((∀ p ∈ d.iGlyphParagraphs, p.start_index ≤ p.end_index ∧ p.end_index - p.start_index ≤ fuel ∧
        d.distinct_sources p) → (d.refresh_lines availableWidth fuel).isSome = true) := by
  refine ⟨?_, ?_, ?_⟩
  · intro d' hd'
    rw [Option.mem_def] at hd'
    unfold text_edit.refresh_lines at hd'
    split at hd'
    · exact Option.noConfusion hd'
    · rename_i r hr
      simp only [Option.some.injEq] at hd'
      subst hd'
      have hro := refresh_lines_loop_offsets d availableWidth fuel d.iGlyphParagraphs ([], 0, 0) r rfl
        (fun k hk => by simp at hk) hr
      refine ⟨hro, ?_⟩
      intro hne
      have := hro 0 (List.length_pos.2 hne)
      rw [this]
      rfl
  · intro hw
    obtain ⟨acc', e⟩ := refresh_lines_loop_no_wrap d availableWidth fuel hw d.iGlyphParagraphs ([], 0, 0)
    unfold text_edit.refresh_lines
    rw [e]
    rfl
  · intro h
    obtain ⟨acc', e⟩ := refresh_lines_loop_terminates d availableWidth fuel d.iGlyphParagraphs
      ([], 0, 0) h
    unfold text_edit.refresh_lines
    rw [e]
    rfl

/-! ## Deleting the selection (C29) -/

theorem find_from_first (p : Nat → Bool) (n t : Nat) (ht : t < n) (hp : p t = true)
    (hfirst : ∀ j, j < t → p j = false) : find_from p 0 n = some t := by
  cases hf : find_from p 0 n with
  | none =>
    have := find_from_none p n 0 hf t (Nat.zero_le _) (by omega)
    rw [hp] at this
    exact Bool.noConfusion this
  | some r =>
    obtain ⟨_, h2, h3, h4⟩ := find_from_some p n 0 r hf
    by_cases hrt : r = t
    · rw [hrt]
    · by_cases hlt : r < t
      · have := hfirst r hlt
        rw [h3] at this
        exact Bool.noConfusion this
      · have := h4 t (Nat.zero_le _) (by omega)
        rw [hp] at this
        exact Bool.noConfusion this

theorem position_line (d : text_edit) (aPosition : Nat) :
    (d.position aPosition).line
      = (find_from (fun l => aPosition ≥ (line_at d.iGlyphLines l).start
            && aPosition ≤ (line_at d.iGlyphLines l).end_) 0 d.iGlyphLines.length).getD
          d.iGlyphLines.length := by
  unfold text_edit.position
  split
  · rename_i l hl
    rw [hl]
    simp only
    split <;> rfl
  · rename_i hl
    rw [hl]
    rfl

/-- C28 (counterexample): "abcd" with glyphs 10 wide, wrapped in a width of 25,
has the visual lines [0, 2) and [2, 4): the second line starts at the glyph
index where the first one ends.  From the cursor position 3 StartOfLine moves
to 2, and a second StartOfLine moves on to 0. -/
theorem C28_start_of_line_twice_moves_on :
    (wrapped_document "abcd" 25 3).iGlyphLines.map (fun l => (l.start, l.end_)) = [(0, 2), (2, 4)] ∧
    ((wrapped_document "abcd" 25 3).move_cursor move_operation_e.StartOfLine true).iCursor
      = { iPosition := 2, iAnchor := 2 } ∧
    (((wrapped_document "abcd" 25 3).move_cursor move_operation_e.StartOfLine true).move_cursor
        move_operation_e.StartOfLine true).iCursor
      = { iPosition := 0, iAnchor := 0 } := by
  decide

theorem move_cursor_start_of_line (d : text_edit) (aMoveAnchor : Bool) (hne : d.iGlyphs ≠ []) :
    d.move_cursor move_operation_e.StartOfLine aMoveAnchor
      = if (line_at d.iGlyphLines (d.position d.iCursor.position).line).start
            ≠ (line_at d.iGlyphLines (d.position d.iCursor.position).line).end_
        then
          { d with
            iCursor := d.iCursor.set_position
              (line_at d.iGlyphLines (d.position d.iCursor.position).line).start aMoveAnchor }
        else d := by
  unfold text_edit.move_cursor
  rw [if_neg hne]

/-- C28 (amended): when no visual line before the line of the cursor holds the
start of that line in its inclusive glyph range, applying
`move_cursor(StartOfLine)` twice leaves the cursor, and the document, where one
application leaves it. -/
theorem C28_start_of_line_idempotent (d : text_edit) (aMoveAnchor : Bool)
    (hfirst : ∀ j, j < (d.position d.iCursor.position).line →
      ¬ ((line_at d.iGlyphLines j).start
            ≤ (line_at d.iGlyphLines (d.position d.iCursor.position).line).start ∧
          (line_at d.iGlyphLines (d.position d.iCursor.position).line).start
            ≤ (line_at d.iGlyphLines j).end_)) :
    (d.move_cursor move_operation_e.StartOfLine aMoveAnchor).move_cursor
        move_operation_e.StartOfLine aMoveAnchor
      = d.move_cursor move_operation_e.StartOfLine aMoveAnchor := by
  by_cases hne : d.iGlyphs = []
  · have e : d.move_cursor move_operation_e.StartOfLine aMoveAnchor = d := by
      unfold text_edit.move_cursor
      rw [if_pos hne]
    rw [e, e]
  · rw [move_cursor_start_of_line d aMoveAnchor hne]
    by_cases hse : (line_at d.iGlyphLines (d.position d.iCursor.position).line).start
        ≠ (line_at d.iGlyphLines (d.position d.iCursor.position).line).end_
    · rw [if_pos hse]
      have hk := position_line d d.iCursor.position
      generalize hkdef : (d.position d.iCursor.position).line = k at hk hse hfirst
      have hfound : find_from (fun l => d.iCursor.position ≥ (line_at d.iGlyphLines l).start
            && d.iCursor.position ≤ (line_at d.iGlyphLines l).end_) 0 d.iGlyphLines.length = some k := by
        cases hf : find_from (fun l => d.iCursor.position ≥ (line_at d.iGlyphLines l).start
            && d.iCursor.position ≤ (line_at d.iGlyphLines l).end_) 0 d.iGlyphLines.length with
        | none =>
          rw [hf] at hk
          simp only [Option.getD_none] at hk
          exfalso
          apply hse
          rw [hk]
          unfold line_at
          rw [List.getD_eq_default _ _ (le_refl _)]
          rfl
        | some r =>
          rw [hf] at hk
          simp only [Option.getD_some] at hk
          rw [hk]
      obtain ⟨_, f2, f3, _⟩ := find_from_some _ _ 0 k hfound
      simp only [ge_iff_le, Bool.and_eq_true, decide_eq_true_eq] at f3
      have hline : ((({ d with
            iCursor := d.iCursor.set_position (line_at d.iGlyphLines k).start aMoveAnchor }
              : text_edit).position
          (line_at d.iGlyphLines k).start).line) = k := by
        rw [position_line]
        show (find_from (fun l => (line_at d.iGlyphLines k).start ≥ (line_at d.iGlyphLines l).start
            && (line_at d.iGlyphLines k).start ≤ (line_at d.iGlyphLines l).end_) 0
              d.iGlyphLines.length).getD d.iGlyphLines.length = k
        rw [find_from_first _ _ k (by omega)
          (by simp only [ge_iff_le, Bool.and_eq_true, decide_eq_true_eq]; omega)
          (fun j hj => by
            have := hfirst j hj
            simp only [ge_iff_le, Bool.and_eq_false_iff, decide_eq_false_iff_not]
            by_contra hcon
            push_neg at hcon
            exact this ⟨hcon.1, hcon.2⟩)]
        rfl
      have hne1 : ({ d with
            iCursor := d.iCursor.set_position (line_at d.iGlyphLines k).start aMoveAnchor }
              : text_edit).iGlyphs ≠ [] := hne
      rw [move_cursor_start_of_line _ aMoveAnchor hne1]
      have hpos : ({ d with
            iCursor := d.iCursor.set_position (line_at d.iGlyphLines k).start aMoveAnchor }
              : text_edit).iCursor.position
          = (line_at d.iGlyphLines k).start := rfl
      rw [hpos, hline]
      show (if (line_at d.iGlyphLines k).start ≠ (line_at d.iGlyphLines k).end_ then _ else _) = _
      rw [if_pos hse]
      cases aMoveAnchor <;> rfl
    · rw [if_neg hse, move_cursor_start_of_line d aMoveAnchor hne, if_neg hse]

/-- C28 (amended), instance: in "ab cd" wrapped in a width of 35 the lines are
[0, 2) and [3, 5); from the cursor position 4 StartOfLine moves to 3 and stays
there. -/
theorem C28_start_of_line_idempotent_witness :
    (wrapped_document "ab cd" 35 4).iGlyphLines.map (fun l => (l.start, l.end_)) = [(0, 2), (3, 5)] ∧
    ((wrapped_document "ab cd" 35 4).move_cursor move_operation_e.StartOfLine true).iCursor
      = { iPosition := 3, iAnchor := 3 } ∧
    ((wrapped_document "ab cd" 35 4).move_cursor move_operation_e.StartOfLine true).move_cursor
        move_operation_e.StartOfLine true
      = (wrapped_document "ab cd" 35 4).move_cursor move_operation_e.StartOfLine true :=
  ⟨by decide, by decide,
    C28_start_of_line_idempotent (wrapped_document "ab cd" 35 4) true (by
      have hk : ((wrapped_document "ab cd" 35 4).position
          (wrapped_document "ab cd" 35 4).iCursor.position).line = 1 := by decide
      rw [hk]
      intro j hj
      interval_cases j
      decide)⟩

/-! ## The runs partition the code points (C30) -/

/-- The first pass of the segmentation loop pushes no run unless the first code
point is also the last: neither the font nor the script has changed, and the
direction of the code point cannot flip against itself when the classifier
does not give an override code the direction opposite to the one it imposes. -/
theorem run_step_first (gc : opengl_graphics_context) (aFontSelector : Nat → font)
    (clusterMap : List cluster) (lastCodePointIndex : Nat) (codePoints : List Nat)
    (hpw : (aFontSelector (clusterMap.getD 0 default).from_).password = false)
    (hlast : 0 ≠ lastCodePointIndex)
    (hLRO : gc.get_text_direction 0x202D ≠ text_direction.RTL)
    (hRLO : gc.get_text_direction 0x202E ≠ text_direction.LTR) :
    (run_step gc aFontSelector clusterMap lastCodePointIndex
        { codePoints := codePoints
          textDirections := []
          runs := []
          previousDirection := gc.get_text_direction (codePoints.getD 0 0)
          runStart := 0
          previousFont := aFontSelector (clusterMap.getD 0 default).from_
          previousScript :=
            gc.hb_unicode_script (aFontSelector (clusterMap.getD 0 default).from_) (codePoints.getD 0 0)
          directionStack := []
          currentLineHasLTR := false } 0).runs = [] ∧
    (run_step gc aFontSelector clusterMap lastCodePointIndex
        { codePoints := codePoints
          textDirections := []
          runs := []
          previousDirection := gc.get_text_direction (codePoints.getD 0 0)
          runStart := 0
          previousFont := aFontSelector (clusterMap.getD 0 default).from_
          previousScript :=
            gc.hb_unicode_script (aFontSelector (clusterMap.getD 0 default).from_) (codePoints.getD 0 0)
          directionStack := []
          currentLineHasLTR := false } 0).runStart = 0 := by
  unfold run_step
  simp only [hpw, Bool.false_eq_true, if_false, List.tail_nil]
  generalize codePoints.getD 0 0 = cp
  cases hd : gc.get_text_direction cp <;>
    by_cases c1 : cp = 0x202C <;> by_cases c2 : cp = 0x202A <;> by_cases c3 : cp = 0x202B <;>
    by_cases c4 : cp = 0x202D <;> by_cases c5 : cp = 0x202E <;>
    first
    | omega
    | (subst c4; exact absurd hd hLRO)
    | (subst c5; exact absurd hd hRLO)
    | simp [hd, c1, c2, c3, c4, c5, bidi_check, hlast]

theorem links_snoc_nonempty (r : run) (rs : List run) (hr : r.start < r.end_)
    (h : ∀ q ∈ rs, q.start < q.end_) : ∀ q ∈ rs ++ [r], q.start < q.end_ := by
  intro q hq
  rcases List.mem_append.1 hq with hq | hq
  · exact h q hq
  · simp only [List.mem_singleton] at hq
    rw [hq]
    exact hr

theorem segment_runs_fold_nonempty (gc : opengl_graphics_context) (aFontSelector : Nat → font)
    (clusterMap : List cluster) (lastCodePointIndex : Nat) (codePoints : List Nat)
    (hpw : (aFontSelector (clusterMap.getD 0 default).from_).password = false)
    (hLRO : gc.get_text_direction 0x202D ≠ text_direction.RTL)
    (hRLO : gc.get_text_direction 0x202E ≠ text_direction.LTR) :
    ∀ k, k ≤ lastCodePointIndex →
      ∃ e, links 0 ((List.range (k + 1)).foldl
            (run_step gc aFontSelector clusterMap lastCodePointIndex)
            { codePoints := codePoints
              textDirections := []
              runs := []
              previousDirection := gc.get_text_direction (codePoints.getD 0 0)
              runStart := 0
              previousFont := aFontSelector (clusterMap.getD 0 default).from_
              previousScript :=
                gc.hb_unicode_script (aFontSelector (clusterMap.getD 0 default).from_)
                  (codePoints.getD 0 0)
              directionStack := []
              currentLineHasLTR := false }).runs e ∧
        (∀ q ∈ ((List.range (k + 1)).foldl
            (run_step gc aFontSelector clusterMap lastCodePointIndex)
            { codePoints := codePoints
              textDirections := []
              runs := []
              previousDirection := gc.get_text_direction (codePoints.getD 0 0)
              runStart := 0
              previousFont := aFontSelector (clusterMap.getD 0 default).from_
              previousScript :=
                gc.hb_unicode_script (aFontSelector (clusterMap.getD 0 default).from_)
                  (codePoints.getD 0 0)
              directionStack := []
              currentLineHasLTR := false }).runs, q.start < q.end_) ∧
        (k + 1 ≤ lastCodePointIndex →
          e = ((List.range (k + 1)).foldl
            (run_step gc aFontSelector clusterMap lastCodePointIndex)
            { codePoints := codePoints
              textDirections := []
              runs := []
              previousDirection := gc.get_text_direction (codePoints.getD 0 0)
              runStart := 0
              previousFont := aFontSelector (clusterMap.getD 0 default).from_
              previousScript :=
                gc.hb_unicode_script (aFontSelector (clusterMap.getD 0 default).from_)
                  (codePoints.getD 0 0)
              directionStack := []
              currentLineHasLTR := false }).runStart ∧ e < k + 1) ∧
        (k = lastCodePointIndex → e = lastCodePointIndex + 1) := by
  intro k
  induction k with
  | zero =>
    intro _
    rw [List.range_succ, List.range_zero, List.nil_append, List.foldl_cons, List.foldl_nil]
    by_cases hl : 0 = lastCodePointIndex
    · obtain ⟨newRun, n1, n2, n3, _⟩ := run_step_runs gc aFontSelector clusterMap lastCodePointIndex
        { codePoints := codePoints
          textDirections := []
          runs := []
          previousDirection := gc.get_text_direction (codePoints.getD 0 0)
          runStart := 0
          previousFont := aFontSelector (clusterMap.getD 0 default).from_
          previousScript :=
            gc.hb_unicode_script (aFontSelector (clusterMap.getD 0 default).from_) (codePoints.getD 0 0)
          directionStack := []
          currentLineHasLTR := false } 0
      rw [n2, n3, n1 hl]
      simp only [if_true, List.nil_append]
      rw [if_neg (by simpa using hl)]
      refine ⟨1, ?_, ?_, ?_, ?_⟩
      · simp [links]
      · intro q hq
        simp only [List.mem_singleton] at hq
        rw [hq]
        show (0 : Nat) < 0 + 1
        omega
      · intro h
        omega
      · intro _
        omega
    · obtain ⟨r1, r2⟩ := run_step_first gc aFontSelector clusterMap lastCodePointIndex codePoints hpw hl
        hLRO hRLO
      rw [r1, r2]
      refine ⟨0, ?_, ?_, ?_, ?_⟩
      · simp [links]
      · intro q hq
        simp at hq
      · intro _
        exact ⟨rfl, by omega⟩
      · intro h
        exact absurd h hl
  | succ k ih =>
    intro hk
    obtain ⟨e, l1, l2, l3, _⟩ := ih (by omega)
    obtain ⟨l3a, l3b⟩ := l3 (by omega)
    subst l3a
    rw [List.range_succ, List.foldl_append, List.foldl_cons, List.foldl_nil]
    obtain ⟨newRun, n1, n2, n3, _⟩ := run_step_runs gc aFontSelector clusterMap lastCodePointIndex
      ((List.range (k + 1)).foldl (run_step gc aFontSelector clusterMap lastCodePointIndex)
        { codePoints := codePoints
          textDirections := []
          runs := []
          previousDirection := gc.get_text_direction (codePoints.getD 0 0)
          runStart := 0
          previousFont := aFontSelector (clusterMap.getD 0 default).from_
          previousScript :=
            gc.hb_unicode_script (aFontSelector (clusterMap.getD 0 default).from_) (codePoints.getD 0 0)
          directionStack := []
          currentLineHasLTR := false }) (k + 1)
    rw [n2, n3]
    generalize hs : (List.range (k + 1)).foldl (run_step gc aFontSelector clusterMap lastCodePointIndex)
        { codePoints := codePoints
          textDirections := []
          runs := []
          previousDirection := gc.get_text_direction (codePoints.getD 0 0)
          runStart := 0
          previousFont := aFontSelector (clusterMap.getD 0 default).from_
          previousScript :=
            gc.hb_unicode_script (aFontSelector (clusterMap.getD 0 default).from_) (codePoints.getD 0 0)
          directionStack := []
          currentLineHasLTR := false } = s at l1 l2 l3b n1 ⊢
    cases newRun with
    | true =>
      simp only [if_true]
      have hr : s.runStart < (if k + 1 ≠ lastCodePointIndex then k + 1 else k + 1 + 1) := by
        split <;> omega
      refine ⟨if k + 1 ≠ lastCodePointIndex then k + 1 else k + 1 + 1, ?_, ?_, ?_, ?_⟩
      · exact links_append
          { start := s.runStart
            end_ := if k + 1 ≠ lastCodePointIndex then k + 1 else k + 1 + 1
            direction := s.previousDirection, script := s.previousScript }
          (le_of_lt hr) _ 0 l1
      · exact links_snoc_nonempty
          { start := s.runStart
            end_ := if k + 1 ≠ lastCodePointIndex then k + 1 else k + 1 + 1
            direction := s.previousDirection, script := s.previousScript } _ hr l2
      · intro h
        rw [if_pos (by omega)]
        exact ⟨rfl, by omega⟩
      · intro h
        rw [if_neg (by omega)]
        omega
    | false =>
      have hne : k + 1 ≠ lastCodePointIndex := fun h => Bool.noConfusion (n1 h)
      simp only [Bool.false_eq_true, if_false]
      refine ⟨_, l1, l2, ?_, ?_⟩
      · intro _
        exact ⟨rfl, by omega⟩
      · intro h
        exact absurd h hne

theorem links_chain (rs : List run) (b : Nat) :
    ∀ a, links a rs b →
      (∀ r ∈ rs.head?, r.start = a) ∧ rs.Chain' (fun x y => x.end_ = y.start) ∧
      (∀ r ∈ rs.getLast?, r.end_ = b) ∧ (rs = [] → a = b) := by
  induction rs with
  | nil =>
    intro a h
    simp only [links] at h
    exact ⟨by simp, List.chain'_nil, by simp, fun _ => h⟩
  | cons r rest ih =>
    intro a h
    simp only [links] at h
    obtain ⟨i1, i2, i3, i4⟩ := ih r.end_ h.2.2
    refine ⟨?_, ?_, ?_, by simp⟩
    · intro q hq
      simp only [List.head?_cons, Option.mem_def, Option.some.injEq] at hq
      rw [← hq]
      exact h.1
    · rw [List.chain'_cons']
      refine ⟨?_, i2⟩
      intro y hy
      exact (i1 y hy).symm
    · intro q hq
      cases rest with
      | nil =>
        simp only [List.getLast?_singleton, Option.mem_def, Option.some.injEq] at hq
        rw [← hq]
        exact i4 rfl
      | cons r2 rest2 =>
        rw [List.getLast?_cons_cons] at hq
        exact i3 q hq

theorem links_count (rs : List run) (b : Nat) :
    ∀ a, links a rs b → (∀ r ∈ rs, r.start < r.end_) →
      (∀ c, c < a → (rs.filter (fun r => decide (r.start ≤ c ∧ c < r.end_))).length = 0) ∧
      (∀ c, a ≤ c → c < b → (rs.filter (fun r => decide (r.start ≤ c ∧ c < r.end_))).length = 1) := by
  induction rs with
  | nil =>
    intro a h _
    simp only [links] at h
    refine ⟨fun c _ => rfl, ?_⟩
    intro c h1 h2
    omega
  | cons r rest ih =>
    intro a h hne
    simp only [links] at h
    have hr := hne r (List.mem_cons_self _ _)
    obtain ⟨i1, i2⟩ := ih r.end_ h.2.2 (fun q hq => hne q (List.mem_cons_of_mem _ hq))
    constructor
    · intro c hc
      rw [List.filter_cons_of_neg (by simp only [decide_eq_true_eq]; omega)]
      exact i1 c (by omega)
    · intro c h1 h2
      by_cases hc : c < r.end_
      · rw [List.filter_cons_of_pos (by simp only [decide_eq_true_eq]; omega), List.length_cons,
          i1 c hc]
      · rw [List.filter_cons_of_neg (by simp only [decide_eq_true_eq]; omega)]
        exact i2 c (by omega) h2

/-- C30: for a non-empty code point sequence and fonts that are not in password
mode, the runs built by the segmentation loop of `to_glyph_text_impl` partition
the sequence: there is at least one run, every run is non-empty, the first run
starts at code point 0, every run starts where the one before it ends, the
last run ends at the end of the sequence, and every code point lies in exactly
one run.  The classifier is taken not to give the override codes U+202D and
U+202E the direction opposite to the one they impose. -/
theorem C30_runs_partition_code_points (gc : opengl_graphics_context) (aFontSelector : Nat → font)
    (clusterMap : List cluster) (codePoints : List Nat) (hne : codePoints ≠ [])
    (hpw : ∀ i, (aFontSelector i).password = false)
    (hLRO : gc.get_text_direction 0x202D ≠ text_direction.RTL)
    (hRLO : gc.get_text_direction 0x202E ≠ text_direction.LTR) :
    (segment_runs gc aFontSelector clusterMap codePoints).runs ≠ [] ∧
    (∀ r ∈ (segment_runs gc aFontSelector clusterMap codePoints).runs, r.start < r.end_) ∧
    (∀ r ∈ (segment_runs gc aFontSelector clusterMap codePoints).runs.head?, r.start = 0) ∧
    (segment_runs gc aFontSelector clusterMap codePoints).runs.Chain'
      (fun x y => x.end_ = y.start) ∧
    (∀ r ∈ (segment_runs gc aFontSelector clusterMap codePoints).runs.getLast?,
      r.end_ = codePoints.length) ∧
    (∀ c, c < codePoints.length →
      ((segment_runs gc aFontSelector clusterMap codePoints).runs.filter
        (fun r => decide (r.start ≤ c ∧ c < r.end_))).length = 1) := by
  have hpos : 0 < codePoints.length := List.length_pos.2 hne
  obtain ⟨e, l1, l2, _, l4⟩ := segment_runs_fold_nonempty gc aFontSelector clusterMap
    (codePoints.length - 1) codePoints (hpw _) hLRO hRLO (codePoints.length - 1) (le_refl _)
  have he := l4 rfl
  have e2 : codePoints.length - 1 + 1 = codePoints.length := by omega
  rw [he, e2] at l1
  rw [e2] at l2
  have hruns : (segment_runs gc aFontSelector clusterMap codePoints).runs
      = ((List.range codePoints.length).foldl
          (run_step gc aFontSelector clusterMap (codePoints.length - 1))
          { codePoints := codePoints
            textDirections := []
            runs := []
            previousDirection := gc.get_text_direction (codePoints.getD 0 0)
            runStart := 0
            previousFont := aFontSelector (clusterMap.getD 0 default).from_
            previousScript :=
              gc.hb_unicode_script (aFontSelector (clusterMap.getD 0 default).from_)
                (codePoints.getD 0 0)
            directionStack := []
            currentLineHasLTR := false }).runs := rfl
  rw [hruns]
  obtain ⟨c1, c2, c3, c4⟩ := links_chain _ _ 0 l1
  obtain ⟨_, k2⟩ := links_count _ _ 0 l1 l2
  refine ⟨?_, l2, c1, c2, c3, fun c hc => k2 c (Nat.zero_le _) hc⟩
  intro h0
  have := c4 h0
  omega

/-- C30, instance: the five code points A, U+202B, bet, U+202C, B under one
font, classified by the sample context. -/
theorem C30_runs_partition_code_points_witness :
    (segment_runs sample_context
        (fun _ => { id := 0, height := 16, password := false, password_mask := [] })
        [{ from_ := 0, flags := false }, { from_ := 1, flags := false }, { from_ := 4, flags := false },
          { from_ := 6, flags := false }, { from_ := 9, flags := false }]
        [0x41, 0x202B, 0x5D1, 0x202C, 0x42]).runs ≠ [] ∧
    (∀ r ∈ (segment_runs sample_context
        (fun _ => { id := 0, height := 16, password := false, password_mask := [] })
        [{ from_ := 0, flags := false }, { from_ := 1, flags := false }, { from_ := 4, flags := false },
          { from_ := 6, flags := false }, { from_ := 9, flags := false }]
        [0x41, 0x202B, 0x5D1, 0x202C, 0x42]).runs, r.start < r.end_) :=
  ⟨(C30_runs_partition_code_points sample_context
      (fun _ => { id := 0, height := 16, password := false, password_mask := [] })
      [{ from_ := 0, flags := false }, { from_ := 1, flags := false }, { from_ := 4, flags := false },
        { from_ := 6, flags := false }, { from_ := 9, flags := false }]
      [0x41, 0x202B, 0x5D1, 0x202C, 0x42] (by decide) (fun _ => rfl) (by decide) (by decide)).1,
    (C30_runs_partition_code_points sample_context
      (fun _ => { id := 0, height := 16, password := false, password_mask := [] })
      [{ from_ := 0, flags := false }, { from_ := 1, flags := false }, { from_ := 4, flags := false },
        { from_ := 6, flags := false }, { from_ := 9, flags := false }]
      [0x41, 0x202B, 0x5D1, 0x202C, 0x42] (by decide) (fun _ => rfl) (by decide) (by decide)).2.1⟩

/-! ## Word moves (C27) -/

theorem getElem?_glyph_at (gs : List glyph) (i : Nat) (h : i < gs.length) :
    gs[i]? = some (glyph_at gs i) := by
  unfold glyph_at
  rw [List.getD_eq_getElem?_getD, List.getElem?_eq_getElem h]
  rfl

theorem skip_back_here_eq (gs : List glyph) (cond : glyph → Bool) :
    ∀ p, p < gs.length →
      skip_back_here gs cond p = some (scan_back (fun i => cond (glyph_at gs i)) 0 p) := by
  intro p
  induction p with
  | zero => intro _; rfl
  | succ p ih =>
    intro hp
    unfold skip_back_here scan_back
    rw [getElem?_glyph_at gs (p + 1) hp]
    simp only [ne_eq, Nat.add_one_ne_zero, not_false_eq_true, true_and]
    split
    · exact ih (by omega)
    · rfl

theorem skip_back_before_eq (gs : List glyph) (cond : glyph → Bool) :
    ∀ p, p ≤ gs.length →
      skip_back_before gs cond p = some (scan_back (fun i => cond (glyph_at gs (i - 1))) 0 p) := by
  intro p
  induction p with
  | zero => intro _; rfl
  | succ p ih =>
    intro hp
    unfold skip_back_before scan_back
    rw [getElem?_glyph_at gs p (by omega)]
    simp only [ne_eq, Nat.add_one_ne_zero, not_false_eq_true, true_and, Nat.add_sub_cancel]
    split
    · exact ih (by omega)
    · rfl

theorem skip_forward_eq (gs : List glyph) (cond : glyph → Bool) :
    ∀ fuel p, p + fuel = gs.length →
      skip_forward gs cond fuel p
        = some (scan_forward (fun i => cond (glyph_at gs i)) gs.length fuel p) := by
  intro fuel
  induction fuel with
  | zero => intro p _; rfl
  | succ fuel ih =>
    intro p hp
    unfold skip_forward scan_forward
    rw [if_pos (by omega), getElem?_glyph_at gs p (by omega)]
    simp only
    by_cases hc : cond (glyph_at gs p) = true
    · rw [if_pos hc, if_pos ⟨hc, by omega⟩]
      exact ih (p + 1) (by omega)
    · rw [if_neg hc, if_neg (fun h => hc h.1)]

theorem previous_word_inner (gs : List glyph) (dir : text_direction) (p2 : Nat)
    (h : p2 ≤ gs.length) :
    (if p2 > 0 ∧ dir = text_direction.Whitespace then
        (gs[p2 - 1]?).bind fun g3 =>
          skip_back_before gs (fun g2 => decide (g2.direction = g3.direction)) p2
      else some p2)
      = some (if p2 > 0 ∧ dir = text_direction.Whitespace then
          scan_back (fun i => decide ((glyph_at gs (i - 1)).direction
            = (glyph_at gs (p2 - 1)).direction)) 0 p2
        else p2) := by
  split
  · rename_i h2
    rw [getElem?_glyph_at gs (p2 - 1) (by omega), Option.some_bind,
      skip_back_before_eq gs _ p2 h]
  · rfl

theorem previous_word_checked_eq (d : text_edit) (hne : d.iGlyphs ≠ [])
    (hp : d.iCursor.position ≤ d.iGlyphs.length) :
    d.previous_word_checked = some d.previous_word := by
  have hn : 0 < d.iGlyphs.length := List.length_pos.2 hne
  unfold text_edit.previous_word_checked text_edit.previous_word
  simp only
  generalize hp0 : (if d.iCursor.position = d.iGlyphs.length then d.iCursor.position - 1
    else d.iCursor.position) = p0
  have hp0lt : p0 < d.iGlyphs.length := by
    rw [← hp0]
    split <;> omega
  rw [skip_back_here_eq d.iGlyphs _ p0 hp0lt, Option.some_bind]
  obtain ⟨_, s2, _, _⟩ := scan_back_spec (fun i => (glyph_at d.iGlyphs i).is_whitespace) 0 p0
    (Nat.zero_le _)
  generalize scan_back (fun i => (glyph_at d.iGlyphs i).is_whitespace) 0 p0 = p1 at s2 ⊢
  by_cases h1 : p1 > 0
  · rw [if_pos h1, if_pos h1]
    have hidx : (if p1 = d.iCursor.position then p1 - 1 else p1) < d.iGlyphs.length := by
      split <;> omega
    rw [getElem?_glyph_at d.iGlyphs _ hidx, Option.some_bind,
      skip_back_before_eq d.iGlyphs _ p1 (by omega), Option.some_bind]
    obtain ⟨_, t2, _, _⟩ := scan_back_spec (fun i => decide ((glyph_at d.iGlyphs (i - 1)).direction
      = (glyph_at d.iGlyphs (if p1 = d.iCursor.position then p1 - 1 else p1)).direction)) 0 p1
      (Nat.zero_le _)
    exact previous_word_inner d.iGlyphs _ _ (by omega)
  · rw [if_neg h1, if_neg h1]

theorem next_word_checked_eq (d : text_edit) (hp : d.iCursor.position ≤ d.iGlyphs.length) :
    d.next_word_checked = some d.next_word := by
  unfold text_edit.next_word_checked text_edit.next_word
  simp only
  rw [skip_forward_eq d.iGlyphs _ _ d.iCursor.position (by omega), Option.some_bind]
  obtain ⟨s1, s2, _⟩ := scan_forward_spec (fun i => (glyph_at d.iGlyphs i).is_whitespace)
    d.iGlyphs.length (d.iGlyphs.length - d.iCursor.position) d.iCursor.position (by omega)
  generalize scan_forward (fun i => (glyph_at d.iGlyphs i).is_whitespace) d.iGlyphs.length
    (d.iGlyphs.length - d.iCursor.position) d.iCursor.position = p1 at s1 s2 ⊢
  split
  · rename_i h1
    rw [getElem?_glyph_at d.iGlyphs p1 h1.1, Option.some_bind,
      skip_forward_eq d.iGlyphs _ _ p1 (by omega), Option.some_bind]
    obtain ⟨t1, t2, _⟩ := scan_forward_spec
      (fun i => decide ((glyph_at d.iGlyphs i).direction = (glyph_at d.iGlyphs p1).direction))
      d.iGlyphs.length (d.iGlyphs.length - p1) p1 (by omega)
    exact skip_forward_eq d.iGlyphs _ _ _ (by omega)
  · rfl

theorem next_word_progress (d : text_edit) (hp : d.iCursor.position ≤ d.iGlyphs.length) :
    d.next_word ≤ d.iGlyphs.length ∧
    (d.iCursor.position < d.iGlyphs.length → d.iCursor.position < d.next_word) ∧
    (d.iCursor.position = d.iGlyphs.length → d.next_word = d.iGlyphs.length) := by
  unfold text_edit.next_word
  simp only
  obtain ⟨s1, s2, _⟩ := scan_forward_spec (fun i => (glyph_at d.iGlyphs i).is_whitespace)
    d.iGlyphs.length (d.iGlyphs.length - d.iCursor.position) d.iCursor.position (by omega)
  generalize scan_forward (fun i => (glyph_at d.iGlyphs i).is_whitespace) d.iGlyphs.length
    (d.iGlyphs.length - d.iCursor.position) d.iCursor.position = p1 at s1 s2 ⊢
  split
  · rename_i h1
    obtain ⟨t1, t2, t3⟩ := scan_forward_spec
      (fun i => decide ((glyph_at d.iGlyphs i).direction = (glyph_at d.iGlyphs p1).direction))
      d.iGlyphs.length (d.iGlyphs.length - p1) p1 (by omega)
    have t4 := t3 (by simp) (by omega)
    generalize scan_forward
      (fun i => decide ((glyph_at d.iGlyphs i).direction = (glyph_at d.iGlyphs p1).direction))
      d.iGlyphs.length (d.iGlyphs.length - p1) p1 = p2 at t1 t2 t4 ⊢
    obtain ⟨u1, u2, _⟩ := scan_forward_spec (fun i => (glyph_at d.iGlyphs i).is_whitespace)
      d.iGlyphs.length (d.iGlyphs.length - p2) p2 (by omega)
    refine ⟨u2, fun _ => by omega, fun h => by omega⟩
  · rename_i h1
    refine ⟨s2, ?_, fun h => by omega⟩
    intro hlt
    by_contra hcon
    exact h1 ⟨by omega, by omega⟩

theorem previous_word_tail_le (gs : List glyph) (dir : text_direction) (p2 : Nat) :
    (if p2 > 0 ∧ dir = text_direction.Whitespace then
        scan_back (fun i => decide ((glyph_at gs (i - 1)).direction
          = (glyph_at gs (p2 - 1)).direction)) 0 p2
      else p2) ≤ p2 := by
  split
  · exact (scan_back_spec _ 0 p2 (Nat.zero_le _)).2.1
  · exact le_refl _

theorem previous_word_mid (gs : List glyph) (pos p1 : Nat) (h1 : 0 < p1) :
    scan_back (fun i => decide ((glyph_at gs (i - 1)).direction
        = (glyph_at gs (if p1 = pos then p1 - 1 else p1)).direction)) 0 p1 ≤ p1 ∧
    (p1 = pos →
      scan_back (fun i => decide ((glyph_at gs (i - 1)).direction
        = (glyph_at gs (if p1 = pos then p1 - 1 else p1)).direction)) 0 p1 < p1) := by
  obtain ⟨_, t2, t3, _⟩ := scan_back_spec (fun i => decide ((glyph_at gs (i - 1)).direction
    = (glyph_at gs (if p1 = pos then p1 - 1 else p1)).direction)) 0 p1 (Nat.zero_le _)
  refine ⟨t2, ?_⟩
  intro he
  by_contra hcon
  have heq : scan_back (fun i => decide ((glyph_at gs (i - 1)).direction
      = (glyph_at gs (if p1 = pos then p1 - 1 else p1)).direction)) 0 p1 = p1 := by omega
  rw [heq] at t3
  rcases t3 with t3 | t3
  · omega
  · rw [if_pos he] at t3
    simp at t3

theorem previous_word_progress (d : text_edit) (hne : d.iGlyphs ≠ [])
    (hp : d.iCursor.position ≤ d.iGlyphs.length) :
    (0 < d.iCursor.position → d.previous_word < d.iCursor.position) ∧
    (d.iCursor.position = 0 → d.previous_word = 0) := by
  have hn : 0 < d.iGlyphs.length := List.length_pos.2 hne
  unfold text_edit.previous_word
  simp only
  generalize hp0 : (if d.iCursor.position = d.iGlyphs.length then d.iCursor.position - 1
    else d.iCursor.position) = p0
  have hp0le : p0 ≤ d.iCursor.position ∧ (d.iCursor.position = d.iGlyphs.length → p0 < d.iCursor.position)
      ∧ (d.iCursor.position ≠ d.iGlyphs.length → p0 = d.iCursor.position) := by
    rw [← hp0]
    split <;> refine ⟨by omega, fun h => by omega, fun h => by omega⟩
  obtain ⟨_, s2, _, _⟩ := scan_back_spec (fun i => (glyph_at d.iGlyphs i).is_whitespace) 0 p0
    (Nat.zero_le _)
  generalize scan_back (fun i => (glyph_at d.iGlyphs i).is_whitespace) 0 p0 = p1 at s2 ⊢
  by_cases h1 : p1 > 0
  · rw [if_pos h1]
    obtain ⟨m1, m2⟩ := previous_word_mid d.iGlyphs d.iCursor.position p1 h1
    have hp2 : scan_back (fun i => decide ((glyph_at d.iGlyphs (i - 1)).direction
        = (glyph_at d.iGlyphs (if p1 = d.iCursor.position then p1 - 1 else p1)).direction)) 0 p1
        < d.iCursor.position := by
      by_cases he : p1 = d.iCursor.position
      · have := m2 he
        omega
      · by_cases hfull : d.iCursor.position = d.iGlyphs.length
        · have := hp0le.2.1 hfull
          omega
        · have := hp0le.2.2 hfull
          omega
    refine ⟨fun _ => lt_of_le_of_lt (previous_word_tail_le _ _ _) hp2, fun h => ?_⟩
    omega
  · rw [if_neg h1]
    have : p1 = 0 := by omega
    rw [this]
    exact ⟨fun h => h, fun _ => rfl⟩

/-- C27: in a non-empty document with `n` glyphs and the cursor at `p ≤ n`,
NextWord moves the position to some `p'` with `p < p' ≤ n` when `p < n` and to
`n` when `p = n`, PreviousWord moves it to some `p'` with `p' < p` when
`p > 0` and to 0 when `p = 0`, and neither reads a glyph outside the glyph
array: the loops run with checked element access return the same positions. -/
theorem C27_word_moves_make_progress (d : text_edit) (aMoveAnchor : Bool) (hne : d.iGlyphs ≠ [])
    (hp : d.iCursor.position ≤ d.iGlyphs.length) :
    (d.move_cursor move_operation_e.NextWord aMoveAnchor).iCursor.position = d.next_word ∧
    (d.move_cursor move_operation_e.PreviousWord aMoveAnchor).iCursor.position = d.previous_word ∧
    d.next_word ≤ d.iGlyphs.length ∧
    (d.iCursor.position < d.iGlyphs.length → d.iCursor.position < d.next_word) ∧
    (d.iCursor.position = d.iGlyphs.length → d.next_word = d.iGlyphs.length) ∧
    (0 < d.iCursor.position → d.previous_word < d.iCursor.position) ∧
    (d.iCursor.position = 0 → d.previous_word = 0) ∧
    d.next_word_checked = some d.next_word ∧
    d.previous_word_checked = some d.previous_word := by
  obtain ⟨n1, n2, n3⟩ := next_word_progress d hp
  obtain ⟨p1, p2⟩ := previous_word_progress d hne hp
  refine ⟨?_, ?_, n1, n2, n3, p1, p2, next_word_checked_eq d hp, previous_word_checked_eq d hne hp⟩
  · unfold text_edit.move_cursor
    simp only [if_neg hne]
    rfl
  · unfold text_edit.move_cursor
    simp only [if_neg hne]
    rfl

/-- C27, instance: the word moves in "ab cd", line feed, "ef" from the cursor
position 4. -/
theorem C27_word_moves_make_progress_witness :
    ((selected_document "ab cd\nef" 4 4).move_cursor move_operation_e.NextWord true).iCursor.position
      = (selected_document "ab cd\nef" 4 4).next_word ∧
    (selected_document "ab cd\nef" 4 4).next_word = 6 ∧
    (selected_document "ab cd\nef" 4 4).previous_word = 3 ∧
    (selected_document "ab cd\nef" 4 4).next_word_checked = some 6 ∧
    (selected_document "ab cd\nef" 4 4).previous_word_checked = some 3 :=
  ⟨(C27_word_moves_make_progress (selected_document "ab cd\nef" 4 4) true (by decide) (by decide)).1,
    by decide, by decide, by decide, by decide⟩

/-! ## Wrapping covers the paragraph and fits the width (C25, C26) -/

theorem scan_forward_all (cond : Nat → Bool) (aEnd : Nat) :
    ∀ n i, ∀ j, i ≤ j → j < scan_forward cond aEnd n i → cond j = true := by
  intro n
  induction n with
  | zero =>
    intro i j h1 h2
    simp only [scan_forward] at h2
    omega
  | succ n ih =>
    intro i j h1 h2
    unfold scan_forward at h2
    by_cases hc : cond i = true ∧ i ≠ aEnd
    · rw [if_pos hc] at h2
      by_cases hj : j = i
      · rw [hj]; exact hc.1
      · exact ih (i + 1) j (by omega) h2
    · rw [if_neg hc] at h2
      omega

/-- The pair `word_break` returns: the line end lies between the line start and
the glyph the search started from, the start of the next line at or after the
line end, and every glyph between the two is whitespace. -/
theorem word_break_cover (gs : List glyph) (b aFrom aEnd : Nat) (h1 : b ≤ aFrom) (h2 : aFrom < aEnd) :
    b ≤ (word_break gs b aFrom aEnd).1 ∧ (word_break gs b aFrom aEnd).1 ≤ aFrom ∧
    (word_break gs b aFrom aEnd).1 ≤ (word_break gs b aFrom aEnd).2 ∧
    (word_break gs b aFrom aEnd).2 ≤ aEnd ∧
    ∀ g, (word_break gs b aFrom aEnd).1 ≤ g → g < (word_break gs b aFrom aEnd).2 →
      (glyph_at gs g).is_whitespace = true := by
  have skip : ∀ start, b ≤ start → start ≤ aFrom →
      b ≤ scan_back (fun i => (glyph_at gs (i - 1)).is_whitespace) b start ∧
      scan_back (fun i => (glyph_at gs (i - 1)).is_whitespace) b start ≤ aFrom ∧
      scan_back (fun i => (glyph_at gs (i - 1)).is_whitespace) b start
        ≤ scan_forward (fun i => (glyph_at gs i).is_whitespace) aEnd (aEnd - start) start ∧
      scan_forward (fun i => (glyph_at gs i).is_whitespace) aEnd (aEnd - start) start ≤ aEnd ∧
      ∀ g, scan_back (fun i => (glyph_at gs (i - 1)).is_whitespace) b start ≤ g →
        g < scan_forward (fun i => (glyph_at gs i).is_whitespace) aEnd (aEnd - start) start →
        (glyph_at gs g).is_whitespace = true := by
    intro start hs1 hs2
    obtain ⟨f1, f2, _⟩ := scan_forward_spec (fun i => (glyph_at gs i).is_whitespace) aEnd
      (aEnd - start) start (by omega)
    have f4 := scan_forward_all (fun i => (glyph_at gs i).is_whitespace) aEnd (aEnd - start) start
    obtain ⟨k1, k2, _, k4⟩ := scan_back_spec (fun i => (glyph_at gs (i - 1)).is_whitespace) b start hs1
    refine ⟨k1, by omega, by omega, f2, ?_⟩
    intro g hg1 hg2
    by_cases hgs : g < start
    · have := k4 (g + 1) (by omega) (by omega)
      simpa using this
    · exact f4 g (by omega) hg2
  unfold word_break
  simp only
  by_cases hfrom : (glyph_at gs aFrom).is_whitespace = true
  · rw [if_neg (by simpa using hfrom)]
    exact skip aFrom h1 (le_refl _)
  · rw [if_pos hfrom]
    obtain ⟨k1, k2, _, _⟩ := scan_back_spec (fun i => ! (glyph_at gs i).is_whitespace) b aFrom h1
    by_cases hfirst : (glyph_at gs (scan_back (fun i => ! (glyph_at gs i).is_whitespace) b aFrom)).is_whitespace
        = true
    · rw [if_neg (by simpa using hfirst)]
      exact skip _ k1 k2
    · rw [if_pos hfirst]
      obtain ⟨c1, c2, _, _⟩ := scan_back_spec
        (fun i => decide ((glyph_at gs (i - 1)).source = (glyph_at gs aFrom).source)) b aFrom h1
      exact ⟨c1, c2, le_refl _, by omega, fun g hg1 hg2 => by omega⟩

theorem wrap_break_cover (gs : List glyph) (b split pend : Nat) (h1 : b < split) (h2 : split ≤ pend) :
    b ≤ (wrap_break gs b pend split pend).1 ∧
    ((wrap_break gs b pend split pend).1 ≤ split ∨
      (split = pend ∧ (wrap_break gs b pend split pend).1 = pend)) ∧
    (wrap_break gs b pend split pend).1 ≤ (wrap_break gs b pend split pend).2 ∧
    (wrap_break gs b pend split pend).2 ≤ pend ∧
    ∀ g, (wrap_break gs b pend split pend).1 ≤ g → g < (wrap_break gs b pend split pend).2 →
      (glyph_at gs g).is_whitespace = true := by
  unfold wrap_break
  by_cases hsp : split = pend
  · rw [if_neg (by simpa using hsp)]
    exact ⟨by omega, Or.inr ⟨hsp, rfl⟩, le_refl _, le_refl _, fun g hg1 hg2 => by omega⟩
  · rw [if_pos hsp]
    simp only
    obtain ⟨w1, w2, w3, w4, w5⟩ := word_break_cover gs b split pend (by omega) (by omega)
    by_cases heq : (word_break gs b split pend).1 = (word_break gs b split pend).2
    · rw [if_pos heq]
      obtain ⟨c1, c2, _, _⟩ := scan_back_spec
        (fun i => decide ((glyph_at gs (i - 1)).source
          = (glyph_at gs (word_break gs b split pend).1).source)) b (word_break gs b split pend).1 w1
      exact ⟨c1, Or.inl (by omega), le_refl _, by omega, fun g hg1 hg2 => by omega⟩
    · rw [if_neg heq]
      exact ⟨w1, Or.inl w2, w3, w4, w5⟩

theorem trim_cr_cover (gs : List glyph) (b lineEnd : Nat) (h : b ≤ lineEnd) :
    b ≤ trim_cr gs b lineEnd ∧ trim_cr gs b lineEnd ≤ lineEnd ∧
    ∀ g, trim_cr gs b lineEnd ≤ g → g < lineEnd → (glyph_at gs g).is_whitespace = true := by
  unfold trim_cr
  split
  · rename_i hc
    refine ⟨by omega, by omega, ?_⟩
    intro g hg1 hg2
    have : g = lineEnd - 1 := by omega
    rw [this]
    exact hc.2.1
  · exact ⟨h, le_refl _, fun g hg1 hg2 => by omega⟩

/-- One pass of the wrapping loop: the line pushed starts at `next`, ends at or
before the start of the next line, and the glyphs between its end and the
start of the next line are whitespace. -/
theorem wrap_step_cover (d : text_edit) (p : glyph_paragraph) (availableWidth : Int) (s : wrap_state)
    (hs1 : s.lineStart = s.next) (hs2 : s.next < p.end_index) (hs3 : s.lineEnd = p.end_index) :
    ∃ l, (d.wrap_step p availableWidth s).lines = s.lines ++ [l] ∧ l.start = s.next ∧
      s.next ≤ l.end_ ∧ l.end_ ≤ (d.wrap_step p availableWidth s).next ∧
      (d.wrap_step p availableWidth s).next ≤ p.end_index ∧
      (∀ g, l.end_ ≤ g → g < (d.wrap_step p availableWidth s).next →
        (glyph_at d.iGlyphs g).is_whitespace = true) ∧
      (d.wrap_step p availableWidth s).lineStart = (d.wrap_step p availableWidth s).next ∧
      (d.wrap_step p availableWidth s).lineEnd = p.end_index := by
  obtain ⟨r1, r2⟩ := wrap_split_range d.iGlyphs s.next p.end_index (s.offset + availableWidth) hs2
  obtain ⟨b1, _, b3, b4, b5⟩ := wrap_break_cover d.iGlyphs s.next
    (wrap_split d.iGlyphs s.next p.end_index (s.offset + availableWidth)) p.end_index r1 r2
  obtain ⟨t1, t2, t3⟩ := trim_cr_cover d.iGlyphs s.next
    (wrap_break d.iGlyphs s.next p.end_index
      (wrap_split d.iGlyphs s.next p.end_index (s.offset + availableWidth)) p.end_index).1 b1
  unfold text_edit.wrap_step
  simp only [hs1, hs3]
  refine ⟨_, rfl, rfl, t1, by simp only; omega, b4, ?_, trivial, trivial⟩
  intro g hg1 hg2
  simp only at hg1
  by_cases hgr : g < (wrap_break d.iGlyphs s.next p.end_index
      (wrap_split d.iGlyphs s.next p.end_index (s.offset + availableWidth)) p.end_index).1
  · exact t3 g hg1 hgr
  · exact b5 g (by omega) hg2

theorem line_cover_snoc (gs : List glyph) (l : glyph_line) (b : Nat) :
    ∀ (ls : List glyph_line) (a : Nat), line_cover gs a ls l.start → l.start ≤ l.end_ → l.end_ ≤ b →
      (∀ g, l.end_ ≤ g → g < b → (glyph_at gs g).is_whitespace = true) →
      line_cover gs a (ls ++ [l]) b := by
  intro ls
  induction ls with
  | nil =>
    intro a h h1 h2 h3
    exact ⟨h.1, h.2, h1, h2, h3⟩
  | cons l0 ls ih =>
    intro a h h1 h2 h3
    exact ⟨h.1, h.2.1, h.2.2.1, ih l0.end_ h.2.2.2 h1 h2 h3⟩

theorem line_cover_spec (gs : List glyph) (b : Nat) :
    ∀ (ls : List glyph_line) (a : Nat), line_cover gs a ls b →
      a ≤ b ∧ ls.Pairwise (fun l l' => l.end_ ≤ l'.start) ∧
      (∀ l ∈ ls, a ≤ l.start ∧ l.start ≤ l.end_ ∧ l.end_ ≤ b) ∧
      (∀ g, a ≤ g → g < b → (∀ l ∈ ls, ¬ (l.start ≤ g ∧ g < l.end_)) →
        (glyph_at gs g).is_whitespace = true) := by
  intro ls
  induction ls with
  | nil =>
    intro a h
    exact ⟨h.1, List.Pairwise.nil, fun l hl => absurd hl (List.not_mem_nil l), fun g h1 h2 _ => h.2 g h1 h2⟩
  | cons l0 ls ih =>
    intro a h
    obtain ⟨h1, h2, h3, h4⟩ := h
    obtain ⟨i1, i2, i3, i4⟩ := ih l0.end_ h4
    refine ⟨by omega, List.Pairwise.cons (fun l hl => (i3 l hl).1) i2, ?_, ?_⟩
    · intro l hl
      rcases List.mem_cons.1 hl with e | e
      · subst e
        exact ⟨h1, h3, i1⟩
      · have := i3 l e
        exact ⟨by omega, this.2.1, this.2.2⟩
    · intro g hg1 hg2 hnot
      by_cases c1 : g < l0.start
      · exact h2 g hg1 c1
      · have c2 : ¬ (l0.start ≤ g ∧ g < l0.end_) := hnot l0 (List.mem_cons_self _ _)
        exact i4 g (by omega) hg2 (fun l hl => hnot l (List.mem_cons_of_mem _ hl))

theorem wrap_loop_cover (d : text_edit) (p : glyph_paragraph) (availableWidth : Int)
    (pre : List glyph_line) :
    ∀ fuel s s' ls, s.lineStart = s.next → s.lineEnd = p.end_index → s.next ≤ p.end_index →
      s.lines = pre ++ ls → line_cover d.iGlyphs p.start_index ls s.next →
      d.wrap_loop p availableWidth fuel s = some s' →
      ∃ ls', s'.lines = pre ++ ls' ∧ line_cover d.iGlyphs p.start_index ls' p.end_index := by
  intro fuel
  induction fuel with
  | zero =>
    intro s s' ls _ _ _ hl hc hres
    unfold text_edit.wrap_loop at hres
    split at hres
    · exact Option.noConfusion hres
    · rename_i he
      simp only [Option.some.injEq] at hres
      subst hres
      have : s.next = p.end_index := by simpa using he
      exact ⟨ls, hl, this ▸ hc⟩
  | succ n ih =>
    intro s s' ls hs1 hs3 hs2 hl hc hres
    unfold text_edit.wrap_loop at hres
    split at hres
    · rename_i hne
      obtain ⟨l, q1, q2, q3, q4, q5, q6, q7, q8⟩ :=
        wrap_step_cover d p availableWidth s hs1 (by omega) hs3
      refine ih _ s' (ls ++ [l]) q7 q8 q5 ?_ ?_ hres
      · rw [q1, hl, List.append_assoc]
      · exact line_cover_snoc d.iGlyphs l _ ls p.start_index (q2 ▸ hc) (by omega) q4 q6
    · rename_i he
      simp only [Option.some.injEq] at hres
      subst hres
      have : s.next = p.end_index := by simpa using he
      exact ⟨ls, hl, this ▸ hc⟩

theorem refresh_lines_paragraph_cover (d : text_edit) (availableWidth : Int) (fuel : Nat)
    (p : glyph_paragraph) (hle : p.start_index ≤ p.end_index)
    (acc acc' : List glyph_line × Int × Int)
    (hres : d.refresh_lines_paragraph availableWidth fuel p acc = some acc') :
    ∃ ls, acc'.1 = acc.1 ++ ls ∧ shows_paragraph d.iGlyphs p ls := by
  have one : ∀ l : glyph_line, l.start = p.start_index → l.end_ = p.end_index →
      shows_paragraph d.iGlyphs p [l] := by
    intro l e1 e2
    have h := line_cover_spec d.iGlyphs p.end_index [l] p.start_index
      ⟨by omega, fun g _ _ => by omega, by omega, by omega, fun g _ _ => by omega⟩
    exact h.2
  unfold text_edit.refresh_lines_paragraph at hres
  simp only at hres
  split at hres
  · simp only [Option.some.injEq] at hres
    subst hres
    exact ⟨_, rfl, one _ rfl rfl⟩
  · split at hres
    · split at hres
      · rename_i s hs
        simp only [Option.some.injEq] at hres
        subst hres
        obtain ⟨ls, e, hc⟩ := wrap_loop_cover d p availableWidth acc.1 fuel _ s [] rfl rfl hle
          (by simp) ⟨le_refl _, fun g h1 h2 => absurd h2 (by simpa using h1)⟩ hs
        exact ⟨ls, e, (line_cover_spec d.iGlyphs p.end_index ls p.start_index hc).2⟩
      · exact Option.noConfusion hres
    · simp only [Option.some.injEq] at hres
      subst hres
      exact ⟨_, rfl, one _ rfl rfl⟩

theorem refresh_lines_loop_cover (d : text_edit) (availableWidth : Int) (fuel : Nat) :
    ∀ (ps : List glyph_paragraph) (acc : List glyph_line × Int × Int),
      (∀ p ∈ ps, p.start_index ≤ p.end_index ∧ p.end_index - p.start_index ≤ fuel ∧
        d.distinct_sources p) →
      ∃ acc' lss, d.refresh_lines_loop availableWidth fuel ps acc = some acc' ∧
        acc'.1 = acc.1 ++ lss.flatten ∧ List.Forall₂ (shows_paragraph d.iGlyphs) ps lss := by
  intro ps
  induction ps with
  | nil =>
    intro acc _
    exact ⟨acc, [], rfl, by simp, List.Forall₂.nil⟩
  | cons p ps ih =>
    intro acc hps
    obtain ⟨h1, h2, h3⟩ := hps p (List.mem_cons_self _ _)
    obtain ⟨acc1, e1⟩ := refresh_lines_paragraph_terminates d availableWidth fuel p h1 h2 h3 acc
    obtain ⟨ls, c1, c2⟩ := refresh_lines_paragraph_cover d availableWidth fuel p h1 acc acc1 e1
    obtain ⟨acc2, lss, e2, c3, c4⟩ := ih acc1 (fun q hq => hps q (List.mem_cons_of_mem _ hq))
    refine ⟨acc2, ls :: lss, ?_, ?_, List.Forall₂.cons c2 c4⟩
    · unfold text_edit.refresh_lines_loop
      rw [e1]
      exact e2
    · rw [c3, c1, List.flatten_cons, List.append_assoc]

/-- C26: when no two adjacent glyphs of a paragraph share a source range (in
particular when the source ranges of its glyphs are pairwise distinct),
`refresh_lines` produces the layout (enough fuel gives a result, for every
available width and word-wrap setting), and the visual lines are, paragraph by
paragraph, lists of lines that are in order, pairwise disjoint and inside the
paragraph's glyph range, with every glyph of the paragraph that lies in no
visual line a whitespace glyph. -/
theorem C26_wrapping_never_hides_text (d : text_edit) (availableWidth : Int) (fuel : Nat)
    (hp : ∀ p ∈ d.iGlyphParagraphs, p.start_index ≤ p.end_index ∧
      p.end_index - p.start_index ≤ fuel ∧ d.distinct_sources p) :
    ∃ d' lss, d.refresh_lines availableWidth fuel = some d' ∧ d'.iGlyphLines = lss.flatten ∧
      List.Forall₂ (shows_paragraph d.iGlyphs) d.iGlyphParagraphs lss := by
  obtain ⟨acc', lss, e, c1, c2⟩ :=
    refresh_lines_loop_cover d availableWidth fuel d.iGlyphParagraphs ([], 0, 0) hp
  have e2 : ∃ d', d.refresh_lines availableWidth fuel = some d' ∧ d'.iGlyphLines = acc'.1 := by
    unfold text_edit.refresh_lines
    rw [e]
    exact ⟨_, rfl, rfl⟩
  obtain ⟨d', e3, e4⟩ := e2
  exact ⟨d', lss, e3, by rw [e4, c1]; rfl, c2⟩

/-- C26, instance: "ab cd" in a width of three glyphs is laid out as the lines
`[0, 2)` and `[3, 5)`; the glyph left out is the space. -/
theorem C26_wrapping_never_hides_text_witness :
    (∃ d' lss, (document_of "ab cd" 0).refresh_lines 30 5 = some d' ∧ d'.iGlyphLines = lss.flatten ∧
      List.Forall₂ (shows_paragraph (document_of "ab cd" 0).iGlyphs)
        (document_of "ab cd" 0).iGlyphParagraphs lss) ∧
    ((document_of "ab cd" 0).refresh_lines 30 5).map
      (fun d' => d'.iGlyphLines.map (fun l => (l.start, l.end_))) = some [(0, 2), (3, 5)] := by
  have hps : (document_of "ab cd" 0).iGlyphParagraphs
      = [{ text_start_index := 0, text_end_index := 5, start_index := 0, end_index := 5 }] := by decide
  refine ⟨C26_wrapping_never_hides_text (document_of "ab cd" 0) 30 5 ?_, by decide⟩
  intro p hp
  rw [hps] at hp
  simp only [List.mem_singleton] at hp
  subst hp
  refine ⟨by decide, by decide, ?_⟩
  intro i h1 h2
  change i + 1 < 5 at h2
  have h3 : i < 4 := by omega
  clear h1 h2
  interval_cases i <;> decide

theorem positioned_x_mono (gs : List glyph) (p : glyph_paragraph) (hpos : positioned gs p) :
    ∀ n i, p.start_index ≤ i → i + n < p.end_index → (glyph_at gs i).x ≤ (glyph_at gs (i + n)).x := by
  intro n
  induction n with
  | zero => intro i _ _; exact le_refl _
  | succ n ih =>
    intro i h1 h2
    have a := ih i h1 (by omega)
    have b := hpos.2.1 (i + n) (by omega) (by omega)
    have c := hpos.2.2 (i + n) (by omega) (by omega)
    have e : i + (n + 1) = i + n + 1 := by omega
    rw [e, b]
    omega

theorem positioned_x_le (gs : List glyph) (p : glyph_paragraph) (hpos : positioned gs p)
    (i j : Nat) (h1 : p.start_index ≤ i) (h2 : i ≤ j) (h3 : j < p.end_index) :
    (glyph_at gs i).x ≤ (glyph_at gs j).x := by
  have h := positioned_x_mono gs p hpos (j - i) i h1 (by omega)
  have e : i + (j - i) = j := by omega
  rw [e] at h
  exact h

theorem positioned_trailing_le (gs : List glyph) (p : glyph_paragraph) (hpos : positioned gs p)
    (i j : Nat) (h1 : p.start_index ≤ i) (h2 : i ≤ j) (h3 : j < p.end_index) :
    (glyph_at gs i).x + (glyph_at gs i).cx ≤ (glyph_at gs j).x + (glyph_at gs j).cx := by
  by_cases e : i = j
  · rw [e]
  · have a := hpos.2.1 i h1 (by omega)
    have b := positioned_x_le gs p hpos (i + 1) j (by omega) (by omega) h3
    have c := hpos.2.2 j (by omega) h3
    omega

/-- Every glyph range that starts at `next`, holds more than one glyph and ends
at or before the split position ends left of the key. -/
theorem wrap_split_fit (gs : List glyph) (p : glyph_paragraph) (hpos : positioned gs p)
    (next : Nat) (key : Int) (h1 : p.start_index ≤ next) (h2 : next < p.end_index) (e : Nat)
    (he1 : next + 1 < e) (he2 : e ≤ wrap_split gs next p.end_index key) :
    (glyph_at gs (e - 1)).x + (glyph_at gs (e - 1)).cx < key := by
  have hr := lower_bound_range (fun i => decide ((glyph_at gs i).x < key)) next p.end_index (by omega)
  have hs := lower_bound_spec (fun i => decide ((glyph_at gs i).x < key)) next p.end_index (by omega)
    (fun i j a b c hj => by
      have := positioned_x_le gs p hpos i j (by omega) b c
      simp only [decide_eq_true_eq] at hj ⊢
      omega)
  unfold wrap_split split_point at he2
  simp only at he2
  generalize lower_bound (fun i => decide ((glyph_at gs i).x < key)) next p.end_index = sp at hr hs he2
  by_cases c1 : sp ≠ next ∧ (sp ≠ p.end_index ∨
      (glyph_at gs (sp - 1)).x + (glyph_at gs (sp - 1)).cx ≥ key)
  · rw [if_pos c1] at he2
    by_cases c2 : sp - 1 = next
    · rw [if_pos c2] at he2
      omega
    · rw [if_neg c2] at he2
      have a := hpos.2.1 (e - 1) (by omega) (by omega)
      have b := hs.1 e (by omega) (by omega)
      simp only [decide_eq_true_eq] at b
      have e1 : e - 1 + 1 = e := by omega
      rw [e1] at a
      omega
  · rw [if_neg c1] at he2
    by_cases c2 : sp = next
    · rw [if_pos c2] at he2
      omega
    · rw [if_neg c2] at he2
      have c3 : sp = p.end_index ∧
          (glyph_at gs (sp - 1)).x + (glyph_at gs (sp - 1)).cx < key := by
        by_cases c4 : sp = p.end_index
        · refine ⟨c4, ?_⟩
          by_contra c5
          exact c1 ⟨c2, Or.inr (by omega)⟩
        · exact absurd ⟨c2, Or.inl c4⟩ c1
      have a := positioned_trailing_le gs p hpos (e - 1) (sp - 1) (by omega) (by omega) (by omega)
      omega

/-- One pass of the wrapping loop from a state whose offset is the x position of
the line start: the line pushed fits, and the offset of the new state is the x
position of the next line start. -/
theorem wrap_step_fit (d : text_edit) (p : glyph_paragraph) (availableWidth : Int) (s : wrap_state)
    (hpos : positioned d.iGlyphs p)
    (hs1 : s.lineStart = s.next) (hs2 : s.next < p.end_index) (hs3 : s.lineEnd = p.end_index)
    (hs4 : p.start_index ≤ s.next) (hoff : s.offset = (glyph_at d.iGlyphs s.next).x) :
    (∀ l, (d.wrap_step p availableWidth s).lines = s.lines ++ [l] →
      line_fits d.iGlyphs availableWidth l) ∧
    ((d.wrap_step p availableWidth s).next < p.end_index →
      (d.wrap_step p availableWidth s).offset
        = (glyph_at d.iGlyphs (d.wrap_step p availableWidth s).next).x) := by
  obtain ⟨r1, r2⟩ := wrap_split_range d.iGlyphs s.next p.end_index (s.offset + availableWidth) hs2
  obtain ⟨b1, b2, _, _, _⟩ := wrap_break_cover d.iGlyphs s.next
    (wrap_split d.iGlyphs s.next p.end_index (s.offset + availableWidth)) p.end_index r1 r2
  obtain ⟨_, t2, _⟩ := trim_cr_cover d.iGlyphs s.next
    (wrap_break d.iGlyphs s.next p.end_index
      (wrap_split d.iGlyphs s.next p.end_index (s.offset + availableWidth)) p.end_index).1 b1
  have hfit := wrap_split_fit d.iGlyphs p hpos s.next (s.offset + availableWidth) hs4 hs2
  unfold text_edit.wrap_step
  simp only [hs1, hs3]
  constructor
  · intro l hl
    have hl2 := List.append_cancel_left hl
    simp only [List.cons.injEq, and_true] at hl2
    subst hl2
    intro hlong
    simp only at hlong ⊢
    have := hfit _ hlong (by omega)
    omega
  · intro hn
    rw [if_pos (by omega)]

theorem wrap_loop_fit (d : text_edit) (p : glyph_paragraph) (availableWidth : Int)
    (hpos : positioned d.iGlyphs p) (pre : List glyph_line) :
    ∀ fuel s s' ls, s.lineStart = s.next → s.lineEnd = p.end_index → s.next ≤ p.end_index →
      p.start_index ≤ s.next → (s.next < p.end_index → s.offset = (glyph_at d.iGlyphs s.next).x) →
      s.lines = pre ++ ls → (∀ l ∈ ls, line_fits d.iGlyphs availableWidth l) →
      d.wrap_loop p availableWidth fuel s = some s' →
      ∃ ls', s'.lines = pre ++ ls' ∧ ∀ l ∈ ls', line_fits d.iGlyphs availableWidth l := by
  intro fuel
  induction fuel with
  | zero =>
    intro s s' ls _ _ _ _ _ hl hc hres
    unfold text_edit.wrap_loop at hres
    split at hres
    · exact Option.noConfusion hres
    · simp only [Option.some.injEq] at hres
      subst hres
      exact ⟨ls, hl, hc⟩
  | succ n ih =>
    intro s s' ls hs1 hs3 hs2 hs4 hoff hl hc hres
    unfold text_edit.wrap_loop at hres
    split at hres
    · rename_i hne
      obtain ⟨l, q1, q2, q3, q4, q5, _, q7, q8⟩ :=
        wrap_step_cover d p availableWidth s hs1 (by omega) hs3
      obtain ⟨f1, f2⟩ := wrap_step_fit d p availableWidth s hpos hs1 (by omega) hs3 hs4
        (hoff (by omega))
      refine ih _ s' (ls ++ [l]) q7 q8 q5 (by omega) f2 ?_ ?_ hres
      · rw [q1, hl, List.append_assoc]
      · intro l' hl'
        rcases List.mem_append.1 hl' with h | h
        · exact hc l' h
        · simp only [List.mem_singleton] at h
          subst h
          exact f1 l' q1
    · simp only [Option.some.injEq] at hres
      subst hres
      exact ⟨ls, hl, hc⟩

theorem refresh_lines_paragraph_fit (d : text_edit) (availableWidth : Int) (fuel : Nat)
    (hw : d.iWordWrap = true) (p : glyph_paragraph) (hle : p.start_index ≤ p.end_index)
    (hpos : positioned d.iGlyphs p) (acc acc' : List glyph_line × Int × Int)
    (hres : d.refresh_lines_paragraph availableWidth fuel p acc = some acc') :
    ∃ ls, acc'.1 = acc.1 ++ ls ∧
      (¬ starts_with_carriage_return d.iGlyphs p → ∀ l ∈ ls, line_fits d.iGlyphs availableWidth l) := by
  unfold text_edit.refresh_lines_paragraph at hres
  simp only at hres
  split at hres
  · rename_i hc
    simp only [Option.some.injEq] at hres
    subst hres
    refine ⟨_, rfl, ?_⟩
    intro hcr l hl
    simp only [List.mem_singleton] at hl
    subst hl
    have he : p.start_index = p.end_index := by
      rcases hc with h | h
      · exact h
      · exact absurd h hcr
    intro hlong
    simp only at hlong
    omega
  · split at hres
    · rename_i s hs
      simp only [Option.some.injEq] at hres
      subst hres
      obtain ⟨ls, e, hc⟩ := wrap_loop_fit d p availableWidth hpos acc.1 fuel _ s [] rfl rfl hle
        (le_refl _) (fun h => (hpos.1 h).symm) (by simp)
        (fun l hl => absurd hl (List.not_mem_nil l)) hs
      exact ⟨ls, e, fun _ => hc⟩
    · exact Option.noConfusion hres

theorem refresh_lines_loop_fit (d : text_edit) (availableWidth : Int) (fuel : Nat)
    (hw : d.iWordWrap = true) :
    ∀ (ps : List glyph_paragraph) (acc acc' : List glyph_line × Int × Int),
      (∀ p ∈ ps, p.start_index ≤ p.end_index ∧ positioned d.iGlyphs p) →
      d.refresh_lines_loop availableWidth fuel ps acc = some acc' →
      ∃ lss, acc'.1 = acc.1 ++ lss.flatten ∧
        List.Forall₂ (fun p ls => ¬ starts_with_carriage_return d.iGlyphs p →
          ∀ l ∈ ls, line_fits d.iGlyphs availableWidth l) ps lss := by
  intro ps
  induction ps with
  | nil =>
    intro acc acc' _ hres
    simp only [text_edit.refresh_lines_loop, Option.some.injEq] at hres
    subst hres
    exact ⟨[], by simp, List.Forall₂.nil⟩
  | cons p ps ih =>
    intro acc acc' hps hres
    unfold text_edit.refresh_lines_loop at hres
    split at hres
    · rename_i acc1 h1
      obtain ⟨a1, a2⟩ := hps p (List.mem_cons_self _ _)
      obtain ⟨ls, c1, c2⟩ := refresh_lines_paragraph_fit d availableWidth fuel hw p a1 a2 acc acc1 h1
      obtain ⟨lss, c3, c4⟩ := ih acc1 acc' (fun q hq => hps q (List.mem_cons_of_mem _ hq)) hres
      refine ⟨ls :: lss, ?_, List.Forall₂.cons c2 c4⟩
      rw [c3, c1, List.flatten_cons, List.append_assoc]
    · exact Option.noConfusion hres

theorem paragraph_lines_fit (gs : List glyph) (availableWidth : Int) :
    ∀ (ps : List glyph_paragraph) (lss : List (List glyph_line)),
      List.Forall₂ (fun p ls => ¬ starts_with_carriage_return gs p →
        ∀ l ∈ ls, line_fits gs availableWidth l) ps lss →
      (∀ p ∈ ps, ¬ starts_with_carriage_return gs p) →
      ∀ l ∈ lss.flatten, line_fits gs availableWidth l := by
  intro ps lss h
  induction h with
  | nil => intro _ l hl; simp at hl
  | cons h1 _ ih =>
    intro hcr l hl
    rw [List.flatten_cons] at hl
    rcases List.mem_append.1 hl with e | e
    · exact h1 (hcr _ (List.mem_cons_self _ _)) l e
    · exact ih (fun q hq => hcr q (List.mem_cons_of_mem _ hq)) l e

/-- C25: in wrapping mode, on glyphs positioned as `refresh_paragraph` leaves
them (per paragraph the first glyph at x = 0, every further glyph where the one
before it ends; see `refresh_paragraph_positioned`) with advances that are not
negative, every visual line that `refresh_lines` produces and that holds more
than one glyph fits: the trailing edge of its last glyph minus the x position
of its first glyph is less than the available width. This holds for every
available width, in particular a positive one. No paragraph starts with a
carriage-return glyph: the text of a widget never holds a carriage return,
since `insert_text` drops them, and a whitespace glyph takes its value from the
text (see `insert_text_no_carriage_return_glyph`). When moreover no two
adjacent glyphs of a paragraph share a source range, the layout is produced
(enough fuel gives a result). -/
theorem C25_wrapped_lines_fit (d : text_edit) (availableWidth : Int) (fuel : Nat)
    (hw : d.iWordWrap = true)
    (hp : ∀ p ∈ d.iGlyphParagraphs, p.start_index ≤ p.end_index ∧ positioned d.iGlyphs p ∧
      ¬ starts_with_carriage_return d.iGlyphs p) :
    (∀ d', d.refresh_lines availableWidth fuel = some d' →
      ∀ l ∈ d'.iGlyphLines, line_fits d.iGlyphs availableWidth l) ∧
    ((∀ p ∈ d.iGlyphParagraphs, p.end_index - p.start_index ≤ fuel ∧ d.distinct_sources p) →
      ∃ d', d.refresh_lines availableWidth fuel = some d') := by
  constructor
  · intro d' hres
    unfold text_edit.refresh_lines at hres
    split at hres
    · exact Option.noConfusion hres
    · rename_i r hr
      simp only [Option.some.injEq] at hres
      subst hres
      obtain ⟨lss, c1, c2⟩ := refresh_lines_loop_fit d availableWidth fuel hw d.iGlyphParagraphs
        ([], 0, 0) r (fun p h => ⟨(hp p h).1, (hp p h).2.1⟩) hr
      have c3 : r.1 = lss.flatten := by rw [c1]; rfl
      intro l hl
      simp only at hl
      rw [c3] at hl
      exact paragraph_lines_fit d.iGlyphs availableWidth d.iGlyphParagraphs lss c2
        (fun p h => (hp p h).2.2) l hl
  · intro h
    obtain ⟨acc', e⟩ := refresh_lines_loop_terminates d availableWidth fuel d.iGlyphParagraphs ([], 0, 0)
      (fun p hq => ⟨(hp p hq).1, (h p hq).1, (h p hq).2⟩)
    unfold text_edit.refresh_lines
    rw [e]
    exact ⟨_, rfl⟩

/-- C25, instance: "ab cd" with glyphs 10 wide in a width of 30 is laid out, in
wrapping mode, as the lines `[0, 2)` and `[3, 5)`, and each of them fits. -/
theorem C25_wrapped_lines_fit_witness :
    (document_of "ab cd" 0).iWordWrap = true ∧
    (∃ d', (document_of "ab cd" 0).refresh_lines 30 5 = some d' ∧
      ∀ l ∈ d'.iGlyphLines, line_fits (document_of "ab cd" 0).iGlyphs 30 l) ∧
    ((document_of "ab cd" 0).refresh_lines 30 5).map
      (fun d' => d'.iGlyphLines.map (fun l => (l.start, l.end_))) = some [(0, 2), (3, 5)] := by
  have hps : (document_of "ab cd" 0).iGlyphParagraphs
      = [{ text_start_index := 0, text_end_index := 5, start_index := 0, end_index := 5 }] := by decide
  have hpos : ∀ p ∈ (document_of "ab cd" 0).iGlyphParagraphs,
      p.start_index ≤ p.end_index ∧ positioned (document_of "ab cd" 0).iGlyphs p ∧
      ¬ starts_with_carriage_return (document_of "ab cd" 0).iGlyphs p := by
    intro p hp
    rw [hps] at hp
    simp only [List.mem_singleton] at hp
    subst hp
    refine ⟨by decide, ⟨fun _ => by decide, ?_, ?_⟩, by unfold starts_with_carriage_return; decide⟩
    · intro i h1 h2
      change i + 1 < 5 at h2
      have h3 : i < 4 := by omega
      clear h1 h2
      interval_cases i <;> decide
    · intro i h1 h2
      change i < 5 at h2
      clear h1
      interval_cases i <;> decide
  have hd : ∀ p ∈ (document_of "ab cd" 0).iGlyphParagraphs,
      p.end_index - p.start_index ≤ 5 ∧ (document_of "ab cd" 0).distinct_sources p := by
    intro p hp
    rw [hps] at hp
    simp only [List.mem_singleton] at hp
    subst hp
    refine ⟨by decide, ?_⟩
    intro i h1 h2
    change i + 1 < 5 at h2
    have h3 : i < 4 := by omega
    clear h1 h2
    interval_cases i <;> decide
  have w := C25_wrapped_lines_fit (document_of "ab cd" 0) 30 5 (by decide) hpos
  obtain ⟨d', e⟩ := w.2 hd
  exact ⟨by decide, ⟨d', e, w.1 d' e⟩, by decide⟩

/-! ## No carriage return reaches the glyphs

`insert_text` drops every carriage return, so the text of a widget holds none;
a whitespace glyph carries the text byte at the start of its source range as
value, so no glyph shaped from such a text is a carriage-return glyph. -/

theorem char_of_toNat_13 (c : Char) (h : c.toNat = 13) : c = '\r' := by
  have e := Char.ofNat_toNat c
  rw [h] at e
  exact e.symm

theorem getD_no_carriage_return (text : List Char) (hcr : ∀ c ∈ text, c ≠ '\r') (i : Nat) :
    (text.getD i default).toNat ≠ 13 := by
  intro h
  have e := char_of_toNat_13 _ h
  by_cases hi : i < text.length
  · have hm : text.getD i default ∈ text := by
      rw [List.getD_eq_getElem _ _ hi]
      exact List.getElem_mem _
    exact hcr _ hm e
  · rw [List.getD_eq_default _ _ (by omega)] at e
    exact absurd e (by decide)

theorem default_glyph_no_carriage_return : ¬ (default : glyph).is_carriage_return := by
  unfold glyph.is_carriage_return
  decide

theorem make_glyph_no_carriage_return (gc : opengl_graphics_context) (text : List Char)
    (hcr : ∀ c ∈ text, c ≠ '\r') (aFontSelector : Nat → font) (clusterMap : List cluster)
    (textDirections : List text_direction) (runStart : Nat) (g : hb_glyph) :
    ¬ (make_glyph gc text aFontSelector clusterMap textDirections runStart g).is_carriage_return := by
  rintro ⟨h1, h2⟩
  unfold make_glyph glyph.is_whitespace at h1
  simp only [decide_eq_true_eq] at h1
  unfold make_glyph glyph.value at h2
  simp only [h1, if_true] at h2
  exact getD_no_carriage_return text hcr _ h2

theorem shape_glyphs_no_carriage_return (gc : opengl_graphics_context) (text : List Char)
    (hcr : ∀ c ∈ text, c ≠ '\r') (aFontSelector : Nat → font) (clusterMap : List cluster)
    (textDirections : List text_direction) (runStart : Nat) :
    ∀ infos : List hb_glyph,
      ∀ g ∈ shape_glyphs gc text aFontSelector clusterMap textDirections runStart infos,
        ¬ g.is_carriage_return := by
  intro infos
  induction infos with
  | nil => intro g hg; simp [shape_glyphs] at hg
  | cons g0 rest ih =>
    cases rest with
    | nil =>
      intro g hg
      simp only [shape_glyphs, List.mem_singleton] at hg
      rw [hg]
      exact make_glyph_no_carriage_return gc text hcr _ _ _ _ _
    | cons g2 rest2 =>
      intro g hg
      unfold shape_glyphs at hg
      rcases List.mem_cons.1 hg with e | e
      · rw [e]
        exact make_glyph_no_carriage_return gc text hcr aFontSelector clusterMap textDirections
          runStart g0
      · exact ih g e

theorem shape_runs_no_carriage_return (gc : opengl_graphics_context) (text : List Char)
    (hcr : ∀ c ∈ text, c ≠ '\r') (aFontSelector : Nat → font) (clusterMap : List cluster)
    (codePoints : List Nat) (textDirections : List text_direction) :
    ∀ rs : List run,
      ∀ g ∈ shape_runs gc text aFontSelector clusterMap codePoints textDirections rs,
        ¬ g.is_carriage_return := by
  intro rs
  induction rs with
  | nil => intro g hg; simp [shape_runs] at hg
  | cons r rs ih =>
    intro g hg
    unfold shape_runs at hg
    rcases List.mem_append.1 hg with e | e
    · exact shape_glyphs_no_carriage_return gc text hcr _ _ _ _ _ g e
    · exact ih g e

theorem to_glyph_text_impl_no_carriage_return (gc : opengl_graphics_context) (text : List Char)
    (hcr : ∀ c ∈ text, c ≠ '\r') (aFontSelector : Nat → font) :
    ∀ g ∈ (gc.to_glyph_text_impl text aFontSelector).1, ¬ g.is_carriage_return := by
  intro g hg
  unfold opengl_graphics_context.to_glyph_text_impl at hg
  split at hg
  · simp at hg
  · simp only at hg
    split at hg
    · simp at hg
    · exact shape_runs_no_carriage_return gc text hcr _ _ _ _ _ g hg

theorem merge_fallback_no_carriage_return :
    ∀ (result fallbackResult : List glyph),
      (∀ g ∈ result, ¬ g.is_carriage_return) → (∀ g ∈ fallbackResult, ¬ g.is_carriage_return) →
      ∀ g ∈ merge_fallback result fallbackResult, ¬ g.is_carriage_return := by
  intro result
  induction result with
  | nil => intro _ _ _ g hg; simp [merge_fallback] at hg
  | cons g0 gs ih =>
    intro fb h1 h2 g hg
    unfold merge_fallback at hg
    rcases List.mem_cons.1 hg with e | e
    · rw [e]
      split
      · have hh : ¬ (fb.headD default).is_carriage_return := by
          cases fb with
          | nil => exact default_glyph_no_carriage_return
          | cons f fs => exact h2 f (List.mem_cons_self _ _)
        exact hh
      · exact h1 g0 (List.mem_cons_self _ _)
    · exact ih fb.tail (fun q hq => h1 q (List.mem_cons_of_mem _ hq))
        (fun q hq => h2 q (List.mem_of_mem_tail hq)) g e

/-- No glyph that `to_glyph_text` shapes from a text without carriage returns
is a carriage-return glyph. -/
theorem to_glyph_text_no_carriage_return (gc : opengl_graphics_context) (text : List Char)
    (hcr : ∀ c ∈ text, c ≠ '\r') (aFontSelector : Nat → font) :
    ∀ g ∈ gc.to_glyph_text text aFontSelector, ¬ g.is_carriage_return := by
  intro g hg
  unfold opengl_graphics_context.to_glyph_text at hg
  simp only at hg
  split at hg
  · exact merge_fallback_no_carriage_return _ _
      (to_glyph_text_impl_no_carriage_return gc text hcr aFontSelector)
      (to_glyph_text_impl_no_carriage_return gc text hcr _) g hg
  · exact to_glyph_text_impl_no_carriage_return gc text hcr aFontSelector g hg

theorem glyph_at_no_carriage_return (gs : List glyph) (h : ∀ g ∈ gs, ¬ g.is_carriage_return)
    (i : Nat) : ¬ (glyph_at gs i).is_carriage_return := by
  unfold glyph_at
  by_cases hi : i < gs.length
  · rw [List.getD_eq_getElem _ _ hi]
    exact h _ (List.getElem_mem _)
  · rw [List.getD_eq_default _ _ (by omega)]
    exact default_glyph_no_carriage_return

/-- The glyphs `refresh_paragraph` builds from a text without carriage returns
hold no carriage-return glyph, for every shaper that makes none from such a
text; in particular no paragraph starts with one. -/
theorem refresh_paragraph_no_carriage_return (h : host) (d : text_edit)
    (hsh : ∀ buf fs, (∀ c ∈ buf, c ≠ '\r') → ∀ g ∈ h.to_glyph_text buf fs, ¬ g.is_carriage_return)
    (hcr : ∀ c ∈ d.text, c ≠ '\r') :
    (∀ i, ¬ (glyph_at (d.refresh_paragraph h).iGlyphs i).is_carriage_return) ∧
    ∀ p, ¬ starts_with_carriage_return (d.refresh_paragraph h).iGlyphs p := by
  have key := refresh_paragraph_loop_inv h d (fun _ gs _ => ∀ g ∈ gs, ¬ g.is_carriage_return)
    (by
      intro paragraphStart ch gs ps c _ _ _ _ hQ g hg
      rcases List.mem_append.1 hg with e | e
      · exact hQ g e
      · refine hsh _ _ ?_ g e
        intro c hc
        exact hcr c (List.mem_of_mem_drop (List.mem_of_mem_take hc)))
    d.text 0 0 [] [] rfl (Nat.zero_le _) (le_refl _) (fun _ => rfl)
    (fun g hg => absurd hg (List.not_mem_nil g))
  have all : ∀ i, ¬ (glyph_at (d.refresh_paragraph h).iGlyphs i).is_carriage_return := by
    intro i hi
    have h0 := glyph_at_no_carriage_return _ key i
    apply h0
    unfold glyph.is_carriage_return at hi ⊢
    unfold text_edit.refresh_paragraph at hi
    simp only at hi
    rw [position_paragraphs_is_whitespace, position_paragraphs_value] at hi
    exact hi
  exact ⟨all, fun p => all p.start_index⟩

/-- The text of a widget stays free of carriage returns under `insert_text`,
which drops them from the text it inserts. -/
theorem insert_text_no_carriage_return (h : host) (d : text_edit) (aText : List Char)
    (aStyle : style) (aMoveCursor : Bool) (hcr : ∀ c ∈ d.text, c ≠ '\r') :
    ∀ c ∈ (d.insert_text h aText aStyle aMoveCursor).1.text, c ≠ '\r' := by
  intro c hc
  unfold text_edit.text at hc hcr
  rw [(insert_text_result h d aText aStyle aMoveCursor).2] at hc
  simp only [List.map_append, List.map_map, List.mem_append, List.mem_map] at hc
  rcases hc with (⟨x, hx, e⟩ | ⟨x, hx, e⟩) | ⟨x, hx, e⟩
  · exact hcr c (List.mem_map.2 ⟨x, List.mem_of_mem_take hx, e⟩)
  · have hx2 := List.mem_of_mem_take hx
    simp only [Function.comp] at e
    subst e
    simpa using (List.mem_filter.1 hx2).2
  · exact hcr c (List.mem_map.2 ⟨x, List.mem_of_mem_drop hx, e⟩)

/-- After `insert_text` into a widget whose text holds no carriage return,
through a graphics context's `to_glyph_text`, no paragraph starts with a
carriage-return glyph. -/
theorem insert_text_no_carriage_return_glyph (gc : opengl_graphics_context) (h : host)
    (hh : h.to_glyph_text = gc.to_glyph_text) (d : text_edit) (aText : List Char) (aStyle : style)
    (aMoveCursor : Bool) (hcr : ∀ c ∈ d.text, c ≠ '\r') :
    ∀ p, ¬ starts_with_carriage_return (d.insert_text h aText aStyle aMoveCursor).1.iGlyphs p := by
  have ht := insert_text_no_carriage_return h d aText aStyle aMoveCursor hcr
  rw [(insert_text_glyphs h d aText aStyle aMoveCursor).1]
  refine (refresh_paragraph_no_carriage_return h _ ?_ ?_).2
  · intro buf fs hb g hg
    rw [hh] at hg
    exact to_glyph_text_no_carriage_return gc buf hb fs g hg
  · exact ht

/-! ## `refresh_paragraph` leaves the glyphs positioned -/

theorem glyph_at_set_ne (gs : List glyph) (g i : Nat) (v : glyph) (h : g ≠ i) :
    glyph_at (gs.set g v) i = glyph_at gs i := by
  unfold glyph_at
  rw [List.getD_eq_getElem?_getD, List.getD_eq_getElem?_getD, List.getElem?_set_ne h]

theorem glyph_at_set_eq (gs : List glyph) (g : Nat) (v : glyph) (h : g < gs.length) :
    glyph_at (gs.set g v) g = v := by
  unfold glyph_at
  rw [List.getD_eq_getElem?_getD, List.getElem?_set_self h]
  rfl

theorem position_glyphs_length :
    ∀ n gs g x, (position_glyphs gs g n x).length = gs.length := by
  intro n
  induction n with
  | zero => intro gs g x; rfl
  | succ n ih =>
    intro gs g x
    unfold position_glyphs
    rw [ih, List.length_set]

theorem position_glyphs_cx (n : Nat) (gs : List glyph) (g : Nat) (x : Int) (i : Nat) :
    (glyph_at (position_glyphs gs g n x) i).cx = (glyph_at gs i).cx :=
  glyph_at_of_map (fun q => q.cx) _ _ (position_glyphs_map (fun q => q.cx) (fun _ _ => rfl) n gs g x) i

theorem position_paragraphs_cx (ps : List glyph_paragraph) (gs : List glyph) (i : Nat) :
    (glyph_at (position_paragraphs ps gs) i).cx = (glyph_at gs i).cx :=
  glyph_at_of_map (fun q => q.cx) _ _ (position_paragraphs_map (fun q => q.cx) (fun _ _ => rfl) ps gs) i

/-- Glyphs outside the range `[g, g + n)` keep their place. -/
theorem position_glyphs_outside :
    ∀ n gs g x i, i < g ∨ g + n ≤ i → glyph_at (position_glyphs gs g n x) i = glyph_at gs i := by
  intro n
  induction n with
  | zero => intro gs g x i _; rfl
  | succ n ih =>
    intro gs g x i hi
    unfold position_glyphs
    rw [ih _ _ _ i (by omega), glyph_at_set_ne _ _ _ _ (by omega)]

/-- Inside the range the first glyph is at `x` and every further glyph where
the glyph before it ends. -/
theorem position_glyphs_inside :
    ∀ n gs g x, g + n ≤ gs.length →
      (0 < n → (glyph_at (position_glyphs gs g n x) g).x = x) ∧
      ∀ k, k + 1 < n →
        (glyph_at (position_glyphs gs g n x) (g + k + 1)).x
          = (glyph_at (position_glyphs gs g n x) (g + k)).x
            + (glyph_at (position_glyphs gs g n x) (g + k)).cx := by
  intro n
  induction n with
  | zero =>
    intro gs g x _
    exact ⟨fun h => absurd h (by omega), fun k hk => absurd hk (by omega)⟩
  | succ n ih =>
    intro gs g x hlen
    have hset : (gs.set g { glyph_at gs g with x := x }).length = gs.length := List.length_set _ _ _
    obtain ⟨i1, i2⟩ := ih (gs.set g { glyph_at gs g with x := x }) (g + 1)
      (x + (glyph_at gs g).cx) (by rw [hset]; omega)
    have hfirst : (glyph_at (position_glyphs gs g (n + 1) x) g).x = x := by
      unfold position_glyphs
      rw [position_glyphs_outside _ _ _ _ g (by omega), glyph_at_set_eq _ _ _ (by omega)]
    have hcx : (glyph_at (position_glyphs gs g (n + 1) x) g).cx = (glyph_at gs g).cx :=
      position_glyphs_cx _ _ _ _ _
    refine ⟨fun _ => hfirst, ?_⟩
    intro k hk
    by_cases hk0 : k = 0
    · subst hk0
      have goal0 : (glyph_at (position_glyphs gs g (n + 1) x) (g + 1)).x
          = (glyph_at (position_glyphs gs g (n + 1) x) g).x
            + (glyph_at (position_glyphs gs g (n + 1) x) g).cx := by
        rw [hfirst, hcx]
        unfold position_glyphs
        exact i1 (by omega)
      exact goal0
    · have e := i2 (k - 1) (by omega)
      have e1 : g + 1 + (k - 1) + 1 = g + k + 1 := by omega
      have e2 : g + 1 + (k - 1) = g + k := by omega
      rw [e1, e2] at e
      unfold position_glyphs
      exact e

/-- Positioning the paragraphs of a list leaves alone every glyph that lies
before all of them. -/
theorem position_paragraphs_below :
    ∀ (ps : List glyph_paragraph) (gs : List glyph) (i : Nat),
      (∀ P ∈ ps, i < P.start_index ∨ P.end_index ≤ P.start_index) →
      glyph_at (position_paragraphs ps gs) i = glyph_at gs i := by
  intro ps
  induction ps with
  | nil => intro gs i _; rfl
  | cons p ps ih =>
    intro gs i h
    unfold position_paragraphs
    split
    · exact ih gs i (fun P hP => h P (List.mem_cons_of_mem _ hP))
    · rw [ih _ i (fun P hP => h P (List.mem_cons_of_mem _ hP))]
      apply position_glyphs_outside
      rcases h p (List.mem_cons_self _ _) with e | e
      · exact Or.inl e
      · by_cases hi : i < p.start_index
        · exact Or.inl hi
        · right; omega

theorem position_paragraphs_positioned :
    ∀ (ps : List glyph_paragraph) (gs : List glyph),
      ps.Pairwise (fun a b => a.end_index ≤ b.start_index) →
      (∀ P ∈ ps, P.start_index ≤ P.end_index ∧ P.end_index ≤ gs.length) →
      (∀ i, 0 ≤ (glyph_at gs i).cx) →
      ∀ P ∈ ps, positioned (position_paragraphs ps gs) P := by
  intro ps
  induction ps with
  | nil => intro gs _ _ _ P hP; exact absurd hP (List.not_mem_nil P)
  | cons p ps ih =>
    intro gs hpw hb hcx P hP
    have hpw2 := List.pairwise_cons.1 hpw
    rcases List.mem_cons.1 hP with e | e
    · subst e
      have hbP := hb P (List.mem_cons_self _ _)
      have keep : ∀ gs1 i, i < P.end_index →
          glyph_at (position_paragraphs ps gs1) i = glyph_at gs1 i := by
        intro gs1 i hi
        apply position_paragraphs_below
        intro Q hQ
        have := hpw2.1 Q hQ
        left; omega
      unfold position_paragraphs
      split
      · rename_i he
        refine ⟨fun h => absurd h (by omega), fun i h1 h2 => absurd h2 (by omega), ?_⟩
        intro i _ _
        rw [position_paragraphs_cx]
        exact hcx i
      · obtain ⟨i1, i2⟩ := position_glyphs_inside (P.end_index - P.start_index) gs P.start_index 0
          (by omega)
        refine ⟨?_, ?_, ?_⟩
        · intro h
          rw [keep _ _ h]
          exact i1 (by omega)
        · intro i h1 h2
          rw [keep _ _ h2, keep _ _ (by omega)]
          have e := i2 (i - P.start_index) (by omega)
          have e1 : P.start_index + (i - P.start_index) = i := by omega
          rw [e1] at e
          exact e
        · intro i _ _
          rw [position_paragraphs_cx, position_glyphs_cx]
          exact hcx i
    · have hrec : ∀ gs1, gs1.length = gs.length → (∀ i, 0 ≤ (glyph_at gs1 i).cx) →
          positioned (position_paragraphs ps gs1) P := by
        intro gs1 hl hc
        exact ih gs1 hpw2.2
          (fun Q hQ => by have := hb Q (List.mem_cons_of_mem _ hQ); rw [hl]; exact this) hc P e
      unfold position_paragraphs
      split
      · exact hrec gs rfl hcx
      · exact hrec _ (position_glyphs_length _ _ _ _)
          (fun i => by rw [position_glyphs_cx]; exact hcx i)

/-- The paragraphs `refresh_paragraph` builds come with positioned glyphs: for
a shaper that yields at least one glyph for a non-empty buffer and advances
that are not negative, every paragraph's glyph range is in order and its
glyphs are at running x positions from 0. -/
theorem refresh_paragraph_positioned (h : host) (d : text_edit)
    (hne : ∀ buf fs, buf ≠ [] → h.to_glyph_text buf fs ≠ [])
    (hadv : ∀ buf fs, ∀ g ∈ h.to_glyph_text buf fs, 0 ≤ g.cx) :
    ∀ P ∈ (d.refresh_paragraph h).iGlyphParagraphs,
      P.start_index ≤ P.end_index ∧ positioned (d.refresh_paragraph h).iGlyphs P := by
  have key := refresh_paragraph_loop_inv h d
    (fun _ gs ps => (∀ P ∈ ps, P.start_index ≤ P.end_index ∧ P.end_index ≤ gs.length) ∧
      ps.Pairwise (fun a b => a.end_index ≤ b.start_index) ∧ ∀ g ∈ gs, 0 ≤ g.cx)
    (by
      intro paragraphStart ch gs ps c hp hlt hc _ hQ
      obtain ⟨q1, q2, q3⟩ := hQ
      have hbl := take_drop_length d.text paragraphStart ch hp hlt
      have hbuf : (d.text.drop paragraphStart).take (ch + 1 - paragraphStart) ≠ [] := by
        intro h0
        rw [h0] at hbl
        simp at hbl
        omega
      have hgt := List.length_pos.2 (hne _ (d.fs paragraphStart) hbuf)
      have hg := hadv ((d.text.drop paragraphStart).take (ch + 1 - paragraphStart)) (d.fs paragraphStart)
      generalize h.to_glyph_text ((d.text.drop paragraphStart).take (ch + 1 - paragraphStart))
        (d.fs paragraphStart) = gt at hgt hg ⊢
      have hsz : gs.length ≤ size_sub (gs ++ gt).length (if c = '\n' then 1 else 0) ∧
          size_sub (gs ++ gt).length (if c = '\n' then 1 else 0) ≤ (gs ++ gt).length := by
        rw [List.length_append]
        by_cases hc2 : c = '\n'
        · simp only [hc2, if_true, size_sub]
          rw [if_pos (by omega)]
          omega
        · simp only [hc2, if_false, size_sub]
          rw [if_pos (by omega)]
          omega
      refine ⟨?_, ?_, ?_⟩
      · intro P hP
        rcases List.mem_append.1 hP with e | e
        · have := q1 P e
          rw [List.length_append]
          omega
        · simp only [List.mem_singleton] at e
          subst e
          exact ⟨hsz.1, hsz.2⟩
      · rw [List.pairwise_append]
        refine ⟨q2, List.pairwise_singleton _ _, ?_⟩
        intro a ha b hb
        simp only [List.mem_singleton] at hb
        subst hb
        exact (q1 a ha).2
      · intro g hg2
        rcases List.mem_append.1 hg2 with e | e
        · exact q3 g e
        · exact hg g e)
    d.text 0 0 [] [] rfl (Nat.zero_le _) (le_refl _) (fun _ => rfl)
    ⟨fun P hP => absurd hP (List.not_mem_nil P), List.Pairwise.nil,
      fun g hg => absurd hg (List.not_mem_nil g)⟩
  obtain ⟨k1, k2, k3⟩ := key
  have hcx : ∀ i, 0 ≤ (glyph_at (d.refresh_paragraph_loop h d.text 0 0 [] []).1 i).cx := by
    intro i
    unfold glyph_at
    by_cases hi : i < (d.refresh_paragraph_loop h d.text 0 0 [] []).1.length
    · rw [List.getD_eq_getElem _ _ hi]
      exact k3 _ (List.getElem_mem _)
    · rw [List.getD_eq_default _ _ (by omega)]
      decide
  intro P hP
  exact ⟨(k1 P hP).1, position_paragraphs_positioned _ _ k2 k1 hcx P hP⟩

/-! ## Shapers in text order span their buffer -/

theorem tiles_after_last (b : Nat) :
    ∀ (rest : List (Nat × Nat)) (s : Nat × Nat), tiles_after s rest b →
      ((s :: rest).getD rest.length (0, 0)).2 = b := by
  intro rest
  induction rest with
  | nil => intro s h; exact h
  | cons t rest ih =>
    intro s h
    have := ih t h.2
    simpa using this

/-- Source ranges that tile a non-empty span start at its start and end at its
end. -/
theorem tiles_spans (gs : List glyph) (n : Nat) (hn : 0 < n)
    (h : tiles 0 (gs.map glyph.source) n) :
    gs ≠ [] ∧ (glyph_at gs 0).source.1 = 0 ∧ (glyph_at gs (gs.length - 1)).source.2 = n := by
  cases gs with
  | nil =>
    simp only [List.map_nil, tiles] at h
    omega
  | cons g rest =>
    simp only [List.map_cons, tiles] at h
    refine ⟨by simp, ?_, ?_⟩
    · simpa [glyph_at] using h.1
    · have hl := tiles_after_last n (rest.map glyph.source) g.source h.2.2
      rw [List.length_map] at hl
      have e : (g.source :: rest.map glyph.source) = (g :: rest).map glyph.source := rfl
      rw [e] at hl
      have e2 : ((0 : Nat), (0 : Nat)) = (default : glyph).source := rfl
      rw [e2, List.getD_map] at hl
      simpa [glyph_at] using hl

/-- The shaper `to_glyph_text` of a graphics context that decodes and shapes in
text order, without mnemonic and with an aligned fallback pass, spans its
buffer; a document rebuilt through it has the shape `spanned_layout`. -/
theorem to_glyph_text_spans_buffer (gc : opengl_graphics_context) (hd : decodes_in_order gc)
    (hm : gc.iMnemonic = none) (hs : shapes_in_order gc) (ha : fallback_aligned gc) :
    spans_buffer gc.to_glyph_text := by
  intro buf fs hbuf
  exact tiles_spans _ _ (List.length_pos.2 hbuf) (to_glyph_text_tiles gc hd hm hs ha buf fs hbuf)

end neogfx
